import Mathlib

/-!
RedPanda-CPP preprocessor: a shallow embedding of `parser/cpppreprocessor.cpp`.

The C++ member functions of `CppPreprocessor` are rendered as Lean functions over explicit
state.  Strings are lists of characters, hash tables are association lists, `int` is `Int`
(or `Nat` for cursors that only grow), and executions that the C++ text leaves undefined or
that need not finish are reported through `Run`.
-/

namespace RedPanda

/-! ## Qt strings -/

/-- A `QString`, as the list of its characters. -/
abbrev QString := List Char

/-- The `QChar::isSpace` test used by `QString::trimmed`. -/
def qIsSpace (c : Char) : Bool :=
  c == ' ' || (9 ≤ c.toNat && c.toNat ≤ 13) || c.toNat == 0x85 || c.toNat == 0xA0 ||
  c.toNat == 0x1680 || (0x2000 ≤ c.toNat && c.toNat ≤ 0x200A) || c.toNat == 0x2028 ||
  c.toNat == 0x2029 || c.toNat == 0x202F || c.toNat == 0x205F || c.toNat == 0x3000

/-- The result of `QString::trimmed`: white space removed at both ends. -/
def trimmed (s : QString) : QString :=
  ((s.dropWhile qIsSpace).reverse.dropWhile qIsSpace).reverse

/-- The result of `QString::mid(pos, n)`; a negative `n` (the default `-1`) or an `n` past the
end selects everything from `pos` on, and a `pos` past the end gives the null string. -/
def mid (s : QString) (pos : Int) (n : Int) : QString :=
  if pos > s.length then []
  else if pos < 0 then
    if n < 0 ∨ n + pos ≥ s.length then s
    else if n + pos ≤ 0 then []
    else s.take (n + pos).toNat
  else if n < 0 ∨ n > s.length - pos then s.drop pos.toNat
  else (s.drop pos.toNat).take n.toNat

/-- The result of `QString::mid(pos)`. -/
def midFrom (s : QString) (pos : Int) : QString := mid s pos (-1)

/-- The result of `QString::startsWith`. -/
def startsWith (s p : QString) : Bool := p.isPrefixOf s

/-- The result of `QString::split(sep)` with empty parts kept. -/
def split (sep : Char) : QString → List QString
  | [] => [[]]
  | c :: cs =>
    if c = sep then [] :: split sep cs
    else match split sep cs with
      | [] => [[c]]
      | p :: ps => (c :: p) :: ps

/-- The result of `QString::remove(pos, len)` for a position inside the string. -/
def qRemove (s : QString) (pos : Nat) (len : Int) : QString :=
  if pos ≥ s.length then s
  else if len ≤ 0 then s
  else s.take pos ++ s.drop (pos + len.toNat)

/-- The result of `QString::insert(pos, t)`; inserting nothing changes nothing, and a position
past the end pads with spaces. -/
def qInsert (s : QString) (pos : Nat) (t : QString) : QString :=
  if t = [] then s
  else if pos > s.length then s ++ List.replicate (pos - s.length) ' ' ++ t
  else s.take pos ++ t ++ s.drop pos

/-- Decimal digit test, `ch>='0' && ch<='9'`. -/
def isDigit (ch : Char) : Bool := '0' ≤ ch && ch ≤ '9'

/-- The value of a decimal digit. -/
def digitValue (ch : Char) : Nat := ch.toNat - '0'.toNat

/-- A piece of a format string as `QString::arg` reads it: a plain character or a place marker
`%n` / `%Ln` with its number and its original text. -/
inductive ArgItem where
  | text (c : Char)
  | marker (n : Nat) (raw : QString)
  deriving DecidableEq, Repr

/-- Scanner state of `QString::arg`: in plain text, after `%`, after `%L`, after a first digit. -/
inductive ArgScan where
  | plain
  | percent
  | percentL
  | digit (n : Nat) (raw : QString)
  deriving DecidableEq, Repr

/-- One character of the place-marker scan of `QString::arg`. -/
def argStep (st : ArgScan) (c : Char) : ArgScan × List ArgItem :=
  match st with
  | .plain => if c = '%' then (.percent, []) else (.plain, [.text c])
  | .percent =>
    if c = 'L' then (.percentL, [])
    else if isDigit c then (.digit (digitValue c) ['%', c], [])
    else if c = '%' then (.percent, [.text '%'])
    else (.plain, [.text '%', .text c])
  | .percentL =>
    if isDigit c then (.digit (digitValue c) ['%', 'L', c], [])
    else if c = '%' then (.percent, [.text '%', .text 'L'])
    else (.plain, [.text '%', .text 'L', .text c])
  | .digit n raw =>
    if isDigit c then (.plain, [.marker (10 * n + digitValue c) (raw ++ [c])])
    else if c = '%' then (.percent, [.marker n raw])
    else (.plain, [.marker n raw, .text c])

/-- What an unfinished scan leaves at the end of the string. -/
def argFinish : ArgScan → List ArgItem
  | .plain => []
  | .percent => [.text '%']
  | .percentL => [.text '%', .text 'L']
  | .digit n raw => [.marker n raw]

/-- The format string cut into plain characters and place markers. -/
def argItems : ArgScan → QString → List ArgItem
  | st, [] => argFinish st
  | st, c :: cs => (argStep st c).2 ++ argItems (argStep st c).1 cs

/-- The lowest place-marker number of a scanned format string, if it has a marker. -/
def minMarker : List ArgItem → Option Nat
  | [] => none
  | .text _ :: rest => minMarker rest
  | .marker n _ :: rest =>
    match minMarker rest with
    | none => some n
    | some m => some (min n m)

/-- The result of `QString::arg(a)`: every occurrence of the lowest-numbered place marker is
replaced by `a`; a string without a marker is returned as it is. -/
def arg (s a : QString) : QString :=
  match minMarker (argItems .plain s) with
  | none => s
  | some m =>
    (argItems .plain s).flatMap fun item =>
      match item with
      | .text c => [c]
      | .marker n raw => if n = m then a else raw

/-- The result of `QString::replace("%%","%")`. -/
def replacePercentPercent : QString → QString
  | [] => []
  | [c] => [c]
  | c :: d :: rest =>
    if c = '%' ∧ d = '%' then '%' :: replacePercentPercent rest
    else c :: replacePercentPercent (d :: rest)

/-! ## Character classes of `CppPreprocessor` -/

/-- Function `CppPreprocessor::isWordChar`. -/
def isWordChar (ch : Char) : Bool :=
  ch == '_' || ('a' ≤ ch && ch ≤ 'z') || ('A' ≤ ch && ch ≤ 'Z') ||
  ('0' ≤ ch && ch ≤ '9')

/-- Function `CppPreprocessor::isSpaceChar`. -/
def isSpaceChar (ch : Char) : Bool := ch == ' ' || ch == '\t'

/-- Function `CppPreprocessor::isMacroIdentChar`. -/
def isMacroIdentChar (ch : Char) : Bool :=
  ('A' ≤ ch && ch ≤ 'Z') || ('a' ≤ ch && ch ≤ 'z') || ch == '_'

/-- Function `CppPreprocessor::isNumberChar`. -/
def isNumberChar (ch : Char) : Bool :=
  ('0' ≤ ch && ch ≤ '9') || ('a' ≤ ch && ch ≤ 'f') || ('A' ≤ ch && ch ≤ 'F') ||
  ch == 'x' || ch == 'X' || ch == 'u' || ch == 'U' || ch == 'l' || ch == 'L'

/-! ## The macro table -/

/-- A macro definition (`Define`). -/
structure Define where
  name : QString
  args : QString
  value : QString
  filename : QString
  argList : List QString
  formatValue : QString
  hardCoded : Bool
  deriving DecidableEq, Repr

/-- A `DefineMap` (`QHash<QString,PDefine>`), as an association list with one entry per key. -/
abbrev DefineMap := List (QString × Define)

/-- The result of `QHash::insert`: the entry of `k` is replaced or added. -/
def hashInsert {β : Type} (m : List (QString × β)) (k : QString) (v : β) :
    List (QString × β) :=
  (k, v) :: m.filter (fun e => e.1 != k)

/-- The result of `QHash::remove`. -/
def hashRemove {β : Type} (m : List (QString × β)) (k : QString) : List (QString × β) :=
  m.filter (fun e => e.1 != k)

/-- The result of `QHash::value(k)`, `none` standing for the default (null) value. -/
def hashValue {β : Type} (m : List (QString × β)) (k : QString) : Option β :=
  (m.find? (fun e => e.1 == k)).map Prod.snd

/-- Function `CppPreprocessor::getDefine` on the active table `mDefines`; `none` is the null
pointer. -/
def getDefine (mDefines : DefineMap) (name : QString) : Option Define :=
  hashValue mDefines name

/-! ## Macro expansion -/

/-- Function `CppPreprocessor::expandFunction`. -/
def expandFunction (define : Define) (args : QString) : QString :=
  let args := if args.head? = some '(' then args.tail else args
  let args := if args.getLast? = some ')' then args.dropLast else args
  let argValues := split ',' args
  let result := argValues.foldl (fun r argValue => arg r (trimmed argValue)) define.formatValue
  replacePercentPercent result

/-- The loop `while ((i<lenLine) && (line[i] == ' ' || line[i]=='\t')) i++`, run on the text
from `i` on; the new `i`. -/
def skipBlanks : List Char → Nat → Nat
  | [], i => i
  | c :: rest, i => if c = ' ' ∨ c = '\t' then skipBlanks rest (i + 1) else i

/-- The parenthesis scan of `expandMacro`, run on the text from `i` on:
`while (i<lenLine) { level++ on '(' / level-- on ')'; i++; if (level==0) break; }`.
The final `level` and `i`. -/
def scanParens : List Char → Int → Nat → Int × Nat
  | [], level, i => (level, i)
  | c :: rest, level, i =>
    let level := if c = '(' then level + 1 else if c = ')' then level - 1 else level
    if level = 0 then (level, i + 1) else scanParens rest level (i + 1)

/-- Function `CppPreprocessor::expandMacro`; `expand` is `expandMacros(·, depth+1)`.  The new
`newLine` and `i`. -/
def expandMacro (expand : QString → QString) (mDefines : DefineMap)
    (line newLine word : QString) (i : Nat) : QString × Nat :=
  if word = "__attribute__".toList then
    let i := skipBlanks (line.drop i) i
    if line.get? i = some '(' then (newLine, (scanParens (line.drop i) 0 i).2)
    else (newLine, i)
  else
    match getDefine mDefines word with
    | none => (newLine ++ word, i)
    | some define =>
      if define.args = [] then
        if define.value ≠ word then (newLine ++ expand define.value, i)
        else (newLine ++ word, i)
      else
        let i := skipBlanks (line.drop i) i
        if line.get? i = some '(' then
          let argStart := i + 1
          let scan := scanParens (line.drop i) 0 i
          if scan.1 = 0 then
            let argEnd : Int := (scan.2 : Int) - 2
            let args := trimmed (mid line argStart (argEnd - argStart + 1))
            let formattedValue := expandFunction define args
            (newLine ++ expand formattedValue, scan.2)
          else (newLine, scan.2)
        else (newLine, i)

/-- The `while (i< lenLine)` loop of `expandMacros` from the state `(i, word, newLine)`; every
round advances `i`, so `n` rounds are enough for a line with `n` characters left. -/
def expandMacrosLoop (expand : QString → QString) (mDefines : DefineMap) (line : QString) :
    Nat → Nat → QString → QString → Nat × QString × QString
  | 0, i, word, newLine => (i, word, newLine)
  | n + 1, i, word, newLine =>
    match line.get? i with
    | none => (i, word, newLine)
    | some ch =>
      if isWordChar ch then expandMacrosLoop expand mDefines line n (i + 1) (word ++ [ch]) newLine
      else
        let r := if word ≠ [] then expandMacro expand mDefines line newLine word i
                 else (newLine, i)
        let newLine := if r.2 < line.length then r.1 ++ [ch] else r.1
        expandMacrosLoop expand mDefines line n (r.2 + 1) [] newLine

/-- The body of `expandMacros` below the depth guard, with `expand` for the calls at
`depth+1`. -/
def expandMacrosBody (expand : QString → QString) (mDefines : DefineMap) (line : QString) :
    QString :=
  let s := expandMacrosLoop expand mDefines line line.length 0 [] []
  if s.2.1 ≠ [] then (expandMacro expand mDefines line s.2.2 s.2.1 s.1).1 else s.2.2

/-- Function `expandMacros` by the number of nesting levels still allowed: none left is
`depth > MAX_DEFINE_EXPAND_DEPTH`. -/
def expandMacrosAux (mDefines : DefineMap) : Nat → QString → QString
  | 0, line => line
  | levels + 1, line => expandMacrosBody (expandMacrosAux mDefines levels) mDefines line

/-- Function `CppPreprocessor::expandMacros(line, depth)`.  `maxDepth` is
`MAX_DEFINE_EXPAND_DEPTH`, a constant of the header. -/
def expandMacros (maxDepth : Nat) (mDefines : DefineMap) (line : QString) (depth : Int) :
    QString :=
  expandMacrosAux mDefines (maxDepth + 1 - depth).toNat line

/-- An object-like macro named `name` whose value is its own name. -/
def selfDefine (name : QString) : Define :=
  { name := name, args := [], value := name, filename := [], argList := [],
    formatValue := name, hardCoded := false }

/-- The macro table holding only `__attribute__`, defined as itself. -/
def attributeTable : DefineMap :=
  [("__attribute__".toList, selfDefine "__attribute__".toList)]

/-! ## Executions that fault or do not finish -/

/-- Why a modelled execution has no result. -/
inductive Fault where
  /-- The step budget of the model ran out before the C++ code returned. -/
  | outOfFuel
  /-- A string or list was indexed outside its range. -/
  | outOfBounds
  /-- An integer division or remainder was executed with divisor zero. -/
  | divideByZero
  /-- Control reached the end of a value-returning function without a `return`. -/
  | missingReturn
  /-- A null shared pointer was dereferenced. -/
  | nullPointer
  deriving DecidableEq, Repr

/-- The outcome of running a piece of the C++ code: its result, or a fault. -/
inductive Run (α : Type) where
  | ok (a : α)
  | fault (f : Fault)
  deriving DecidableEq, Repr

/-- Sequencing of runs: a fault ends the execution. -/
def Run.bind {α β : Type} (r : Run α) (f : α → Run β) : Run β :=
  match r with
  | .ok a => f a
  | .fault e => .fault e

instance : Monad Run where
  pure := Run.ok
  bind := Run.bind

/-- Values that the C++ code reads without ever having written them.  They are inputs of the
model: the code fixes none of them. -/
structure Indeterminate where
  /-- The loop counter `int i` of `parseArgs`, declared without an initial value. -/
  parseArgsI : Int
  /-- The local `int defineEnd` of `expandDefines`, never assigned. -/
  defineEnd : Int
  /-- What `line[searchPos - 1]` yields in `expandDefines` when `searchPos` is 0. -/
  charBeforeStart : Char
  deriving DecidableEq, Repr

/-! ## Parsing a `#define` line -/

/-- Function `CppPreprocessor::removeGCCAttribute`; the new `newLine` and `i`. -/
def removeGCCAttribute (line newLine : QString) (i : Nat) (word : QString) : QString × Nat :=
  if word = "__attribute__".toList then
    let i := i + ((line.drop i).takeWhile isSpaceChar).length
    if line.get? i = some '(' then (newLine, (scanParens (line.drop i) 0 i).2)
    else (newLine, i)
  else (newLine ++ word, i)

/-- The `while(i< lenLine)` loop of `removeGCCAttributes` from the state `(i, word, newLine)`;
`line[i]` after the attribute scan is read even when `i` equals the length. -/
def removeGCCAttributesLoop (line : QString) :
    Nat → Nat → QString → QString → Run (Nat × QString × QString)
  | 0, i, word, newLine => .ok (i, word, newLine)
  | n + 1, i, word, newLine =>
    match line.get? i with
    | none => .ok (i, word, newLine)
    | some ch =>
      if isWordChar ch then removeGCCAttributesLoop line n (i + 1) (word ++ [ch]) newLine
      else
        let r := if word ≠ [] then removeGCCAttribute line newLine i word else (newLine, i)
        if r.2 ≤ line.length then
          match line.get? r.2 with
          | none => .fault .outOfBounds
          | some c => removeGCCAttributesLoop line n (r.2 + 1) [] (r.1 ++ [c])
        else removeGCCAttributesLoop line n (r.2 + 1) [] r.1

/-- Function `CppPreprocessor::removeGCCAttributes`; the scan starts at index 1. -/
def removeGCCAttributes (line : QString) : Run QString :=
  match removeGCCAttributesLoop line line.length 1 [] [] with
  | .fault f => .fault f
  | .ok s => if s.2.1 ≠ [] then .ok (removeGCCAttribute line s.2.2 s.1 s.2.1).1 else .ok s.2.2

/-- The locals of the scanning loop of `getDefineParts`. -/
structure DefinePartsScan where
  i : Nat
  level : Int
  isFunction : Bool
  name : QString
  argStart : Nat
  deriving DecidableEq, Repr

/-- The `while (i < s.length())` loop of `getDefineParts`, run on the text from `i` on. -/
def getDefinePartsLoop (s : QString) : List Char → DefinePartsScan → DefinePartsScan
  | [], st => st
  | c :: rest, st =>
    if c = '(' then
      let level := st.level + 1
      if level = 1 ∧ st.isFunction = false then
        getDefinePartsLoop s rest
          { i := st.i + 1, level := level, isFunction := true, name := mid s 0 st.i,
            argStart := st.i }
      else getDefinePartsLoop s rest { st with i := st.i + 1, level := level }
    else if c = ')' then getDefinePartsLoop s rest { st with i := st.i + 1, level := st.level - 1 }
    else if isSpaceChar c ∧ st.level = 0 then st
    else getDefinePartsLoop s rest { st with i := st.i + 1 }

/-- Function `CppPreprocessor::getDefineParts`: the `name`, `args` and `value` of a define
body. -/
def getDefineParts (input : QString) : Run (QString × QString × QString) :=
  let s := trimmed input
  let st := getDefinePartsLoop s s
    { i := 0, level := 0, isFunction := false, name := [], argStart := 0 }
  let name := if st.isFunction then st.name else mid s 0 st.i
  let args := if st.isFunction then mid s st.argStart ((st.i : Int) - st.argStart) else []
  match removeGCCAttributes (trimmed (midFrom s ((st.i : Int) + 1))) with
  | .fault f => .fault f
  | .ok value => .ok (name, args, value)

/-- Function `CppPreprocessor::tokenizeValue`, run on the remaining text with the token being
read and the tokens found so far. -/
def tokenizeValueLoop : List Char → QString → List QString → List QString
  | [], token, tokens => if token ≠ [] then tokens ++ [token] else tokens
  | [ch], token, tokens =>
    if isSpaceChar ch then (if token ≠ [] then tokens ++ [token] else tokens)
    else if ch = '#' then (if token ≠ [] then tokens ++ [token] else tokens) ++ [['#']]
    else if isWordChar ch then tokens ++ [token ++ [ch]]
    else (if token ≠ [] then tokens ++ [token] else tokens) ++ [[ch]]
  | ch :: d :: rest, token, tokens =>
    if isSpaceChar ch then
      tokenizeValueLoop (d :: rest) [] (if token ≠ [] then tokens ++ [token] else tokens)
    else if ch = '#' then
      if d = '#' then
        tokenizeValueLoop rest []
          ((if token ≠ [] then tokens ++ [token] else tokens) ++ [['#', '#']])
      else
        tokenizeValueLoop (d :: rest) []
          ((if token ≠ [] then tokens ++ [token] else tokens) ++ [['#']])
    else if isWordChar ch then tokenizeValueLoop (d :: rest) (token ++ [ch]) tokens
    else
      tokenizeValueLoop (d :: rest) []
        ((if token ≠ [] then tokens ++ [token] else tokens) ++ [[ch]])

/-- Function `CppPreprocessor::tokenizeValue`. -/
def tokenizeValue (value : QString) : List QString := tokenizeValueLoop value [] []

/-- The format-string loop of `parseArgs` over the tokens of the value. -/
def parseArgsFormat (argList : List QString) : List QString → QString → QString → QString
  | [], _, formatStr => formatStr
  | token :: tokens, lastToken, formatStr =>
    let formatStr :=
      if lastToken ≠ ['#', '#'] ∧ token ≠ ['#', '#'] then formatStr ++ [' '] else formatStr
    let formatStr :=
      if token ∈ argList then
        if lastToken = ['#'] then
          formatStr ++ [Char.ofNat 34, '%'] ++ Nat.toDigits 10 (argList.indexOf token + 1) ++
            [Char.ofNat 34]
        else formatStr ++ ['%'] ++ Nat.toDigits 10 (argList.indexOf token + 1)
      else if token = ['%'] then formatStr ++ ['%', '%']
      else formatStr
    parseArgsFormat argList tokens token formatStr

/-- The loop `for (int i;i<argList.size();i++) argList[i]=argList[i].trimmed()` started from
the indeterminate value `i`. -/
def parseArgsTrim (argList : List QString) (i : Int) : Run (List QString) :=
  if i ≥ argList.length then .ok argList
  else if i < 0 then .fault .outOfBounds
  else .ok (argList.take i.toNat ++ (argList.drop i.toNat).map trimmed)

/-- Function `CppPreprocessor::parseArgs`: fills `argList` and `formatValue` of a function-like
macro. -/
def parseArgs (u : Indeterminate) (define : Define) : Run Define :=
  let args := trimmed (mid define.args 1 ((define.args.length : Int) - 2))
  if args = [] then .ok define
  else
    match parseArgsTrim (split ',' args) u.parseArgsI with
    | .fault f => .fault f
    | .ok argList =>
      .ok { define with
        argList := argList
        formatValue := parseArgsFormat argList (tokenizeValue define.value) ['#', '#'] [] }

/-! ## The preprocessor state -/

/-- An entry of the include stack (`ParsedFile`).  Its `fileIncludes` pointer is the record
that `mIncludesList` holds for `fileName`. -/
structure ParsedFile where
  index : Nat
  fileName : QString
  buffer : List QString
  branches : Nat
  deriving DecidableEq, Repr

/-- The include record of a file (`FileIncludes`), with the members the preprocessor uses. -/
structure FileIncludes where
  baseFile : QString
  /-- The files included, each with the flag `true` for a direct include. -/
  includeFiles : List (QString × Bool)
  deriving DecidableEq, Repr

/-- The members of `CppPreprocessor` that the directives below read and write. -/
structure CppPreprocessor where
  /-- The active macro table. -/
  mDefines : DefineMap := []
  /-- The hard-coded macros. -/
  mHardDefines : DefineMap := []
  /-- The soft macros of each file. -/
  mFileDefines : List (QString × DefineMap) := []
  /-- The file being processed. -/
  mFileName : QString := []
  /-- The branch stack, innermost level last. -/
  mBranchResults : List Bool := []
  /-- The output lines. -/
  mResult : List QString := []
  /-- The output slot of the directive being handled. -/
  mPreProcIndex : Int := 0
  /-- The include stack, innermost file last. -/
  mIncludes : List ParsedFile := []
  /-- The cursor into `mBuffer`. -/
  mIndex : Nat := 0
  /-- The lines of the file being processed. -/
  mBuffer : List QString := []
  /-- The record `mCurrentIncludes` points to, by its file name; `none` is the null pointer. -/
  mCurrentIncludes : Option QString := none
  /-- The registry of include records, shared with the host; `none` is the null pointer. -/
  mIncludesList : Option (List (QString × FileIncludes)) := none
  /-- The set of scanned files, shared with the host; `none` is the null pointer. -/
  mScannedFiles : Option (List QString) := none
  /-- The files whose macros were merged in this pass. -/
  mProcessed : List QString := []
  mParseSystem : Bool := false
  mParseLocal : Bool := false
  mIncludePaths : List QString := []
  mProjectIncludePaths : List QString := []
  deriving DecidableEq, Repr

/-- Function `CppPreprocessor::addDefineByParts`. -/
def addDefineByParts (u : Indeterminate) (st : CppPreprocessor) (name args value : QString)
    (hardCoded : Bool) : Run CppPreprocessor :=
  let define : Define :=
    { name := name, args := args, value := value, filename := st.mFileName, argList := [],
      formatValue := value, hardCoded := hardCoded }
  match (if args ≠ [] then parseArgs u define else .ok define) with
  | .fault f => .fault f
  | .ok define =>
    if hardCoded then .ok { st with mHardDefines := hashInsert st.mHardDefines name define }
    else
      let defineMap := (hashValue st.mFileDefines st.mFileName).getD []
      .ok { st with
        mFileDefines := hashInsert st.mFileDefines st.mFileName
          (hashInsert defineMap define.name define)
        mDefines := hashInsert st.mDefines name define }

/-- Function `CppPreprocessor::addDefineByLine`; the text after the keyword is taken with
`line.mid(DEFINE_LEN,0)`. -/
def addDefineByLine (u : Indeterminate) (st : CppPreprocessor) (line : QString)
    (hardCoded : Bool) : Run CppPreprocessor :=
  let s := trimmed (mid line 6 0)
  match getDefineParts s with
  | .fault f => .fault f
  | .ok (name, args, value) => addDefineByParts u st name args value hardCoded

/-- Function `CppPreprocessor::getCurrentBranch`. -/
def getCurrentBranch (st : CppPreprocessor) : Bool :=
  match st.mBranchResults.getLast? with
  | some b => b
  | none => true

/-- Function `CppPreprocessor::setCurrentBranch`. -/
def setCurrentBranch (st : CppPreprocessor) (value : Bool) : CppPreprocessor :=
  { st with mBranchResults := st.mBranchResults ++ [value] }

/-- Function `CppPreprocessor::removeCurrentBranch`. -/
def removeCurrentBranch (st : CppPreprocessor) : CppPreprocessor :=
  { st with mBranchResults := st.mBranchResults.dropLast }

/-- Function `CppPreprocessor::handleDefine`; the assignment to `mResult[mPreProcIndex]` needs
an existing slot. -/
def handleDefine (u : Indeterminate) (st : CppPreprocessor) (line : QString) :
    Run CppPreprocessor :=
  if getCurrentBranch st then
    match addDefineByLine u st line false with
    | .fault f => .fault f
    | .ok st =>
      if 0 ≤ st.mPreProcIndex ∧ st.mPreProcIndex < st.mResult.length then
        .ok { st with mResult := st.mResult.set st.mPreProcIndex.toNat ('#' :: line) }
      else .fault .outOfBounds
  else .ok st

/-- The state in which the directive on the first line of `main.c` is handled: empty macro
tables, empty branch stack, and the output slot of the directive after the include marker. -/
def firstLineState : CppPreprocessor :=
  { mFileName := "main.c".toList
    mResult := ["#include main.c:1".toList, []]
    mPreProcIndex := 1 }

/-- The macro that `addDefineByLine` registers in `firstLineState`: every part is empty. -/
def emptyDefine : Define :=
  { name := [], args := [], value := [], filename := "main.c".toList, argList := [],
    formatValue := [], hardCoded := false }

/-- The state that handling a `define` directive `line` in `firstLineState` produces: the
macro with empty name is registered and the directive is copied to its output slot. -/
def afterDefineState (line : QString) : CppPreprocessor :=
  { firstLineState with
    mDefines := [([], emptyDefine)]
    mFileDefines := [("main.c".toList, [([], emptyDefine)])]
    mResult := ["#include main.c:1".toList, '#' :: line] }

/-- The macro that `addDefineByParts` builds in `firstLineState` from the parts `MAX`, `(a,b)`
and `((a)>(b)?(a):(b))`. -/
def maxDefine : Define :=
  { name := "MAX".toList, args := "(a,b)".toList, value := "((a)>(b)?(a):(b))".toList,
    filename := "main.c".toList, argList := ["a".toList, "b".toList],
    formatValue := "  %1    %2    %1    %2  ".toList, hardCoded := false }

/-! ## The `#if` expression evaluator -/

/-- A C++ `int` result: the mathematical value reduced to 32-bit two's complement. -/
def wrapInt (x : Int) : Int := (x + 2147483648) % 4294967296 - 2147483648

/-- The value of `c` as a digit in the given base, if it is one. -/
def digitInBase (base : Nat) (c : Char) : Option Nat :=
  let v :=
    if '0' ≤ c ∧ c ≤ '9' then c.toNat - '0'.toNat
    else if 'a' ≤ c ∧ c ≤ 'z' then c.toNat - 'a'.toNat + 10
    else if 'A' ≤ c ∧ c ≤ 'Z' then c.toNat - 'A'.toNat + 10
    else base
  if v < base then some v else none

/-- The number written by all of the given digits in the given base. -/
def parseDigits (base : Nat) : List Char → Nat → Option Nat
  | [], acc => some acc
  | c :: rest, acc =>
    match digitInBase base c with
    | none => none
    | some v => parseDigits base rest (acc * base + v)

/-- The result of `QString::toInt(&ok, 0)` on an unsigned literal: the base is read off the
prefix (`0x`, `0`, none), every character must be a digit of it, and the value must fit an
`int`; `none` is `ok == false`. -/
def toInt (s : QString) : Option Int :=
  let value :=
    match s with
    | [] => none
    | c :: rest =>
      if c = '0' ∧ (rest.head? = some 'x' ∨ rest.head? = some 'X') then
        (if rest.tail = [] then none else parseDigits 16 rest.tail 0)
      else if c = '0' then parseDigits 8 s 0
      else parseDigits 10 s 0
  match value with
  | none => none
  | some v => if v ≤ 2147483647 then some (v : Int) else none

/-- Function `CppPreprocessor::skipSpaces`: the new `pos`; the function returns `pos<expr.length()`,
which is `expr.get? pos` being a character. -/
def skipSpaces (expr : QString) (pos : Nat) : Nat :=
  pos + ((expr.drop pos).takeWhile isSpaceChar).length

/-- What an `eval…` function hands back: `some (result, pos)` when it returns `true`,
`none` when it returns `false`. -/
abbrev EvalResult := Run (Option (Int × Nat))

/-- Continue with `k` after a callee that returned `true`; `return false` and faults pass. -/
def EvalResult.andThen (r : EvalResult) (k : Int → Nat → EvalResult) : EvalResult :=
  match r with
  | .ok (some (result, pos)) => k result pos
  | .ok none => .ok none
  | .fault f => .fault f

/-- The C++ value of a comparison or logical operator. -/
def boolInt (b : Bool) : Int := if b then 1 else 0

/-- Function `CppPreprocessor::evalNumber`. -/
def evalNumber (expr : QString) (pos : Nat) : EvalResult :=
  let pos := skipSpaces expr pos
  match expr.get? pos with
  | none => .ok none
  | some _ =>
    let s := (expr.drop pos).takeWhile isNumberChar
    match toInt s with
    | none => .ok none
    | some result => .ok (some (result, pos + s.length))

/-- Function `CppPreprocessor::evalTerm`; `evalExpr` is the evaluator called for a parenthesised
expression.  The parenthesis branch ends without a `return`. -/
def evalTerm (evalExpr : QString → Nat → EvalResult) (expr : QString) (pos : Nat) :
    EvalResult :=
  let pos := skipSpaces expr pos
  match expr.get? pos with
  | none => .ok none
  | some c =>
    if c = '(' then
      (evalExpr expr (pos + 1)).andThen fun _ pos =>
        let pos := skipSpaces expr pos
        match expr.get? pos with
        | none => .ok none
        | some d => if d ≠ ')' then .ok none else .fault .missingReturn
    else evalNumber expr pos

/-- Function `CppPreprocessor::evalUnaryExpr`; the four operator branches end without a `return`. -/
def evalUnaryExpr (evalExpr : QString → Nat → EvalResult) (expr : QString) (pos : Nat) :
    EvalResult :=
  let pos := skipSpaces expr pos
  match expr.get? pos with
  | none => .ok none
  | some c =>
    if c = '+' ∨ c = '-' ∨ c = '~' ∨ c = '!' then
      (evalTerm evalExpr expr (pos + 1)).andThen fun _ _ => .fault .missingReturn
    else evalTerm evalExpr expr pos

/-- The `while (true)` loop of `evalMulExpr`; `/` and `%` are applied to whatever the right
operand is. -/
def evalMulLoop (evalExpr : QString → Nat → EvalResult) :
    Nat → QString → Int → Nat → EvalResult
  | 0, _, _, _ => .fault .outOfFuel
  | fuel + 1, expr, result, pos =>
    let pos := skipSpaces expr pos
    match expr.get? pos with
    | none => .ok (some (result, pos))
    | some c =>
      if c = '*' then
        (evalUnaryExpr evalExpr expr (pos + 1)).andThen fun rightResult pos =>
          evalMulLoop evalExpr fuel expr (wrapInt (result * rightResult)) pos
      else if c = '/' then
        (evalUnaryExpr evalExpr expr (pos + 1)).andThen fun rightResult pos =>
          if rightResult = 0 then .fault .divideByZero
          else evalMulLoop evalExpr fuel expr (wrapInt (Int.tdiv result rightResult)) pos
      else if c = '%' then
        (evalUnaryExpr evalExpr expr (pos + 1)).andThen fun rightResult pos =>
          if rightResult = 0 then .fault .divideByZero
          else evalMulLoop evalExpr fuel expr (wrapInt (Int.tmod result rightResult)) pos
      else .ok (some (result, pos))


/-- Function `CppPreprocessor::evalMulExpr`. -/
def evalMulExpr (evalExpr : QString → Nat → EvalResult) (fuel : Nat) (expr : QString)
    (pos : Nat) : EvalResult :=
  (evalUnaryExpr evalExpr expr pos).andThen fun result pos =>
    evalMulLoop evalExpr fuel expr result pos

/-- The `while (true)` loop of `evalAddExpr`. -/
def evalAddLoop (evalExpr : QString → Nat → EvalResult) :
    Nat → QString → Int → Nat → EvalResult
  | 0, _, _, _ => .fault .outOfFuel
  | fuel + 1, expr, result, pos =>
    let pos := skipSpaces expr pos
    match expr.get? pos with
    | none => .ok (some (result, pos))
    | some c =>
      if c = '+' then
        (evalMulExpr evalExpr fuel expr (pos + 1)).andThen fun rightResult pos =>
          evalAddLoop evalExpr fuel expr (wrapInt (result + rightResult)) pos
      else if c = '-' then
        (evalMulExpr evalExpr fuel expr (pos + 1)).andThen fun rightResult pos =>
          evalAddLoop evalExpr fuel expr (wrapInt (result - rightResult)) pos
      else .ok (some (result, pos))


/-- Function `CppPreprocessor::evalAddExpr`; its first statement calls `evalAddExpr` itself. -/
def evalAddExpr (evalExpr : QString → Nat → EvalResult) : Nat → QString → Nat → EvalResult
  | 0, _, _ => .fault .outOfFuel
  | fuel + 1, expr, pos =>
    (evalAddExpr evalExpr fuel expr pos).andThen fun result pos =>
      evalAddLoop evalExpr fuel expr result pos

/-- The `while (true)` loop of `evalShiftExpr`; the shift count is taken modulo 32. -/
def evalShiftLoop (evalExpr : QString → Nat → EvalResult) :
    Nat → QString → Int → Nat → EvalResult
  | 0, _, _, _ => .fault .outOfFuel
  | fuel + 1, expr, result, pos =>
    let pos := skipSpaces expr pos
    match expr.get? pos with
    | none => .ok (some (result, pos))
    | some c =>
      if c = '<' ∧ expr.get? (pos + 1) = some '<' then
        (evalAddExpr evalExpr fuel expr (pos + 2)).andThen fun rightResult pos =>
          evalShiftLoop evalExpr fuel expr (wrapInt (result * 2 ^ (rightResult % 32).toNat)) pos
      else if c = '>' ∧ expr.get? (pos + 1) = some '>' then
        (evalAddExpr evalExpr fuel expr (pos + 2)).andThen fun rightResult pos =>
          evalShiftLoop evalExpr fuel expr (result / 2 ^ (rightResult % 32).toNat) pos
      else .ok (some (result, pos))


/-- Function `CppPreprocessor::evalShiftExpr`. -/
def evalShiftExpr (evalExpr : QString → Nat → EvalResult) (fuel : Nat) (expr : QString)
    (pos : Nat) : EvalResult :=
  (evalAddExpr evalExpr fuel expr pos).andThen fun result pos =>
    evalShiftLoop evalExpr fuel expr result pos

/-- The `while (true)` loop of `evalRelationExpr`. -/
def evalRelationLoop (evalExpr : QString → Nat → EvalResult) :
    Nat → QString → Int → Nat → EvalResult
  | 0, _, _, _ => .fault .outOfFuel
  | fuel + 1, expr, result, pos =>
    let pos := skipSpaces expr pos
    match expr.get? pos with
    | none => .ok (some (result, pos))
    | some c =>
      if c = '<' then
        if expr.get? (pos + 1) = some '=' then
          (evalShiftExpr evalExpr fuel expr (pos + 2)).andThen fun rightResult pos =>
            evalRelationLoop evalExpr fuel expr (boolInt (result ≤ rightResult)) pos
        else
          (evalShiftExpr evalExpr fuel expr (pos + 1)).andThen fun rightResult pos =>
            evalRelationLoop evalExpr fuel expr (boolInt (result < rightResult)) pos
      else if c = '>' then
        if expr.get? (pos + 1) = some '=' then
          (evalShiftExpr evalExpr fuel expr (pos + 2)).andThen fun rightResult pos =>
            evalRelationLoop evalExpr fuel expr (boolInt (result ≥ rightResult)) pos
        else
          (evalShiftExpr evalExpr fuel expr (pos + 1)).andThen fun rightResult pos =>
            evalRelationLoop evalExpr fuel expr (boolInt (result > rightResult)) pos
      else .ok (some (result, pos))


/-- Function `CppPreprocessor::evalRelationExpr`. -/
def evalRelationExpr (evalExpr : QString → Nat → EvalResult) (fuel : Nat) (expr : QString)
    (pos : Nat) : EvalResult :=
  (evalShiftExpr evalExpr fuel expr pos).andThen fun result pos =>
    evalRelationLoop evalExpr fuel expr result pos

/-- The `while (true)` loop of `evalEqualExpr`. -/
def evalEqualLoop (evalExpr : QString → Nat → EvalResult) :
    Nat → QString → Int → Nat → EvalResult
  | 0, _, _, _ => .fault .outOfFuel
  | fuel + 1, expr, result, pos =>
    let pos := skipSpaces expr pos
    match expr.get? pos with
    | none => .ok (some (result, pos))
    | some c =>
      if c = '!' ∧ expr.get? (pos + 1) = some '=' then
        (evalRelationExpr evalExpr fuel expr (pos + 2)).andThen fun rightResult pos =>
          evalEqualLoop evalExpr fuel expr (boolInt (result ≠ rightResult)) pos
      else if c = '=' ∧ expr.get? (pos + 1) = some '=' then
        (evalRelationExpr evalExpr fuel expr (pos + 2)).andThen fun rightResult pos =>
          evalEqualLoop evalExpr fuel expr (boolInt (result = rightResult)) pos
      else .ok (some (result, pos))


/-- Function `CppPreprocessor::evalEqualExpr`. -/
def evalEqualExpr (evalExpr : QString → Nat → EvalResult) (fuel : Nat) (expr : QString)
    (pos : Nat) : EvalResult :=
  (evalRelationExpr evalExpr fuel expr pos).andThen fun result pos =>
    evalEqualLoop evalExpr fuel expr result pos

/-- The `while (true)` loop of `evalBitAndExpr`. -/
def evalBitAndLoop (evalExpr : QString → Nat → EvalResult) :
    Nat → QString → Int → Nat → EvalResult
  | 0, _, _, _ => .fault .outOfFuel
  | fuel + 1, expr, result, pos =>
    let pos := skipSpaces expr pos
    match expr.get? pos with
    | none => .ok (some (result, pos))
    | some c =>
      if c = '&' then
        (evalEqualExpr evalExpr fuel expr (pos + 1)).andThen fun rightResult pos =>
          evalBitAndLoop evalExpr fuel expr (Int.land result rightResult) pos
      else .ok (some (result, pos))


/-- Function `CppPreprocessor::evalBitAndExpr`. -/
def evalBitAndExpr (evalExpr : QString → Nat → EvalResult) (fuel : Nat) (expr : QString)
    (pos : Nat) : EvalResult :=
  (evalEqualExpr evalExpr fuel expr pos).andThen fun result pos =>
    evalBitAndLoop evalExpr fuel expr result pos

/-- The `while (true)` loop of `evalBitXorExpr`. -/
def evalBitXorLoop (evalExpr : QString → Nat → EvalResult) :
    Nat → QString → Int → Nat → EvalResult
  | 0, _, _, _ => .fault .outOfFuel
  | fuel + 1, expr, result, pos =>
    let pos := skipSpaces expr pos
    match expr.get? pos with
    | none => .ok (some (result, pos))
    | some c =>
      if c = '^' then
        (evalBitAndExpr evalExpr fuel expr (pos + 1)).andThen fun rightResult pos =>
          evalBitXorLoop evalExpr fuel expr (Int.xor result rightResult) pos
      else .ok (some (result, pos))


/-- Function `CppPreprocessor::evalBitXorExpr`. -/
def evalBitXorExpr (evalExpr : QString → Nat → EvalResult) (fuel : Nat) (expr : QString)
    (pos : Nat) : EvalResult :=
  (evalBitAndExpr evalExpr fuel expr pos).andThen fun result pos =>
    evalBitXorLoop evalExpr fuel expr result pos

/-- The `while (true)` loop of `evalBitOrExpr`. -/
def evalBitOrLoop (evalExpr : QString → Nat → EvalResult) :
    Nat → QString → Int → Nat → EvalResult
  | 0, _, _, _ => .fault .outOfFuel
  | fuel + 1, expr, result, pos =>
    let pos := skipSpaces expr pos
    match expr.get? pos with
    | none => .ok (some (result, pos))
    | some c =>
      if c = '|' then
        (evalBitXorExpr evalExpr fuel expr (pos + 1)).andThen fun rightResult pos =>
          evalBitOrLoop evalExpr fuel expr (Int.lor result rightResult) pos
      else .ok (some (result, pos))


/-- Function `CppPreprocessor::evalBitOrExpr`. -/
def evalBitOrExpr (evalExpr : QString → Nat → EvalResult) (fuel : Nat) (expr : QString)
    (pos : Nat) : EvalResult :=
  (evalBitXorExpr evalExpr fuel expr pos).andThen fun result pos =>
    evalBitOrLoop evalExpr fuel expr result pos

/-- The `while (true)` loop of `evalLogicAndExpr`. -/
def evalLogicAndLoop (evalExpr : QString → Nat → EvalResult) :
    Nat → QString → Int → Nat → EvalResult
  | 0, _, _, _ => .fault .outOfFuel
  | fuel + 1, expr, result, pos =>
    let pos := skipSpaces expr pos
    match expr.get? pos with
    | none => .ok (some (result, pos))
    | some c =>
      if c = '&' ∧ expr.get? (pos + 1) = some '&' then
        (evalBitOrExpr evalExpr fuel expr (pos + 2)).andThen fun rightResult pos =>
          evalLogicAndLoop evalExpr fuel expr (boolInt (result ≠ 0 ∧ rightResult ≠ 0)) pos
      else .ok (some (result, pos))


/-- Function `CppPreprocessor::evalLogicAndExpr`. -/
def evalLogicAndExpr (evalExpr : QString → Nat → EvalResult) (fuel : Nat) (expr : QString)
    (pos : Nat) : EvalResult :=
  (evalBitOrExpr evalExpr fuel expr pos).andThen fun result pos =>
    evalLogicAndLoop evalExpr fuel expr result pos

/-- The `while (true)` loop of `evalLogicOrExpr`. -/
def evalLogicOrLoop (evalExpr : QString → Nat → EvalResult) :
    Nat → QString → Int → Nat → EvalResult
  | 0, _, _, _ => .fault .outOfFuel
  | fuel + 1, expr, result, pos =>
    let pos := skipSpaces expr pos
    match expr.get? pos with
    | none => .ok (some (result, pos))
    | some c =>
      if c = '|' ∧ expr.get? (pos + 1) = some '|' then
        (evalLogicAndExpr evalExpr fuel expr (pos + 2)).andThen fun rightResult pos =>
          evalLogicOrLoop evalExpr fuel expr (boolInt (result ≠ 0 ∨ rightResult ≠ 0)) pos
      else .ok (some (result, pos))


/-- Function `CppPreprocessor::evalLogicOrExpr`. -/
def evalLogicOrExpr (evalExpr : QString → Nat → EvalResult) (fuel : Nat) (expr : QString)
    (pos : Nat) : EvalResult :=
  (evalLogicAndExpr evalExpr fuel expr pos).andThen fun result pos =>
    evalLogicOrLoop evalExpr fuel expr result pos

/-- Function `CppPreprocessor::evalExpr`; `fuel` bounds the nesting of calls and the rounds of every
loop. -/
def evalExpr : Nat → QString → Nat → EvalResult
  | 0, _, _ => .fault .outOfFuel
  | fuel + 1, expr, pos => evalLogicOrExpr (evalExpr fuel) fuel expr pos

/-- The failure value of `evaluateExpression`, `return -1`. -/
def evaluationFailed : Int := -1

/-- Function `CppPreprocessor::evaluateExpression`: the value of the expression, or
`evaluationFailed`; a run of the code within `fuel` nested calls and loop rounds. -/
def evaluateExpression (fuel : Nat) (line : QString) : Run Int :=
  match evalExpr fuel line 0 with
  | .fault f => .fault f
  | .ok none => .ok evaluationFailed
  | .ok (some (result, pos)) =>
    if (line.get? (skipSpaces line pos)).isSome then .ok evaluationFailed else .ok result

/-! ## `#if` conditions: the symbol phase and the branch stack -/

/-- The loop of `skipBraces` from `index` with the parenthesis `level` so far. -/
def skipBracesLoop (line : QString) (step : Int) : Nat → Int → Int → Run (Option Nat)
  | 0, _, _ => .fault .outOfFuel
  | fuel + 1, index, level =>
    if 0 ≤ index ∧ index < line.length then
      let c := line.get? index.toNat
      let level := if c = some '(' then level + 1 else if c = some ')' then level - 1 else level
      if level = 0 then .ok (some index.toNat)
      else skipBracesLoop line step fuel (index + step) level
    else .ok none

/-- Function `CppPreprocessor::skipBraces(line, index, step)`: `some index` for `true` with
the index it stopped at, `none` for `false`. -/
def skipBraces (fuel : Nat) (line : QString) (index : Int) (step : Int) : Run (Option Nat) :=
  skipBracesLoop line step fuel index 0

/-- The end of the `defined` branch of `expandDefines`: the looked-up name is cut out with the
unassigned `defineEnd`, and the operator with its operand is replaced by `1` or `0`. -/
def replaceDefined (u : Indeterminate) (mDefines : DefineMap) (line : QString)
    (searchPos defineStart tail : Nat) : QString :=
  let name := mid line defineStart (u.defineEnd - defineStart)
  let insertValue := if (getDefine mDefines name).isNone then ['0'] else ['1']
  qInsert (qRemove line searchPos ((tail : Int) - searchPos + 1)) searchPos insertValue

/-- The `while (searchPos < line.length())` loop of `expandDefines`; `step` is the default
`step` argument of `skipBraces` in the header. -/
def expandDefinesLoop (u : Indeterminate) (step : Int) (mDefines : DefineMap) :
    Nat → QString → Nat → Run QString
  | 0, _, _ => .fault .outOfFuel
  | fuel + 1, line, searchPos =>
    match line.get? searchPos with
    | none => .ok line
    | some c =>
      let before :=
        match searchPos with
        | 0 => u.charBeforeStart
        | k + 1 => (line.get? k).getD c
      if isMacroIdentChar c && (searchPos == 1 || !isDigit before) then
        let head := searchPos
        let tail := searchPos +
          ((line.drop searchPos).takeWhile fun ch => isMacroIdentChar ch || isDigit c).length
        let name := mid line head ((tail : Int) - head)
        let nameStart := head
        if name = "defined".toList then
          let tail := tail + ((line.drop tail).takeWhile isSpaceChar).length
          if line.get? tail = some '(' then
            match skipBraces fuel line tail step with
            | .fault f => .fault f
            | .ok none => .ok []
            | .ok (some next) =>
              expandDefinesLoop u step mDefines fuel
                (replaceDefined u mDefines line searchPos (tail + 1) next) searchPos
          else
            if tail ≥ line.length ∨ isMacroIdentChar c = false then .ok []
            else
              let next := tail +
                ((line.drop tail).takeWhile fun ch => isMacroIdentChar ch || isDigit ch).length
              expandDefinesLoop u step mDefines fuel
                (replaceDefined u mDefines line searchPos tail next) searchPos
        else if name = "and".toList ∨ name = "or".toList then
          expandDefinesLoop u step mDefines fuel line tail
        else
          match getDefine mDefines name with
          | none =>
            expandDefinesLoop u step mDefines fuel
              (qInsert (qRemove line nameStart ((tail : Int) - nameStart)) searchPos ['0'])
              searchPos
          | some define =>
            let next := tail + ((line.drop tail).takeWhile isSpaceChar).length
            if line.get? next = some '(' then
              match skipBraces fuel line next step with
              | .fault f => .fault f
              | .ok none => .ok []
              | .ok (some closing) =>
                let args := mid line next ((closing : Int) - next + 1)
                let insertValue := expandFunction define args
                expandDefinesLoop u step mDefines fuel
                  (qInsert (qRemove line nameStart ((closing : Int) + 1 - nameStart)) searchPos
                    insertValue)
                  searchPos
            else
              let insertValue := if define.value ≠ [] then define.value else ['0']
              expandDefinesLoop u step mDefines fuel
                (qInsert (qRemove line nameStart ((tail : Int) - nameStart)) searchPos
                  insertValue)
                searchPos
      else expandDefinesLoop u step mDefines fuel line (searchPos + 1)

/-- Function `CppPreprocessor::expandDefines`; a run of at most `fuel` loop rounds. -/
def expandDefines (fuel : Nat) (u : Indeterminate) (step : Int) (mDefines : DefineMap)
    (line : QString) : Run QString :=
  expandDefinesLoop u step mDefines fuel line 0

/-- The conversion of the `int` returned by `evaluateExpression` to the `bool` that
`evaluateIf` returns. -/
def boolOfInt (v : Int) : Bool := v != 0

/-- Function `CppPreprocessor::evaluateIf`. -/
def evaluateIf (fuel : Nat) (u : Indeterminate) (step : Int) (mDefines : DefineMap)
    (line : QString) : Run Bool :=
  match expandDefines fuel u step mDefines line with
  | .fault f => .fault f
  | .ok newLine =>
    match evaluateExpression fuel newLine with
    | .fault f => .fault f
    | .ok v => .ok (boolOfInt v)

/-- Function `CppPreprocessor::handleBranch`. -/
def handleBranch (fuel : Nat) (u : Indeterminate) (step : Int) (st : CppPreprocessor)
    (line : QString) : Run CppPreprocessor :=
  if startsWith line "ifdef".toList then
    if getCurrentBranch st = false then .ok (setCurrentBranch st false)
    else
      let name := trimmed (midFrom line 5)
      .ok (setCurrentBranch st (getDefine st.mDefines name).isSome)
  else if startsWith line "ifndef".toList then
    if getCurrentBranch st = false then .ok (setCurrentBranch st false)
    else
      let name := trimmed (midFrom line 6)
      .ok (setCurrentBranch st (getDefine st.mDefines name).isNone)
  else if startsWith line "if".toList then
    if getCurrentBranch st = false then .ok (setCurrentBranch st false)
    else
      let ifLine := trimmed (midFrom line 2)
      match evaluateIf fuel u step st.mDefines ifLine with
      | .fault f => .fault f
      | .ok testResult => .ok (setCurrentBranch st testResult)
  else if startsWith line "else".toList then
    let oldResult := getCurrentBranch st
    .ok (setCurrentBranch (removeCurrentBranch st) (!oldResult))
  else if startsWith line "elif".toList then
    let oldResult := getCurrentBranch st
    let st := removeCurrentBranch st
    if oldResult then .ok (setCurrentBranch st false)
    else
      let ifLine := trimmed (midFrom line 4)
      match evaluateIf fuel u step st.mDefines ifLine with
      | .fault f => .fault f
      | .ok testResult => .ok (setCurrentBranch st testResult)
  else if startsWith line "endif".toList then .ok (removeCurrentBranch st)
  else .ok st

/-- The branch stack after handling the directives `lines` one after the other. -/
def handleBranches (fuel : Nat) (u : Indeterminate) (step : Int) :
    CppPreprocessor → List QString → Run CppPreprocessor
  | st, [] => .ok st
  | st, line :: rest =>
    match handleBranch fuel u step st line with
    | .fault f => .fault f
    | .ok st => handleBranches fuel u step st rest

/-- Monotone suppression of a branch stack, outermost level first: every level nested inside a
false level is false. -/
def monotoneSuppression : List Bool → Bool
  | [] => true
  | b :: nested => (b || nested.all fun c => !c) && monotoneSuppression nested

/-- The macro table holding only the object-like macro `FOO` with value `1`. -/
def fooTable : DefineMap :=
  [("FOO".toList,
    { name := "FOO".toList, args := [], value := "1".toList, filename := "main.c".toList,
      argList := [], formatValue := "1".toList, hardCoded := false })]

/-! ## The comment stripper -/

/-- The kinds of text `removeComments` tells apart (`ContentType`). -/
inductive ContentType where
  | AnsiCComment
  | Character
  | Other
  | RawString
  | RawStringPrefix
  | String
  deriving DecidableEq, Repr

/-- The locals of `removeComments` while it scans one line. -/
structure StripScan where
  pos : Nat
  currentType : ContentType
  delimiter : QString
  s : QString
  deriving DecidableEq, Repr

/-- The `while (pos<line.length())` loop of `removeComments` on one line.  The outer `switch`
has the cases `"`, `'`, `R`, `(`, `/` and `\` and no `default`; the cases of the inner
switches run on into the next one where the source has no `break`.  Every round advances
`pos`, so `n` rounds are enough for a line with `n` characters left. -/
def removeCommentsLoop (line : QString) : Nat → StripScan → StripScan
  | 0, st => st
  | n + 1, st =>
    match line.get? st.pos with
    | none => st
    | some ch =>
      if st.currentType = .AnsiCComment then
        if ch = '*' ∧ line.get? (st.pos + 1) = some '/' then
          removeCommentsLoop line n { st with pos := st.pos + 2, currentType := .Other }
        else removeCommentsLoop line n { st with pos := st.pos + 1 }
      else if ch = Char.ofNat 34 then
        match st.currentType with
        | .String =>
          removeCommentsLoop line n
            { st with pos := st.pos + 1, currentType := .Other, s := st.s ++ [ch] }
        | .RawString =>
          removeCommentsLoop line n
            { st with pos := st.pos + 1, currentType := .String, s := st.s ++ [ch] }
        | .Other =>
          removeCommentsLoop line n
            { st with pos := st.pos + 1, currentType := .String, s := st.s ++ [ch] }
        | .RawStringPrefix =>
          removeCommentsLoop line n
            { st with pos := st.pos + 1, delimiter := st.delimiter ++ [ch], s := st.s ++ [ch] }
        | _ => removeCommentsLoop line n { st with pos := st.pos + 1, s := st.s ++ [ch] }
      else if ch = Char.ofNat 39 then
        match st.currentType with
        | .Character =>
          removeCommentsLoop line n
            { st with pos := st.pos + 1, currentType := .Character,
                      delimiter := st.delimiter ++ [ch], s := st.s ++ [ch] }
        | .Other =>
          removeCommentsLoop line n
            { st with pos := st.pos + 1, currentType := .Character,
                      delimiter := st.delimiter ++ [ch], s := st.s ++ [ch] }
        | .RawStringPrefix =>
          removeCommentsLoop line n
            { st with pos := st.pos + 1, delimiter := st.delimiter ++ [ch], s := st.s ++ [ch] }
        | _ => removeCommentsLoop line n { st with pos := st.pos + 1, s := st.s ++ [ch] }
      else if ch = 'R' then
        if st.currentType = .Other ∧ line.get? (st.pos + 1) = some (Char.ofNat 34) then
          removeCommentsLoop line n
            { pos := st.pos + 2, currentType := .RawStringPrefix, delimiter := [Char.ofNat 34],
              s := st.s ++ [ch, Char.ofNat 34] }
        else if st.currentType = .RawStringPrefix then
          removeCommentsLoop line n
            { st with pos := st.pos + 1, delimiter := st.delimiter ++ [ch], s := st.s ++ [ch] }
        else removeCommentsLoop line n { st with pos := st.pos + 1, s := st.s ++ [ch] }
      else if ch = '(' then
        if st.currentType = .RawStringPrefix then
          removeCommentsLoop line n
            { st with pos := st.pos + 1, currentType := .RawString, s := st.s ++ [ch] }
        else removeCommentsLoop line n { st with pos := st.pos + 1, s := st.s ++ [ch] }
      else if ch = '/' ∧ st.currentType = .Other then
        if line.get? (st.pos + 1) = some '/' then st
        else if line.get? (st.pos + 1) = some '*' then
          removeCommentsLoop line n { st with pos := st.pos + 2, currentType := .AnsiCComment }
        else removeCommentsLoop line n { st with pos := st.pos + 1 }
      else if ch = '/' ∨ ch = '\\' then
        if st.currentType = .String ∨ st.currentType = .Character then
          match line.get? (st.pos + 1) with
          | some next =>
            removeCommentsLoop line n { st with pos := st.pos + 2, s := st.s ++ [ch, next] }
          | none => removeCommentsLoop line n { st with pos := st.pos + 2, s := st.s ++ [ch] }
        else removeCommentsLoop line n { st with pos := st.pos + 1 }
      else removeCommentsLoop line n { st with pos := st.pos + 1 }

/-- The `for (QString line:text)` loop of `removeComments`; the content type and the raw
string delimiter are carried from line to line. -/
def removeCommentsLines : List QString → ContentType → QString → List QString
  | [], _, _ => []
  | line :: rest, currentType, delimiter =>
    let st := removeCommentsLoop line line.length
      { pos := 0, currentType := currentType, delimiter := delimiter, s := [] }
    trimmed st.s :: removeCommentsLines rest st.currentType st.delimiter

/-- Function `CppPreprocessor::removeComments`. -/
def removeComments (text : List QString) : List QString :=
  removeCommentsLines text .Other []

/-- The content type in which `removeComments` ends after the lines `text`. -/
def removeCommentsEndType : List QString → ContentType → QString → ContentType
  | [], currentType, _ => currentType
  | line :: rest, currentType, delimiter =>
    let st := removeCommentsLoop line line.length
      { pos := 0, currentType := currentType, delimiter := delimiter, s := [] }
    removeCommentsEndType rest st.currentType st.delimiter

/-! ## Macro table maintenance -/

/-- The result of `QHash::insert(other)`: every item of `other` is inserted. -/
def hashInsertAll {β : Type} (m other : List (QString × β)) : List (QString × β) :=
  other.foldr (fun e acc => hashInsert acc e.1 e.2) m

/-- The table `m` with the value of `k` replaced by `f` of it; the in-place change of a value
that the table holds by pointer. -/
def hashModify {β : Type} (m : List (QString × β)) (k : QString) (f : β → β) :
    List (QString × β) :=
  m.map fun e => if e.1 = k then (e.1, f e.2) else e

/-- Function `CppPreprocessor::clear`. -/
def clear (st : CppPreprocessor) : CppPreprocessor :=
  { st with
    mIncludes := [], mDefines := [], mHardDefines := [], mProcessed := [], mFileDefines := [],
    mBranchResults := [], mResult := [], mCurrentIncludes := none, mScannedFiles := none }

/-- Function `CppPreprocessor::resetDefines`. -/
def resetDefines (st : CppPreprocessor) : CppPreprocessor :=
  { st with mDefines := hashInsertAll [] st.mHardDefines }

/-- Function `CppPreprocessor::reset`. -/
def reset (st : CppPreprocessor) : CppPreprocessor :=
  resetDefines
    { st with
      mResult := [], mIncludes := [], mBranchResults := [], mCurrentIncludes := none,
      mProcessed := [] }

/-- Function `CppPreprocessor::handleUndefine`. -/
def handleUndefine (st : CppPreprocessor) (line : QString) : CppPreprocessor :=
  let name := trimmed (midFrom line 5)
  match getDefine st.mDefines name with
  | none => st
  | some define =>
    let mDefines := hashRemove st.mDefines name
    if define.filename = st.mFileName then
      { st with
        mDefines := mDefines
        mFileDefines := hashModify st.mFileDefines st.mFileName fun defineMap =>
          hashRemove defineMap name }
    else { st with mDefines := mDefines }

/-- The loop of `invalidDefinesInFile` over the macros of the file: a macro is removed from the
active table when the active entry of its name is that macro.  The source compares the
pointers; here two macros are the same when all their members agree. -/
def invalidDefinesLoop : List (QString × Define) → DefineMap → DefineMap
  | [], mDefines => mDefines
  | e :: rest, mDefines =>
    if hashValue mDefines e.2.name = some e.2 then
      invalidDefinesLoop rest (hashRemove mDefines e.2.name)
    else invalidDefinesLoop rest mDefines

/-- Function `CppPreprocessor::invalidDefinesInFile`. -/
def invalidDefinesInFile (st : CppPreprocessor) (fileName : QString) : CppPreprocessor :=
  match hashValue st.mFileDefines fileName with
  | none => st
  | some defineMap =>
    { st with
      mDefines := invalidDefinesLoop defineMap st.mDefines
      mFileDefines := hashRemove st.mFileDefines fileName }

/-- Function `CppPreprocessor::getFileIncludesEntry`; the outer fault is the null registry,
the inner `none` the null record. -/
def getFileIncludesEntry (st : CppPreprocessor) (fileName : QString) :
    Run (Option FileIncludes) :=
  match st.mIncludesList with
  | none => .fault .nullPointer
  | some list => .ok (hashValue list fileName)

/-- Run `f` on the files `names` one after the other, threading the state. -/
def forEachFile (f : CppPreprocessor → QString → Run CppPreprocessor) :
    CppPreprocessor → List QString → Run CppPreprocessor
  | st, [] => .ok st
  | st, name :: rest =>
    match f st name with
    | .fault e => .fault e
    | .ok st => forEachFile f st rest

/-- Function `CppPreprocessor::addDefinesInFile`; `fuel` bounds the nesting of the calls.  The
included files are walked in the order in which the record stores them here; the source
walks `includeFiles.keys()`, whose order is that of the container declared in the header. -/
def addDefinesInFile : Nat → CppPreprocessor → QString → Run CppPreprocessor
  | 0, _, _ => .fault .outOfFuel
  | fuel + 1, st, fileName =>
    if fileName ∈ st.mProcessed then .ok st
    else
      let st := { st with mProcessed := fileName :: st.mProcessed }
      match st.mScannedFiles with
      | none => .fault .nullPointer
      | some scanned =>
        if fileName ∉ scanned then .ok st
        else
          match getFileIncludesEntry st fileName with
          | .fault e => .fault e
          | .ok fileIncludes =>
            let keys :=
              match fileIncludes with
              | some fi => fi.includeFiles.map Prod.fst
              | none => []
            match forEachFile (addDefinesInFile fuel) st keys with
            | .fault e => .fault e
            | .ok st =>
              match hashValue st.mFileDefines fileName with
              | none => .ok st
              | some defineList =>
                .ok { st with
                  mDefines := defineList.foldr (fun e acc => hashInsert acc e.2.name e.2)
                    st.mDefines }

/-! ## The include stack and the main loop -/

/-- The functions of the host that the preprocessor calls. -/
structure Host where
  /-- The full name of the header an `include` line names, seen from a file; empty when the
  header is not found. -/
  getHeaderFileName : QString → QString → List QString → List QString → QString
  isSystemHeaderFile : QString → List QString → Bool
  ReadFileToLines : QString → List QString

/-- The registry with the record of `file` changed by `f`: a change made through the
`fileIncludes` pointer of a stack entry.  The record has to be there. -/
def recordModify (list : List (QString × FileIncludes)) (file : QString)
    (f : FileIncludes → FileIncludes) : Run (List (QString × FileIncludes)) :=
  if (hashValue list file).isSome then .ok (hashModify list file f) else .fault .nullPointer

/-- The loop `for (PParsedFile parsedFile:mIncludes)` that changes the record of every file on
the stack by `f`. -/
def recordModifyEach (f : FileIncludes → FileIncludes) :
    List ParsedFile → List (QString × FileIncludes) → Run (List (QString × FileIncludes))
  | [], list => .ok list
  | parsedFile :: rest, list =>
    match recordModify list parsedFile.fileName f with
    | .fault e => .fault e
    | .ok list => recordModifyEach f rest list

/-- The include stack with `f` applied to its innermost entry. -/
def modifyLast (f : ParsedFile → ParsedFile) : List ParsedFile → List ParsedFile
  | [] => []
  | [p] => [f p]
  | p :: q :: rest => p :: modifyLast f (q :: rest)

/-- The first part of `openInclude`, run when the stack is not empty: `none` when the file is
already among the includes of the outermost file, else the registry and the stack with the
include recorded in every open file and the position saved in the innermost one. -/
def openIncludeRecord (st : CppPreprocessor) (list : List (QString × FileIncludes))
    (fileName : QString) : Run (Option (List (QString × FileIncludes) × List ParsedFile)) :=
  match st.mIncludes.head?, st.mIncludes.getLast? with
  | some topFile, some innerMostFile =>
    match hashValue list topFile.fileName with
    | none => .fault .nullPointer
    | some top =>
      if (hashValue top.includeFiles fileName).isSome then .ok none
      else
        match recordModifyEach
            (fun fi => { fi with includeFiles := hashInsert fi.includeFiles fileName false })
            st.mIncludes list with
        | .fault e => .fault e
        | .ok list =>
          match recordModify list innerMostFile.fileName
              (fun fi => { fi with includeFiles := hashInsert fi.includeFiles fileName true })
              with
          | .fault e => .fault e
          | .ok list =>
            .ok (some (list,
              modifyLast
                (fun p => { p with index := st.mIndex, branches := st.mBranchResults.length })
                st.mIncludes))
  | _, _ => .ok (some (list, st.mIncludes))

/-- Function `CppPreprocessor::openInclude(fileName, bufferedText)`; `fuel` is for the call of
`addDefinesInFile`. -/
def openInclude (fuel : Nat) (host : Host) (st : CppPreprocessor) (fileName : QString)
    (bufferedText : List QString) : Run CppPreprocessor :=
  match st.mIncludesList with
  | none => .fault .nullPointer
  | some list =>
    match openIncludeRecord st list fileName with
    | .fault e => .fault e
    | .ok none => .ok st
    | .ok (some (list, mIncludes)) =>
      let list :=
        if (hashValue list fileName).isSome then list
        else hashInsert list fileName { baseFile := fileName, includeFiles := [] }
      let st := { st with
        mIncludesList := some list, mIncludes := mIncludes, mCurrentIncludes := some fileName }
      match st.mScannedFiles with
      | none => .fault .nullPointer
      | some scanned =>
        let loaded : Run (CppPreprocessor × List QString) :=
          if bufferedText ≠ [] ∨ fileName ∉ scanned then
            let st := { st with
              mScannedFiles := some (if fileName ∈ scanned then scanned else fileName :: scanned) }
            let isSystemFile := host.isSystemHeaderFile fileName st.mIncludePaths
            if (st.mParseSystem && isSystemFile) || (st.mParseLocal && !isSystemFile) then
              if bufferedText ≠ [] then .ok (st, bufferedText)
              else .ok (st, host.ReadFileToLines fileName)
            else .ok (st, [])
          else
            match addDefinesInFile fuel st fileName with
            | .fault e => .fault e
            | .ok st =>
              match st.mIncludesList with
              | none => .fault .nullPointer
              | some list =>
                match hashValue list fileName with
                | none => .fault .nullPointer
                | some fileIncludes =>
                  match recordModifyEach
                      (fun fi => { fi with
                        includeFiles := hashInsertAll fi.includeFiles fileIncludes.includeFiles })
                      st.mIncludes list with
                  | .fault e => .fault e
                  | .ok list => .ok ({ st with mIncludesList := some list }, [])
        match loaded with
        | .fault e => .fault e
        | .ok (st, buffer) =>
          let buffer := removeComments buffer
          let parsedFile : ParsedFile :=
            { index := 0, fileName := fileName, buffer := buffer, branches := 0 }
          let st := { st with
            mIncludes := st.mIncludes ++ [parsedFile], mIndex := 0, mFileName := fileName,
            mBuffer := buffer }
          let includeLine := "#include ".toList ++ fileName ++ ":1".toList
          if st.mIncludes.length > 1 then
            if 0 ≤ st.mPreProcIndex ∧ st.mPreProcIndex < st.mResult.length then
              .ok { st with mResult := st.mResult.set st.mPreProcIndex.toNat includeLine }
            else .fault .outOfBounds
          else .ok { st with mResult := st.mResult ++ [includeLine] }

/-- Function `CppPreprocessor::closeInclude`. -/
def closeInclude (st : CppPreprocessor) : CppPreprocessor :=
  if st.mIncludes = [] then st
  else
    let mIncludes := st.mIncludes.dropLast
    match mIncludes.getLast? with
    | none => { st with mIncludes := mIncludes }
    | some parsedFile =>
      { st with
        mIncludes := mIncludes
        mIndex := parsedFile.index
        mFileName := parsedFile.fileName
        mBuffer := parsedFile.buffer
        mBranchResults := st.mBranchResults.take (min st.mBranchResults.length parsedFile.branches)
        mCurrentIncludes := some parsedFile.fileName
        mResult := st.mResult ++
          [arg (arg "#include %1:%2".toList parsedFile.fileName)
            (Nat.toDigits 10 (parsedFile.index + 1))] }

/-- Function `CppPreprocessor::handleInclude`; `openInclude` is called with its default second
argument, taken to be the empty list. -/
def handleInclude (fuel : Nat) (host : Host) (st : CppPreprocessor) (line : QString) :
    Run CppPreprocessor :=
  if getCurrentBranch st = false then .ok st
  else
    match st.mIncludes.getLast? with
    | none => .fault .outOfBounds
    | some file =>
      let fileName :=
        host.getHeaderFileName file.fileName line st.mIncludePaths st.mProjectIncludePaths
      if fileName = [] then .ok st
      else
        match st.mCurrentIncludes, st.mIncludesList with
        | some current, some list =>
          match recordModify list current
              (fun fi => { fi with includeFiles := hashInsert fi.includeFiles fileName true })
              with
          | .fault e => .fault e
          | .ok list => openInclude fuel host { st with mIncludesList := some list } fileName []
        | _, _ => .fault .nullPointer

/-- Function `CppPreprocessor::handlePreprocessor`. -/
def handlePreprocessor (fuel : Nat) (u : Indeterminate) (step : Int) (host : Host)
    (st : CppPreprocessor) (value : QString) : Run CppPreprocessor :=
  if startsWith value "define".toList then handleDefine u st value
  else if startsWith value "undef".toList then .ok (handleUndefine st value)
  else if startsWith value "if".toList || startsWith value "else".toList ||
      startsWith value "elif".toList || startsWith value "endif".toList then
    handleBranch fuel u step st value
  else if startsWith value "include".toList then handleInclude fuel host st value
  else .ok st

/-- The loop of `skipToPreprocessor` on the lines from `mIndex` on: the new `mIndex` and
`mResult`.  `active` is `getCurrentBranch()`, which the loop does not change. -/
def skipToPreprocessorLoop (maxDepth : Nat) (mDefines : DefineMap) (active : Bool) :
    List QString → Nat → List QString → Nat × List QString
  | [], mIndex, mResult => (mIndex, mResult)
  | l :: rest, mIndex, mResult =>
    if l.head? = some '#' then (mIndex, mResult)
    else
      skipToPreprocessorLoop maxDepth mDefines active rest (mIndex + 1)
        (mResult ++ [if active then expandMacros maxDepth mDefines l 1 else []])

/-- Function `CppPreprocessor::skipToPreprocessor`. -/
def skipToPreprocessor (maxDepth : Nat) (st : CppPreprocessor) : CppPreprocessor :=
  let r := skipToPreprocessorLoop maxDepth st.mDefines (getCurrentBranch st)
    (st.mBuffer.drop st.mIndex) st.mIndex st.mResult
  { st with mIndex := r.1, mResult := r.2 }

/-- Function `CppPreprocessor::skipToEndOfPreprocessor`. -/
def skipToEndOfPreprocessor (st : CppPreprocessor) : CppPreprocessor :=
  { st with
    mIndex := st.mIndex +
      ((st.mBuffer.drop st.mIndex).takeWhile fun l => l.getLast? = some '\\').length }

/-- The loop `for (int i=preProcFrom;i<=preProcTo;i++)` of `getNextPreprocessor` for `count`
more lines from line `i` on: the text assembled and the output, which gets one empty entry
per line.  The line `mBuffer[i]` has to exist. -/
def assembleDirective (mBuffer : List QString) :
    Nat → Nat → QString → List QString → Run (QString × List QString)
  | 0, _, result, mResult => .ok (result, mResult)
  | count + 1, i, result, mResult =>
    match mBuffer.get? i with
    | none => .fault .outOfBounds
    | some l =>
      let piece := if l.getLast? = some '/' then mid l 0 ((l.length : Int) - 1) else l
      assembleDirective mBuffer count (i + 1) (result ++ piece ++ [' ']) (mResult ++ [[]])

/-- Function `CppPreprocessor::getNextPreprocessor`: the directive text and the new state. -/
def getNextPreprocessor (maxDepth : Nat) (st : CppPreprocessor) :
    Run (QString × CppPreprocessor) :=
  let st := skipToPreprocessor maxDepth st
  let preProcFrom := st.mIndex
  if preProcFrom ≥ st.mBuffer.length then .ok ([], st)
  else
    let st := skipToEndOfPreprocessor st
    let preProcTo := st.mIndex
    let st := { st with mPreProcIndex := ((st.mResult.length : Int) - 1) + 1 }
    match assembleDirective st.mBuffer (preProcTo + 1 - preProcFrom) preProcFrom [] st.mResult
      with
    | .fault e => .fault e
    | .ok (result, mResult) => .ok (result, { st with mResult := mResult, mIndex := st.mIndex + 1 })

/-- The `do … while (!s.isEmpty())` loop of `preprocessBuffer` on the file on top of the
stack; the loop test reads `s` after `simplify` has cut it down. -/
def preprocessFile (maxDepth : Nat) (u : Indeterminate) (step : Int) (host : Host) :
    Nat → CppPreprocessor → Run CppPreprocessor
  | 0, _ => .fault .outOfFuel
  | fuel + 1, st =>
    match getNextPreprocessor maxDepth st with
    | .fault e => .fault e
    | .ok (s, st) =>
      if s.head? = some '#' then
        let s := trimmed (midFrom s 1)
        if s ≠ [] then
          match handlePreprocessor fuel u step host st s with
          | .fault e => .fault e
          | .ok st => preprocessFile maxDepth u step host fuel st
        else .ok st
      else if s ≠ [] then preprocessFile maxDepth u step host fuel st
      else .ok st

/-- Function `CppPreprocessor::preprocessBuffer`; `fuel` bounds the rounds of its loops and the
nesting of the calls below it. -/
def preprocessBuffer (maxDepth : Nat) (u : Indeterminate) (step : Int) (host : Host) :
    Nat → CppPreprocessor → Run CppPreprocessor
  | 0, _ => .fault .outOfFuel
  | fuel + 1, st =>
    if st.mIncludes.length > 0 then
      match preprocessFile maxDepth u step host fuel st with
      | .fault e => .fault e
      | .ok st => preprocessBuffer maxDepth u step host fuel (closeInclude st)
    else .ok st

/-- Function `CppPreprocessor::preprocess(fileName, buffer)`. -/
def preprocess (fuel : Nat) (maxDepth : Nat) (u : Indeterminate) (step : Int) (host : Host)
    (st : CppPreprocessor) (fileName : QString) (buffer : List QString) : Run CppPreprocessor :=
  match openInclude fuel host (reset { st with mFileName := fileName }) fileName buffer with
  | .fault e => .fault e
  | .ok st => preprocessBuffer maxDepth u step host fuel st

/-- A state inside a suppressed block of `main.c`: the branch stack is `[false]`, and the
macro `FOO` of `fooTable` is active and in the bucket of `main.c`. -/
def suppressedState : CppPreprocessor :=
  { firstLineState with
    mBranchResults := [false]
    mDefines := fooTable
    mFileDefines := [("main.c".toList, fooTable)] }

/-- A host without any header: no name resolves, no file is a system header, every file is
empty. -/
def emptyHost : Host :=
  { getHeaderFileName := fun _ _ _ _ => []
    isSystemHeaderFile := fun _ _ => false
    ReadFileToLines := fun _ => [] }

/-- The object-like macro `BAR` with value `BAR`, defined by the file `b.h`. -/
def barDefine : Define :=
  { selfDefine "BAR".toList with filename := "b.h".toList }

/-- A state with the two files `main.c` and `b.h`: `FOO` of `fooTable` is defined by `main.c`,
`BAR` by `b.h`, both are active, `b.h` is scanned, and `main.c` is the current file. -/
def twoFileState : CppPreprocessor :=
  { mFileName := "main.c".toList
    mDefines := fooTable ++ [("BAR".toList, barDefine)]
    mFileDefines := [("main.c".toList, fooTable), ("b.h".toList, [("BAR".toList, barDefine)])]
    mScannedFiles := some ["b.h".toList]
    mIncludesList := some [] }

/-- The operations on the macro tables that keep the hard macros active: a soft define, the
merge of a scanned file, and `reset`. -/
inductive TableOp where
  | define (name args value : QString)
  | merge (fileName : QString)
  | reset
  deriving DecidableEq, Repr

/-- The state after the table operations `ops`, run one after the other. -/
def runTableOps (fuel : Nat) (u : Indeterminate) :
    CppPreprocessor → List TableOp → Run CppPreprocessor
  | st, [] => .ok st
  | st, op :: ops =>
    match (match op with
      | .define name args value => addDefineByParts u st name args value false
      | .merge fileName => addDefinesInFile fuel st fileName
      | .reset => .ok (reset st)) with
    | .fault e => .fault e
    | .ok st => runTableOps fuel u st ops

/-- What `addDefinesInFile` leaves alone: the buckets, the hard macros, the scanned files and
the registry stay, and no key leaves the active table. -/
def MergeKeeps (st st2 : CppPreprocessor) : Prop :=
  st2.mFileDefines = st.mFileDefines ∧ st2.mHardDefines = st.mHardDefines ∧
  st2.mScannedFiles = st.mScannedFiles ∧ st2.mIncludesList = st.mIncludesList ∧
  ∀ k, (getDefine st.mDefines k).isSome = true → (getDefine st2.mDefines k).isSome = true

/-- The hard-coded object-like macro `X` with value `1`, defined while no file is current. -/
def hardX : Define :=
  { name := "X".toList, args := [], value := "1".toList, filename := [], argList := [],
    formatValue := "1".toList, hardCoded := true }

/-- The state after `clear()` and the hard-coded define of `X`: `X` is in the hard-macro table
only. -/
def hardOnlyState : CppPreprocessor :=
  { mHardDefines := [("X".toList, hardX)] }

/-- The soft object-like macro `X` with value `2`, defined while no file is current. -/
def softX : Define :=
  { name := "X".toList, args := [], value := "2".toList, filename := [], argList := [],
    formatValue := "2".toList, hardCoded := false }

/-- The state `hardOnlyState` with the set of scanned files in place, empty. -/
def hardScannedState : CppPreprocessor :=
  { hardOnlyState with mScannedFiles := some [] }

/-- The state `hardScannedState` after `reset`, the soft define of `X` with value `2` and the
merge of the file `b.h`: the soft macro overrides the hard one. -/
def softOverrideState : CppPreprocessor :=
  { hardScannedState with
    mDefines := [("X".toList, softX)]
    mFileDefines := [([], [("X".toList, softX)])]
    mProcessed := ["b.h".toList] }

/-- The first character a stripped line can have: no white space and not `#`. -/
def StripHead (s : QString) : Prop :=
  ∀ c, s.head? = some c → qIsSpace c = false ∧ c ≠ '#'

/-- The lines `openInclude` loads for a file that is new to the pass or comes with a buffer:
the buffer, else the lines read by the host, and none when the scan options leave the file
out. -/
def loadedLines (host : Host) (st : CppPreprocessor) (fileName : QString)
    (bufferedText : List QString) : List QString :=
  if (st.mParseSystem && host.isSystemHeaderFile fileName st.mIncludePaths) ||
      (st.mParseLocal && !host.isSystemHeaderFile fileName st.mIncludePaths) then
    if bufferedText ≠ [] then bufferedText else host.ReadFileToLines fileName
  else []

/-- A preprocessor of which only the registry and the scanned set exist, set to scan local
files. -/
def freshState : CppPreprocessor :=
  { mIncludesList := some [], mScannedFiles := some [], mParseLocal := true }

/-- The state after `preprocess` of `main.c` with the one-line buffer `(` from `freshState`. -/
def oneLineDone : CppPreprocessor :=
  { freshState with
    mFileName := "main.c".toList
    mResult := ["#include main.c:1".toList, "(".toList]
    mIndex := 1
    mBuffer := ["(".toList]
    mCurrentIncludes := some "main.c".toList
    mIncludesList := some [("main.c".toList, { baseFile := "main.c".toList, includeFiles := [] })]
    mScannedFiles := some ["main.c".toList] }

/-- The names of all files that the records of the registry list as included. -/
def includeNames : List (QString × FileIncludes) → List QString
  | [] => []
  | e :: rest => e.2.includeFiles.map Prod.fst ++ includeNames rest

/-- How many of `names` are not in `processed`. -/
def pendingFiles (names processed : List QString) : Nat :=
  (names.filter fun n => decide (n ∉ processed)).length

/-- A macro table with two cycles: the object-like macros `A`, defined as `B`, and `B`,
defined as `A`, and the function-like macros `F()`, defined as `G()`, and `G()`, defined as
`F()`, as `addDefineByParts` registers them. -/
def mutualTable : DefineMap :=
  [("G".toList,
    { name := "G".toList, args := "()".toList, value := "F()".toList, filename := [],
      argList := [], formatValue := "F()".toList, hardCoded := false }),
   ("F".toList,
    { name := "F".toList, args := "()".toList, value := "G()".toList, filename := [],
      argList := [], formatValue := "G()".toList, hardCoded := false }),
   ("B".toList,
    { name := "B".toList, args := [], value := "A".toList, filename := [], argList := [],
      formatValue := "A".toList, hardCoded := false }),
   ("A".toList,
    { name := "A".toList, args := [], value := "B".toList, filename := [], argList := [],
      formatValue := "B".toList, hardCoded := false })]

/-- A host in which every `include` line resolves to the header `a.h`, a local file with no
lines of its own on disk. -/
def headerHost : Host :=
  { getHeaderFileName := fun _ _ _ _ => "a.h".toList
    isSystemHeaderFile := fun _ _ => false
    ReadFileToLines := fun _ => [] }

/-- The state after `openInclude` of the root file `main.c` with the one-line buffer `(`, from
`freshState`: `main.c` is the only file on the include stack. -/
def rootOpenState : CppPreprocessor :=
  { freshState with
    mFileName := "main.c".toList
    mResult := ["#include main.c:1".toList]
    mIncludes := [{ index := 0, fileName := "main.c".toList, buffer := ["(".toList],
                    branches := 0 }]
    mBuffer := ["(".toList]
    mCurrentIncludes := some "main.c".toList
    mIncludesList := some [("main.c".toList, { baseFile := "main.c".toList, includeFiles := [] })]
    mScannedFiles := some ["main.c".toList] }

/-- The state `rootOpenState` with `a.h` entered in the include record of `main.c`. -/
def rootRecordedState : CppPreprocessor :=
  { rootOpenState with
    mIncludesList := some [("main.c".toList,
      { baseFile := "main.c".toList, includeFiles := [("a.h".toList, true)] })] }

/-- A state whose buffer is the single directive line `#define A \`, ending with a backslash
continuation, with the cursor on it. -/
def continuationState : CppPreprocessor :=
  { rootOpenState with
    mBuffer := ["#define A ".toList ++ ['\\']]
    mIncludes := [{ index := 0, fileName := "main.c".toList,
                    buffer := ["#define A ".toList ++ ['\\']], branches := 0 }] }

/-- The object-like macro `X` with value `value`, defined in the file `filename`. -/
def xDefine (filename value : QString) : Define :=
  { name := "X".toList, args := [], value := value, filename := filename, argList := [],
    formatValue := value, hardCoded := false }

/-- A state with cyclic include records: `a.h` is recorded as including `b.h` and `b.h` as
including `a.h`; both are scanned, and both define the macro `X`, `a.h` as `1` and `b.h` as
`2`.  Nothing is merged yet. -/
def cyclicState : CppPreprocessor :=
  { mFileName := "main.c".toList
    mFileDefines :=
      [("a.h".toList, [("X".toList, xDefine "a.h".toList "1".toList)]),
       ("b.h".toList, [("X".toList, xDefine "b.h".toList "2".toList)])]
    mIncludesList := some
      [("a.h".toList, { baseFile := "a.h".toList, includeFiles := [("b.h".toList, true)] }),
       ("b.h".toList, { baseFile := "b.h".toList, includeFiles := [("a.h".toList, true)] })]
    mScannedFiles := some ["a.h".toList, "b.h".toList] }

/-- The identifier runs of a text, in order: its maximal runs of word characters, the first
one continuing the run `word` collected before the text. -/
def wordRunsFrom : List Char → QString → List QString
  | [], word => if word ≠ [] then [word] else []
  | c :: rest, word =>
    if isWordChar c then wordRunsFrom rest (word ++ [c])
    else (if word ≠ [] then [word] else []) ++ wordRunsFrom rest []

/-- The identifier runs of a line. -/
def wordRuns (line : QString) : List QString := wordRunsFrom line []

/-- A line is macro-free for a table when none of its identifier runs names a macro of the
table and none is `__attribute__`. -/
def MacroFree (mDefines : DefineMap) (line : QString) : Prop :=
  ∀ w ∈ wordRuns line, getDefine mDefines w = none ∧ w ≠ "__attribute__".toList

/-- The macro that `addDefineByParts` builds from the parts `ID`, `(x)` and `x` while no file
is current: the one-parameter macro whose body is its parameter. -/
def idDefine : Define :=
  { name := "ID".toList, args := "(x)".toList, value := "x".toList, filename := [],
    argList := ["x".toList], formatValue := "%1".toList, hardCoded := false }

/-- The macro table holding only `ID`. -/
def idTable : DefineMap := [("ID".toList, idDefine)]

/-- The macro table holding only the object-like macro `A`, defined as `A`. -/
def selfTable : DefineMap := [("A".toList, selfDefine "A".toList)]

/-- The macro table holding only the object-like macro `A`, defined as `A+1`. -/
def growTable : DefineMap :=
  [("A".toList,
    { name := "A".toList, args := [], value := "A+1".toList, filename := [], argList := [],
      formatValue := "A+1".toList, hardCoded := false })]

/-- The state after `openInclude` of `a.h` from `rootOpenState`: the include stack holds
`main.c` and `a.h`, and the record of `main.c` lists `a.h`. -/
def headerOpenState : CppPreprocessor :=
  { rootOpenState with
    mFileName := "a.h".toList
    mResult := ["#include a.h:1".toList]
    mIncludes :=
      [{ index := 0, fileName := "main.c".toList, buffer := ["(".toList], branches := 0 },
       { index := 0, fileName := "a.h".toList, buffer := [], branches := 0 }]
    mBuffer := []
    mCurrentIncludes := some "a.h".toList
    mIncludesList := some
      [("a.h".toList, { baseFile := "a.h".toList, includeFiles := [] }),
       ("main.c".toList,
        { baseFile := "main.c".toList, includeFiles := [("a.h".toList, true)] })]
    mScannedFiles := some ["a.h".toList, "main.c".toList] }

/-- The operations on the macro tables: `addDefineByParts` (hard-coded or not),
`handleUndefine` on a directive line, `invalidDefinesInFile`, `addDefinesInFile`,
`resetDefines`; and, with no effect on the tables, the assignment of `mFileName` made when a
file is entered or left and the setters `setScannedFileList` and `setIncludesList`. -/
inductive MacroOp where
  | define (name args value : QString) (hardCoded : Bool)
  | undefine (line : QString)
  | invalidate (fileName : QString)
  | merge (fileName : QString)
  | resetDefines
  | setFile (fileName : QString)
  | setScannedFileList (list : List QString)
  | setIncludesList (list : List (QString × FileIncludes))
  deriving DecidableEq, Repr

/-- The state after one operation on the macro tables. -/
def runMacroOp (fuel : Nat) (u : Indeterminate) (st : CppPreprocessor) :
    MacroOp → Run CppPreprocessor
  | .define name args value hardCoded => addDefineByParts u st name args value hardCoded
  | .undefine line => .ok (handleUndefine st line)
  | .invalidate fileName => .ok (invalidDefinesInFile st fileName)
  | .merge fileName => addDefinesInFile fuel st fileName
  | .resetDefines => .ok (resetDefines st)
  | .setFile fileName => .ok { st with mFileName := fileName }
  | .setScannedFileList list => .ok { st with mScannedFiles := some list }
  | .setIncludesList list => .ok { st with mIncludesList := some list }

/-- The state after the operations `ops` on the macro tables, run one after the other. -/
def runMacroOps (fuel : Nat) (u : Indeterminate) :
    CppPreprocessor → List MacroOp → Run CppPreprocessor
  | st, [] => .ok st
  | st, op :: ops =>
    match runMacroOp fuel u st op with
    | .fault e => .fault e
    | .ok st => runMacroOps fuel u st ops

/-- Every macro of the active table is stored under its name, and every macro of it that is
not hard-coded is the entry stored under its name in the bucket of its file. -/
def SoftBacked (st : CppPreprocessor) : Prop :=
  ∀ name d, getDefine st.mDefines name = some d →
    d.name = name ∧
    (d.hardCoded = false →
      ∃ bucket, hashValue st.mFileDefines d.filename = some bucket ∧
        hashValue bucket d.name = some d)

/-- Every entry of the bucket of a file is a macro of that file, not hard-coded and stored
under its name. -/
def BucketsOwn (mFileDefines : List (QString × DefineMap)) : Prop :=
  ∀ f bucket, hashValue mFileDefines f = some bucket →
    ∀ e ∈ bucket, e.2.name = e.1 ∧ e.2.filename = f ∧ e.2.hardCoded = false

/-- Every entry of the hard-macro table is hard-coded and stored under its name. -/
def HardOwn (mHardDefines : DefineMap) : Prop :=
  ∀ k d, hashValue mHardDefines k = some d → d.name = k ∧ d.hardCoded = true

/-- The invariant of the macro tables. -/
def TablesInv (st : CppPreprocessor) : Prop :=
  SoftBacked st ∧ BucketsOwn st.mFileDefines ∧ HardOwn st.mHardDefines

/-- What a merge does to the active table: the buckets and the hard macros stay, and every
active entry afterwards was active before or is the entry of its key in a bucket. -/
def MergeFrom (st st2 : CppPreprocessor) : Prop :=
  st2.mFileDefines = st.mFileDefines ∧ st2.mHardDefines = st.mHardDefines ∧
  ∀ k d, getDefine st2.mDefines k = some d →
    getDefine st.mDefines k = some d ∨
      ∃ g bucket, hashValue st.mFileDefines g = some bucket ∧ hashValue bucket k = some d

/-- A run of operations on the macro tables: `a.h` defines `X` as `1`; `main.c` defines `X`
as `2`, `Y` as `3` and the hard-coded `H`, and undefines `X`; then `a.h` is merged. -/
def tableOps : List MacroOp :=
  [.setScannedFileList ["a.h".toList], .setIncludesList [],
   .setFile "a.h".toList, .define "X".toList [] "1".toList false,
   .setFile "main.c".toList, .define "X".toList [] "2".toList false,
   .define "Y".toList [] "3".toList false, .define "H".toList [] "4".toList true,
   .undefine "undef X".toList, .merge "a.h".toList]

/-- The macro `Y` of `main.c` with value `3`. -/
def yDefine : Define :=
  { name := "Y".toList, args := [], value := "3".toList, filename := "main.c".toList,
    argList := [], formatValue := "3".toList, hardCoded := false }

/-- The state after `tableOps`, run from `clear()`: the `X` of `a.h` and the `Y` of `main.c`
are active. -/
def tableOpsState : CppPreprocessor :=
  { mDefines := [("X".toList, xDefine "a.h".toList "1".toList), ("Y".toList, yDefine)]
    mHardDefines :=
      [("H".toList,
        { name := "H".toList, args := [], value := "4".toList, filename := "main.c".toList,
          argList := [], formatValue := "4".toList, hardCoded := true })]
    mFileDefines :=
      [("main.c".toList, [("Y".toList, yDefine)]),
       ("a.h".toList, [("X".toList, xDefine "a.h".toList "1".toList)])]
    mFileName := "main.c".toList
    mIncludesList := some []
    mScannedFiles := some ["a.h".toList]
    mProcessed := ["a.h".toList] }

/-- The state `twoFileState` later in the pass: the macros of `b.h` have been merged already,
`b.h` is in the processed set. -/
def mergedTwoFileState : CppPreprocessor :=
  { twoFileState with mProcessed := ["b.h".toList] }

/-- The state `twoFileState` with no file scanned. -/
def unscannedTwoFileState : CppPreprocessor :=
  { twoFileState with mScannedFiles := some [] }

/-- The line `'a'`, a complete character literal. -/
def charLiteralLine : QString := [Char.ofNat 39, 'a', Char.ofNat 39]

/-- What the macro directives and the merge leave alone: the include stack, the registry and
the number of output entries. -/
def KeepsFrames (st st2 : CppPreprocessor) : Prop :=
  st2.mIncludes = st.mIncludes ∧ st2.mIncludesList = st.mIncludesList ∧
  st2.mResult.length = st.mResult.length

/-- The registry `list2` has every record of `list`, and each of them lists every file it
listed in `list`. -/
def RecordsGrow (list list2 : List (QString × FileIncludes)) : Prop :=
  ∀ k record, hashValue list k = some record →
    ∃ record2, hashValue list2 k = some record2 ∧
      ∀ x, (hashValue record.includeFiles x).isSome = true →
        (hashValue record2.includeFiles x).isSome = true

/-- Every frame of the include stack above the outermost one is listed in the include record
of the outermost file. -/
def FramesListed (st : CppPreprocessor) : Prop :=
  ∀ top rest, st.mIncludes.map (fun p => p.fileName) = top :: rest →
    ∃ list record, st.mIncludesList = some list ∧ hashValue list top = some record ∧
      ∀ x ∈ rest, (hashValue record.includeFiles x).isSome = true

/-- Three counters kept beside the main loop; they are not in the source.  `lines` is the
number of buffer lines the cursor has passed, in whatever file, `entered` the number of
frames that the directives have pushed on the include stack, and `returns` the number of
times `closeInclude` went back from an included file to the file that included it. -/
structure Tally where
  lines : Nat
  entered : Nat
  returns : Nat
  deriving DecidableEq, Repr

/-- The loop of `preprocessFile` with the counters: after every call of `getNextPreprocessor`
the advance of the cursor is added to `lines`, and after every call of `handlePreprocessor`
the growth of the include stack to `entered`. -/
def preprocessFileTally (maxDepth : Nat) (u : Indeterminate) (step : Int) (host : Host) :
    Nat → CppPreprocessor → Tally → Run (CppPreprocessor × Tally)
  | 0, _, _ => .fault .outOfFuel
  | fuel + 1, st0, t =>
    match getNextPreprocessor maxDepth st0 with
    | .fault e => .fault e
    | .ok (s, st) =>
      let t := { t with lines := t.lines + (st.mIndex - st0.mIndex) }
      if s.head? = some '#' then
        let s := trimmed (midFrom s 1)
        if s ≠ [] then
          match handlePreprocessor fuel u step host st s with
          | .fault e => .fault e
          | .ok st2 =>
            preprocessFileTally maxDepth u step host fuel st2
              { t with entered := t.entered + (st2.mIncludes.length - st.mIncludes.length) }
        else .ok (st, t)
      else if s ≠ [] then preprocessFileTally maxDepth u step host fuel st t
      else .ok (st, t)

/-- The loop of `preprocessBuffer` with the counters: `returns` goes up when `closeInclude`
leaves a file on the stack. -/
def preprocessBufferTally (maxDepth : Nat) (u : Indeterminate) (step : Int) (host : Host) :
    Nat → CppPreprocessor → Tally → Run (CppPreprocessor × Tally)
  | 0, _, _ => .fault .outOfFuel
  | fuel + 1, st, t =>
    if st.mIncludes.length > 0 then
      match preprocessFileTally maxDepth u step host fuel st t with
      | .fault e => .fault e
      | .ok (st, t) =>
        preprocessBufferTally maxDepth u step host fuel (closeInclude st)
          (if (closeInclude st).mIncludes ≠ [] then { t with returns := t.returns + 1 } else t)
    else .ok (st, t)

/-- Function `preprocess` with the counters, all zero at the start. -/
def preprocessTally (fuel : Nat) (maxDepth : Nat) (u : Indeterminate) (step : Int)
    (host : Host) (st : CppPreprocessor) (fileName : QString) (buffer : List QString) :
    Run (CppPreprocessor × Tally) :=
  match openInclude fuel host (reset { st with mFileName := fileName }) fileName buffer with
  | .fault e => .fault e
  | .ok st =>
    preprocessBufferTally maxDepth u step host fuel st { lines := 0, entered := 0, returns := 0 }

/-- A host in which every `include` line resolves to the header `b.h`, a local file with no
lines of its own on disk. -/
def nestedHost : Host :=
  { getHeaderFileName := fun _ _ _ _ => "b.h".toList
    isSystemHeaderFile := fun _ _ => false
    ReadFileToLines := fun _ => [] }

/-- The state `headerOpenState` with the one line `#include <b.h>` as the buffer of `a.h`. -/
def headerLineState : CppPreprocessor :=
  { headerOpenState with
    mBuffer := ["#include <b.h>".toList]
    mIncludes :=
      [{ index := 0, fileName := "main.c".toList, buffer := ["(".toList], branches := 0 },
       { index := 0, fileName := "a.h".toList, buffer := ["#include <b.h>".toList],
         branches := 0 }] }

/-- The state after `preprocessBuffer` from `headerLineState` with `nestedHost`: `b.h` was
entered from `a.h` and left again, then `a.h` was left, then `main.c`. -/
def nestedDoneState : CppPreprocessor :=
  { headerLineState with
    mFileName := "main.c".toList
    mResult := ["#include a.h:1".toList, "#include b.h:1".toList, "#include a.h:2".toList,
      "#include main.c:1".toList, "(".toList]
    mPreProcIndex := 1
    mIncludes := []
    mIndex := 1
    mBuffer := ["(".toList]
    mCurrentIncludes := some "main.c".toList
    mIncludesList := some
      [("b.h".toList, { baseFile := "b.h".toList, includeFiles := [] }),
       ("a.h".toList, { baseFile := "a.h".toList, includeFiles := [("b.h".toList, true)] }),
       ("main.c".toList,
        { baseFile := "main.c".toList,
          includeFiles := [("b.h".toList, false), ("a.h".toList, true)] })]
    mScannedFiles := some ["b.h".toList, "a.h".toList, "main.c".toList] }

/-! ## Macro expansion: theorems -/

/-- The recursion of `expandMacros` as the source writes it: the depth guard, then the body
with the nested calls made at `depth + 1`. -/
theorem expandMacros_unfold (maxDepth : Nat) (mDefines : DefineMap) (line : QString)
    (depth : Int) :
    expandMacros maxDepth mDefines line depth =
      if depth > maxDepth then line
      else
        expandMacrosBody (fun l => expandMacros maxDepth mDefines l (depth + 1)) mDefines
          line := by
  unfold expandMacros
  split_ifs with h
  · have : ((maxDepth : Int) + 1 - depth).toNat = 0 := by omega
    rw [this]; rfl
  · obtain ⟨k, hk⟩ : ∃ k, ((maxDepth : Int) + 1 - depth).toNat = k + 1 :=
      ⟨((maxDepth : Int) - depth).toNat, by omega⟩
    have h2 : ((maxDepth : Int) + 1 - (depth + 1)).toNat = k := by omega
    rw [hk]
    simp only [expandMacrosAux, h2]

/-- On a run of word characters up to the end of the line the loop of `expandMacros` only
collects the word. -/
theorem expandMacrosLoop_word (expand : QString → QString) (mDefines : DefineMap)
    (w : List Char) (hw : ∀ c ∈ w, isWordChar c = true) :
    ∀ (pre : List Char) (n : Nat) (word newLine : QString), w.length ≤ n →
      expandMacrosLoop expand mDefines (pre ++ w) n pre.length word newLine =
        ((pre ++ w).length, word ++ w, newLine) := by
  induction w with
  | nil =>
    intro pre n word newLine _
    cases n with
    | zero => simp [expandMacrosLoop]
    | succ n => simp [expandMacrosLoop]
  | cons c w ih =>
    intro pre n word newLine hn
    cases n with
    | zero => simp at hn
    | succ n =>
      have hc : isWordChar c = true := hw c (by simp)
      have hget : (pre ++ c :: w).get? pre.length = some c := by
        rw [List.get?_eq_getElem?, List.getElem?_append_right (le_refl _)]; simp
      have := ih (fun x hx => hw x (by simp [hx])) (pre ++ [c]) n (word ++ [c]) newLine
        (by simpa using hn)
      simp only [List.append_assoc, List.singleton_append, List.length_append,
        List.length_singleton] at this
      simp only [expandMacrosLoop, hget, hc, if_true]
      rw [this]
      simp

/-- Skipping blanks never moves `i` back. -/
theorem skipBlanks_ge (l : List Char) (i : Nat) : i ≤ skipBlanks l i := by
  induction l generalizing i with
  | nil => simp [skipBlanks]
  | cons c rest ih =>
    simp only [skipBlanks]
    split_ifs
    · exact le_trans (Nat.le_succ i) (ih (i + 1))
    · exact le_refl i

/-- The parenthesis scan never moves `i` back. -/
theorem scanParens_ge (l : List Char) (level : Int) (i : Nat) : i ≤ (scanParens l level i).2 := by
  induction l generalizing i level with
  | nil => simp [scanParens]
  | cons c rest ih =>
    simp only [scanParens]
    split_ifs
    all_goals first
      | exact Nat.le_succ i
      | exact le_trans (Nat.le_succ i) (ih _ (i + 1))

/-- The call of `expandMacro` never moves `i` back. -/
theorem expandMacro_ge (expand : QString → QString) (mDefines : DefineMap)
    (line newLine word : QString) (i : Nat) :
    i ≤ (expandMacro expand mDefines line newLine word i).2 := by
  have h1 := skipBlanks_ge (line.drop i) i
  have h2 := scanParens_ge (line.drop (skipBlanks (line.drop i) i)) 0 (skipBlanks (line.drop i) i)
  simp only [expandMacro]
  repeat' split
  all_goals first
    | exact le_refl i
    | exact h1
    | exact le_trans h1 h2

/-- One round of the loop of `expandMacros`. -/
theorem expandMacrosLoop_step (expand : QString → QString) (mDefines : DefineMap)
    (line : QString) (n i : Nat) (word newLine : QString) :
    expandMacrosLoop expand mDefines line (n + 1) i word newLine =
      match line.get? i with
      | none => (i, word, newLine)
      | some ch =>
        if isWordChar ch then
          expandMacrosLoop expand mDefines line n (i + 1) (word ++ [ch]) newLine
        else
          expandMacrosLoop expand mDefines line n
            ((if word ≠ [] then expandMacro expand mDefines line newLine word i
              else (newLine, i)).2 + 1) []
            (if (if word ≠ [] then expandMacro expand mDefines line newLine word i
                else (newLine, i)).2 < line.length
              then (if word ≠ [] then expandMacro expand mDefines line newLine word i
                else (newLine, i)).1 ++ [ch]
              else (if word ≠ [] then expandMacro expand mDefines line newLine word i
                else (newLine, i)).1) := rfl

/-- The loop of `expandMacros` leaves by its own test `i < lenLine`: with at least as many
rounds allowed as characters are left, one more round changes nothing. -/
theorem expandMacrosLoop_succ (expand : QString → QString) (mDefines : DefineMap)
    (line : QString) (n : Nat) :
    ∀ (i : Nat) (word newLine : QString), line.length - i ≤ n →
      expandMacrosLoop expand mDefines line (n + 1) i word newLine =
        expandMacrosLoop expand mDefines line n i word newLine := by
  induction n with
  | zero =>
    intro i word newLine h
    have hi : line.get? i = none := by
      rw [List.get?_eq_none]; omega
    rw [expandMacrosLoop_step, hi]
    rfl
  | succ n ih =>
    intro i word newLine h
    rw [expandMacrosLoop_step, expandMacrosLoop_step expand mDefines line n]
    cases hget : line.get? i with
    | none => rfl
    | some ch =>
      simp only
      have hlt : i < line.length := by
        by_contra hcon
        rw [List.get?_eq_none.mpr (by omega)] at hget
        cases hget
      have hge := expandMacro_ge expand mDefines line newLine word i
      split_ifs
      all_goals exact ih _ _ _ (by omega)

/-- The body of `expandMacros` on a line that is the name of a self-defined object-like macro. -/
theorem expandMacrosBody_self (expand : QString → QString) (mDefines : DefineMap)
    (name : QString) (d : Define) (hw : ∀ c ∈ name, isWordChar c = true)
    (hattr : name ≠ "__attribute__".toList) (hdef : getDefine mDefines name = some d)
    (hargs : d.args = []) (hval : d.value = name) :
    expandMacrosBody expand mDefines name = name := by
  have hloop := expandMacrosLoop_word expand mDefines name hw [] name.length [] [] (le_refl _)
  simp only [List.nil_append, List.length_nil] at hloop
  unfold expandMacrosBody
  rw [hloop]
  by_cases hne : name = []
  · simp [hne]
  · simp only [expandMacro, if_neg hattr, hdef, hargs, hval]
    simp [hne]

/-- C1 (as amended): in every macro table in which the identifier `name`, other than
`__attribute__`, is an object-like macro whose value is `name` itself, `expandMacros` applied
to the line `name` returns `name`, at every starting depth and for every depth limit. -/
theorem expandMacros_self_reference (maxDepth : Nat) (mDefines : DefineMap) (name : QString)
    (d : Define) (depth : Int) (hw : ∀ c ∈ name, isWordChar c = true)
    (hattr : name ≠ "__attribute__".toList) (hdef : getDefine mDefines name = some d)
    (hargs : d.args = []) (hval : d.value = name) :
    expandMacros maxDepth mDefines name depth = name := by
  rw [expandMacros_unfold]
  split_ifs
  · rfl
  · exact expandMacrosBody_self _ mDefines name d hw hattr hdef hargs hval

/-- Witness of C1: the macro `A` defined as `A`, expanded at depth 1 with limit 20. -/
theorem expandMacros_self_reference_witness :
    expandMacros 20 [("A".toList, selfDefine "A".toList)] "A".toList 1 = "A".toList :=
  expandMacros_self_reference 20 [("A".toList, selfDefine "A".toList)] "A".toList
    (selfDefine "A".toList) 1 (by decide) (by decide) (by rfl) (by rfl) (by rfl)

/-- The line `__attribute__` expands to nothing under every depth limit that lets the body run. -/
theorem expandMacros_attribute_dropped (maxDepth : Nat) (depth : Int)
    (h : depth ≤ maxDepth) :
    expandMacros maxDepth attributeTable "__attribute__".toList depth = [] := by
  rw [expandMacros_unfold, if_neg (by omega)]
  rfl

/-- Counterexample to C1 as stated: `__attribute__` is an object-like macro whose value is
`__attribute__`, yet expanding the line `__attribute__` gives the empty string. -/
theorem attribute_name_expands_to_nothing :
    getDefine attributeTable "__attribute__".toList = some (selfDefine "__attribute__".toList) ∧
    (selfDefine "__attribute__".toList).args = [] ∧
    (selfDefine "__attribute__".toList).value = "__attribute__".toList ∧
    expandMacros 20 attributeTable "__attribute__".toList 1 = [] ∧
    expandMacros 20 attributeTable "__attribute__".toList 1 ≠ "__attribute__".toList := by
  refine ⟨by rfl, by rfl, by rfl, by rfl, by decide⟩

/-! ## `#define`: theorems -/

/-- The text `line.mid(6,0)` is empty for every line. -/
theorem mid_six_zero (line : QString) : mid line 6 0 = [] := by
  unfold mid
  split_ifs <;> first | rfl | omega

/-- Whatever the directive says, `addDefineByLine` registers the macro whose name, parameter
list and value are all empty. -/
theorem addDefineByLine_eq (u : Indeterminate) (st : CppPreprocessor) (line : QString)
    (hardCoded : Bool) :
    addDefineByLine u st line hardCoded = addDefineByParts u st [] [] [] hardCoded := by
  unfold addDefineByLine
  rw [mid_six_zero]
  rfl

/-- Handling any `define` directive in `firstLineState`. -/
theorem handleDefine_firstLineState (u : Indeterminate) (line : QString) :
    handleDefine u firstLineState line = .ok (afterDefineState line) := by
  unfold handleDefine
  rw [addDefineByLine_eq]
  rfl

/-- C10 (code evaluated at the failing input): handling `define FOO 1` in an active branch
leaves `FOO` undefined and registers a macro with empty name and empty value instead. -/
theorem handleDefine_FOO_not_defined (u : Indeterminate) :
    getCurrentBranch firstLineState = true ∧
    handleDefine u firstLineState "define FOO 1".toList =
      .ok (afterDefineState "define FOO 1".toList) ∧
    getDefine (afterDefineState "define FOO 1".toList).mDefines "FOO".toList = none ∧
    getDefine (afterDefineState "define FOO 1".toList).mDefines [] = some emptyDefine ∧
    emptyDefine.name = [] ∧ emptyDefine.value = [] :=
  ⟨by rfl, handleDefine_firstLineState u _, by rfl, by rfl, by rfl, by rfl⟩

/-- Only the start value of the loop counter of `parseArgs` reaches `addDefineByParts`. -/
theorem addDefineByParts_indeterminate (u v : Indeterminate) (h : u.parseArgsI = v.parseArgsI)
    (st : CppPreprocessor) (name args value : QString) (hardCoded : Bool) :
    addDefineByParts u st name args value hardCoded =
      addDefineByParts v st name args value hardCoded := by
  unfold addDefineByParts parseArgs
  rw [h]

/-- The macro registered for `MAX`, `(a,b)`, `((a)>(b)?(a):(b))` when the loop counter of
`parseArgs` starts at 0. -/
theorem addDefineByParts_MAX (u : Indeterminate) :
    addDefineByParts { u with parseArgsI := 0 } firstLineState "MAX".toList "(a,b)".toList
        "((a)>(b)?(a):(b))".toList false =
      .ok { firstLineState with
        mDefines := [("MAX".toList, maxDefine)]
        mFileDefines := [("main.c".toList, [("MAX".toList, maxDefine)])] } := by
  rw [addDefineByParts_indeterminate { u with parseArgsI := 0 } ⟨0, 0, ' '⟩ rfl]
  rfl

/-- C2 (code evaluated at the failing input): after `define MAX(a,b) ((a)>(b)?(a):(b))` is
handled in an active branch, `MAX` is not a macro and the line `MAX(1,2)` expands to itself;
and when the macro is registered part by part, its format string has lost every token that is
not a parameter, so the line expands to blanks around the arguments. -/
theorem expand_MAX_after_define (u : Indeterminate) (maxDepth : Nat) :
    (handleDefine u firstLineState "define MAX(a,b) ((a)>(b)?(a):(b))".toList =
        .ok (afterDefineState "define MAX(a,b) ((a)>(b)?(a):(b))".toList) ∧
      getDefine (afterDefineState "define MAX(a,b) ((a)>(b)?(a):(b))".toList).mDefines
        "MAX".toList = none ∧
      expandMacros maxDepth
        (afterDefineState "define MAX(a,b) ((a)>(b)?(a):(b))".toList).mDefines
        "MAX(1,2)".toList 1 = "MAX(1,2)".toList) ∧
    (addDefineByParts { u with parseArgsI := 0 } firstLineState "MAX".toList "(a,b)".toList
        "((a)>(b)?(a):(b))".toList false =
        .ok { firstLineState with
          mDefines := [("MAX".toList, maxDefine)]
          mFileDefines := [("main.c".toList, [("MAX".toList, maxDefine)])] } ∧
      expandMacros 20 [("MAX".toList, maxDefine)] "MAX(1,2)".toList 1 =
        "  1    2    1    2  ".toList) := by
  refine ⟨⟨handleDefine_firstLineState u _, by rfl, ?_⟩, addDefineByParts_MAX u, by rfl⟩
  rw [expandMacros_unfold]
  split_ifs
  · rfl
  · rfl

/-! ## The expression evaluator: theorems -/

/-- The self-call of `evalAddExpr` uses up every step budget. -/
theorem evalAddExpr_outOfFuel (evalExpr : QString → Nat → EvalResult) (fuel : Nat)
    (expr : QString) (pos : Nat) :
    evalAddExpr evalExpr fuel expr pos = .fault .outOfFuel := by
  induction fuel with
  | zero => rfl
  | succ n ih => simp only [evalAddExpr, ih, EvalResult.andThen]

/-- Every level above `evalAddExpr` hands its fault on. -/
theorem evalLogicOrExpr_outOfFuel (evalExpr : QString → Nat → EvalResult) (fuel : Nat)
    (expr : QString) (pos : Nat) :
    evalLogicOrExpr evalExpr fuel expr pos = .fault .outOfFuel := by
  simp only [evalLogicOrExpr, evalLogicAndExpr, evalBitOrExpr, evalBitXorExpr, evalBitAndExpr,
    evalEqualExpr, evalRelationExpr, evalShiftExpr, evalAddExpr_outOfFuel, EvalResult.andThen]

/-- No step budget lets `evalExpr` return. -/
theorem evalExpr_outOfFuel (fuel : Nat) (expr : QString) (pos : Nat) :
    evalExpr fuel expr pos = .fault .outOfFuel := by
  cases fuel with
  | zero => rfl
  | succ n => simp only [evalExpr, evalLogicOrExpr_outOfFuel]

/-- No step budget lets `evaluateExpression` return. -/
theorem evaluateExpression_outOfFuel (fuel : Nat) (line : QString) :
    evaluateExpression fuel line = .fault .outOfFuel := by
  simp only [evaluateExpression, evalExpr_outOfFuel]

/-- C3 (code evaluated at the failing inputs): on `1+2*3`, `(1+2)*3` and `1<<4` the evaluator
does not return 7, 9 and 16; whatever the step budget, `evalExpr` is still descending through
the self-call of `evalAddExpr`, so `evaluateExpression` returns nothing. -/
theorem evaluateExpression_examples_no_value (fuel : Nat) :
    evaluateExpression fuel "1+2*3".toList = .fault .outOfFuel ∧
    evaluateExpression fuel "(1+2)*3".toList = .fault .outOfFuel ∧
    evaluateExpression fuel "1<<4".toList = .fault .outOfFuel ∧
    evaluateExpression fuel "1+2*3".toList ≠ .ok 7 := by
  simp only [evaluateExpression, evalExpr_outOfFuel]
  exact ⟨trivial, trivial, trivial, by intro h; cases h⟩

/-- C4 (code evaluated at every input): `evaluateExpression` returns for no input string and no
step budget, neither a value nor the failure value: `evalAddExpr` calls itself first. -/
theorem evaluateExpression_never_returns (fuel : Nat) (line : QString) (v : Int) :
    evaluateExpression fuel line ≠ .ok v ∧
    evalAddExpr (evalExpr fuel) fuel line 0 = .fault .outOfFuel ∧
    evaluateExpression fuel [] = .fault .outOfFuel := by
  refine ⟨?_, evalAddExpr_outOfFuel _ _ _ _, ?_⟩
  · simp only [evaluateExpression, evalExpr_outOfFuel]
    intro h; cases h
  · simp only [evaluateExpression, evalExpr_outOfFuel]

/-- C6 (code evaluated at the failing inputs): on `1/0` and `1%0` the loop of `evalMulExpr`
parses the right operand 0 and applies `/=` and `%=` to it: a division with divisor zero is
executed and no failure is returned; `evaluateExpression` itself returns nothing. -/
theorem evalMulExpr_divides_by_zero (evalExpr : QString → Nat → EvalResult) (fuel : Nat) :
    evalMulExpr evalExpr (fuel + 1) "1/0".toList 0 = .fault .divideByZero ∧
    evalMulExpr evalExpr (fuel + 1) "1%0".toList 0 = .fault .divideByZero ∧
    evalMulExpr evalExpr (fuel + 1) "1/0".toList 0 ≠ .ok none ∧
    evaluateExpression fuel "1/0".toList ≠ .ok evaluationFailed := by
  refine ⟨by rfl, by rfl, ?_, ?_⟩
  · intro h; cases h
  · simp only [evaluateExpression, evalExpr_outOfFuel]
    intro h; cases h

/-- C5 (code evaluated at the failing input): the failure value of `evaluateExpression`
converts to `true`, so `evaluateIf` would take the branch; and as `evaluateExpression` returns
nothing, `evaluateIf` never returns `false`. -/
theorem evaluateIf_failure_not_false (fuel : Nat) (u : Indeterminate) (step : Int)
    (mDefines : DefineMap) (line : QString) :
    boolOfInt evaluationFailed = true ∧
    evaluateIf fuel u step mDefines line ≠ .ok false ∧
    evaluateIf fuel u step mDefines "1 2".toList = .fault .outOfFuel := by
  refine ⟨by rfl, ?_, ?_⟩
  · unfold evaluateIf
    cases expandDefines fuel u step mDefines line with
    | fault f => intro h; cases h
    | ok newLine =>
      simp only [evaluateExpression_outOfFuel]
      intro h; cases h
  · unfold evaluateIf
    cases h : expandDefines fuel u step mDefines "1 2".toList with
    | fault f =>
      match fuel, h with
      | 0, h => cases h; rfl
      | 1, h => cases h; rfl
      | 2, h => cases h; rfl
      | 3, h => cases h; rfl
      | n + 4, h => exact absurd h (by intro h; cases h)
    | ok newLine => simp only [evaluateExpression_outOfFuel]

/-! ## `#if` conditions and the branch stack: theorems -/

/-- The only fault of `skipBraces` is a used-up step budget. -/
theorem skipBracesLoop_fault (line : QString) (step : Int) (fuel : Nat) (index level : Int)
    (f : Fault) (h : skipBracesLoop line step fuel index level = .fault f) : f = .outOfFuel := by
  induction fuel generalizing index level with
  | zero => simp only [skipBracesLoop] at h; cases h; rfl
  | succ n ih =>
    simp only [skipBracesLoop] at h
    repeat' split at h
    all_goals first
      | exact ih _ _ h
      | cases h

/-- The only fault of `expandDefines` is a used-up step budget. -/
theorem expandDefinesLoop_fault (u : Indeterminate) (step : Int) (mDefines : DefineMap)
    (fuel : Nat) (line : QString) (searchPos : Nat) (f : Fault)
    (h : expandDefinesLoop u step mDefines fuel line searchPos = .fault f) : f = .outOfFuel := by
  induction fuel generalizing line searchPos with
  | zero => simp only [expandDefinesLoop] at h; cases h; rfl
  | succ n ih =>
    simp only [expandDefinesLoop] at h
    repeat' split at h
    all_goals first
      | exact ih _ _ h
      | (cases h; done)
      | (cases h; exact skipBracesLoop_fault _ _ _ _ _ _ (by assumption))

/-- No step budget lets `evaluateIf` return. -/
theorem evaluateIf_outOfFuel (fuel : Nat) (u : Indeterminate) (step : Int)
    (mDefines : DefineMap) (line : QString) :
    evaluateIf fuel u step mDefines line = .fault .outOfFuel := by
  unfold evaluateIf
  cases h : expandDefines fuel u step mDefines line with
  | fault f => rw [expandDefinesLoop_fault u step mDefines fuel line 0 f h]
  | ok newLine => simp only [evaluateExpression_outOfFuel]

/-- C7 (code evaluated at the failing input): with `FOO` in the macro table, the rewriting of
`defined(FOO)` follows the unassigned `defineEnd`: it is `1` when that happens to hold 11, the
index after `FOO`, and `0` when it holds 0, the looked-up name then being `FOO)`; and
`defined FOO` becomes `0` when it holds 9. -/
theorem expandDefines_defined_unassigned_defineEnd (fuel : Nat) :
    (getDefine fooTable "FOO".toList).isSome = true ∧
    expandDefines (fuel + 6) ⟨0, 0, Char.ofNat 0⟩ 1 fooTable "defined(FOO)".toList =
      .ok "0".toList ∧
    expandDefines (fuel + 6) ⟨0, 11, Char.ofNat 0⟩ 1 fooTable "defined(FOO)".toList =
      .ok "1".toList ∧
    expandDefines (fuel + 6) ⟨0, 9, Char.ofNat 0⟩ 1 fooTable "defined FOO".toList =
      .ok "0".toList ∧
    mid "defined(FOO)".toList 8 (0 - 8) = "FOO)".toList :=
  ⟨by rfl, by rfl, by rfl, by rfl, by rfl⟩

/-- C8 (code evaluated at the failing inputs): from an empty branch stack, handling `if 1` or
`if 0` pushes nothing: the call of `evaluateIf` does not return, whatever the step budget. -/
theorem handleBranch_if_no_result (fuel : Nat) (u : Indeterminate) (step : Int)
    (st : CppPreprocessor) :
    getCurrentBranch { st with mBranchResults := [] } = true ∧
    handleBranch fuel u step { st with mBranchResults := [] } "if 1".toList =
      .fault .outOfFuel ∧
    handleBranch fuel u step { st with mBranchResults := [] } "if 0".toList =
      .fault .outOfFuel := by
  refine ⟨by rfl, ?_, ?_⟩
  · have h1 : startsWith "if 1".toList "ifdef".toList = false := by decide
    have h2 : startsWith "if 1".toList "ifndef".toList = false := by decide
    have h3 : startsWith "if 1".toList "if".toList = true := by decide
    have h4 : getCurrentBranch { st with mBranchResults := [] } = true := by rfl
    simp only [handleBranch, h1, h2, h3, h4, evaluateIf_outOfFuel]
    simp
  · have h1 : startsWith "if 0".toList "ifdef".toList = false := by decide
    have h2 : startsWith "if 0".toList "ifndef".toList = false := by decide
    have h3 : startsWith "if 0".toList "if".toList = true := by decide
    have h4 : getCurrentBranch { st with mBranchResults := [] } = true := by rfl
    simp only [handleBranch, h1, h2, h3, h4, evaluateIf_outOfFuel]
    simp

/-- C9 (code evaluated at the failing input): from the empty branch stack, with `U` and `V`
undefined, the directives `ifdef U`, `ifdef V`, `else` leave the stack `[false, true]`: the
outer level is false and the nested level is true, so the current branch is active. -/
theorem handleBranches_else_reenables (fuel : Nat) (u : Indeterminate) (step : Int) :
    handleBranches fuel u step firstLineState
        ["ifdef U".toList, "ifdef V".toList, "else".toList] =
      .ok { firstLineState with mBranchResults := [false, true] } ∧
    firstLineState.mBranchResults = [] ∧
    monotoneSuppression [false, true] = false ∧
    getCurrentBranch { firstLineState with mBranchResults := [false, true] } = true :=
  ⟨by rfl, by rfl, by rfl, by rfl⟩

/-! ## Suppressed directives: theorems -/

/-- A line that starts with `include` starts with none of the other directive keywords that
`handlePreprocessor` tests first. -/
theorem startsWith_include (line : QString) (h : startsWith line "include".toList = true) :
    startsWith line "define".toList = false ∧ startsWith line "undef".toList = false ∧
    startsWith line "if".toList = false ∧ startsWith line "else".toList = false ∧
    startsWith line "elif".toList = false ∧ startsWith line "endif".toList = false := by
  unfold startsWith at h
  obtain ⟨t, rfl⟩ := List.isPrefixOf_iff_prefix.mp h
  refine ⟨?_, ?_, ?_, ?_, ?_, ?_⟩ <;> rfl

/-- C11: when the current branch is inactive, handling a `define` or an `include` directive,
through `handlePreprocessor` or directly, returns the state it was given: the macro tables,
the per-file buckets, the include stack, the branch stack and the output are unchanged. -/
theorem inactive_define_include_noop (fuel : Nat) (u : Indeterminate) (step : Int)
    (host : Host) (st : CppPreprocessor) (line : QString)
    (h : getCurrentBranch st = false) :
    handleDefine u st line = .ok st ∧ handleInclude fuel host st line = .ok st ∧
    (startsWith line "define".toList = true →
      handlePreprocessor fuel u step host st line = .ok st) ∧
    (startsWith line "include".toList = true →
      handlePreprocessor fuel u step host st line = .ok st) := by
  have hd : handleDefine u st line = .ok st := by simp [handleDefine, h]
  have hi : handleInclude fuel host st line = .ok st := by simp [handleInclude, h]
  refine ⟨hd, hi, ?_, ?_⟩
  · intro hs
    simp only [handlePreprocessor, hs, hd, if_true]
  · intro hs
    obtain ⟨h1, h2, h3, h4, h5, h6⟩ := startsWith_include line hs
    simp only [handlePreprocessor, hs, h1, h2, h3, h4, h5, h6, hi, Bool.or_false,
      Bool.false_eq_true, if_false, if_true]

/-- Witness of C11: the directives `define BAR 2` and `include "a.h"` in `suppressedState`. -/
theorem inactive_define_include_noop_witness :
    getCurrentBranch suppressedState = false ∧
    handleDefine ⟨0, 0, ' '⟩ suppressedState "define BAR 2".toList = .ok suppressedState ∧
    handlePreprocessor 5 ⟨0, 0, ' '⟩ 1 emptyHost suppressedState "define BAR 2".toList =
      .ok suppressedState :=
  ⟨by rfl,
   (inactive_define_include_noop 5 ⟨0, 0, ' '⟩ 1 emptyHost suppressedState
      "define BAR 2".toList (by rfl)).1,
   (inactive_define_include_noop 5 ⟨0, 0, ' '⟩ 1 emptyHost suppressedState
      "define BAR 2".toList (by rfl)).2.2.1 (by rfl)⟩

/-- C12 (code evaluated at the failing input): in a suppressed block, where the current branch
is inactive, handling `undef FOO` removes `FOO` from the active table and from the bucket of
the current file: `handleUndefine` does not look at the branch stack. -/
theorem inactive_undef_removes (fuel : Nat) (u : Indeterminate) (step : Int) (host : Host) :
    getCurrentBranch suppressedState = false ∧
    (getDefine suppressedState.mDefines "FOO".toList).isSome = true ∧
    handlePreprocessor fuel u step host suppressedState "undef FOO".toList =
      .ok { suppressedState with mDefines := [], mFileDefines := [("main.c".toList, [])] } ∧
    getDefine (handleUndefine suppressedState "undef FOO".toList).mDefines "FOO".toList =
      none ∧
    (handleUndefine suppressedState "undef FOO".toList).mFileDefines ≠
      suppressedState.mFileDefines :=
  ⟨by rfl, by rfl, by rfl, by rfl, by decide⟩

/-! ## The comment stripper: theorems -/

/-- C18 (code evaluated at the failing input): the line `"a/*b"`, a complete string literal
whose body contains `/*`, comes back as `"/*"`: the characters `a` and `b` are lost.  And the
line `"a/"` leaves the stripper inside a string, so the `//` comment of the next line stays. -/
theorem removeComments_string_literal_changed :
    removeComments [[Char.ofNat 34, 'a', '/', '*', 'b', Char.ofNat 34]] =
      [[Char.ofNat 34, '/', '*', Char.ofNat 34]] ∧
    removeComments [[Char.ofNat 34, 'a', '/', '*', 'b', Char.ofNat 34]] ≠
      [[Char.ofNat 34, 'a', '/', '*', 'b', Char.ofNat 34]] ∧
    removeComments [[Char.ofNat 34, 'a', '/', Char.ofNat 34], "// x".toList] =
      [[Char.ofNat 34, '/', Char.ofNat 34], "//".toList] :=
  ⟨by rfl, by decide, by rfl⟩

/-- C19 (code evaluated at the failing input): the raw string line
`R"delim(text // not a comment)delim"` comes back as `R"("`, and after it the stripper is
inside a string, not in the normal state. -/
theorem removeComments_raw_string_changed :
    removeComments
        [['R', Char.ofNat 34] ++ "delim(text // not a comment)delim".toList ++ [Char.ofNat 34]] =
      [['R', Char.ofNat 34, '(', Char.ofNat 34]] ∧
    removeCommentsEndType
        [['R', Char.ofNat 34] ++ "delim(text // not a comment)delim".toList ++ [Char.ofNat 34]]
        .Other [] = .String :=
  ⟨by rfl, by rfl⟩

/-- C20 (code evaluated at the failing input): the lines `int x; // c` and `int x;` both come
back empty: the code before the comment is lost. -/
theorem removeComments_code_lost :
    removeComments ["int x; // c".toList] = [[]] ∧
    removeComments ["int x;".toList] = [[]] ∧
    trimmed "int x; ".toList = "int x;".toList :=
  ⟨by rfl, by rfl, by rfl⟩

/-! ## Macro table maintenance: theorems -/

/-- Looking up a key after `hashRemove`. -/
theorem hashValue_hashRemove {β : Type} (m : List (QString × β)) (k k2 : QString) :
    hashValue (hashRemove m k) k2 = if k = k2 then none else hashValue m k2 := by
  unfold hashValue hashRemove
  induction m with
  | nil => simp
  | cons e rest ih =>
    by_cases he : e.1 = k <;> by_cases h : k = k2 <;> by_cases he2 : e.1 = k2 <;>
      simp_all [List.filter_cons, List.find?_cons]

/-- Looking up a key after `hashInsert`. -/
theorem hashValue_hashInsert {β : Type} (m : List (QString × β)) (k k2 : QString) (v : β) :
    hashValue (hashInsert m k v) k2 = if k = k2 then some v else hashValue m k2 := by
  have h := hashValue_hashRemove m k k2
  unfold hashValue hashRemove at h
  unfold hashValue hashInsert
  by_cases hk : k = k2
  · simp [hk]
  · simp only [if_neg hk] at h ⊢
    rw [List.find?_cons]
    have : ((k, v).1 == k2) = false := by simpa using hk
    rw [this]
    exact h

/-- Looking up a key after `hashModify`. -/
theorem hashValue_hashModify {β : Type} (m : List (QString × β)) (k k2 : QString) (f : β → β) :
    hashValue (hashModify m k f) k2 =
      if k = k2 then (hashValue m k2).map f else hashValue m k2 := by
  unfold hashValue hashModify
  induction m with
  | nil => simp
  | cons e rest ih =>
    by_cases he : e.1 = k <;> by_cases h : k = k2 <;> by_cases he2 : e.1 = k2 <;>
      simp_all [List.find?_cons]

/-- Looking up a key after `hashInsertAll`: the items of `other` come first. -/
theorem hashValue_hashInsertAll {β : Type} (m other : List (QString × β)) (k : QString) :
    hashValue (hashInsertAll m other) k =
      match hashValue other k with
      | some v => some v
      | none => hashValue m k := by
  induction other with
  | nil => rfl
  | cons e rest ih =>
    show hashValue (hashInsert (hashInsertAll m rest) e.1 e.2) k = _
    rw [hashValue_hashInsert, ih]
    by_cases he : e.1 = k
    · simp [hashValue, List.find?_cons, he]
    · have : (e.1 == k) = false := by simpa using he
      simp [hashValue, List.find?_cons, he, this]

/-- After `reset` a lookup in the active table is a lookup in the hard-macro table. -/
theorem getDefine_reset (st : CppPreprocessor) (name : QString) :
    getDefine (reset st).mDefines name = hashValue st.mHardDefines name := by
  show hashValue (hashInsertAll [] st.mHardDefines) name = _
  rw [hashValue_hashInsertAll]
  cases hashValue st.mHardDefines name <;> rfl

/-- C15: `reset` leaves the hard-macro table as it is, makes the active table hold exactly the
entries of the hard-macro table, and empties the include stack, the branch stack and the
output. -/
theorem reset_rebuilds_active_table (st : CppPreprocessor) :
    (reset st).mHardDefines = st.mHardDefines ∧
    (∀ name, getDefine (reset st).mDefines name = hashValue st.mHardDefines name) ∧
    (reset st).mIncludes = [] ∧ (reset st).mBranchResults = [] ∧ (reset st).mResult = [] :=
  ⟨rfl, getDefine_reset st, rfl, rfl, rfl⟩

/-- The loop of `invalidDefinesInFile` only removes entries: a lookup afterwards gives what
it gave before, or nothing. -/
theorem invalidDefinesLoop_lookup (l : List (QString × Define)) (m : DefineMap) (k : QString) :
    hashValue (invalidDefinesLoop l m) k = hashValue m k ∨
      hashValue (invalidDefinesLoop l m) k = none := by
  induction l generalizing m with
  | nil => exact Or.inl rfl
  | cons e rest ih =>
    simp only [invalidDefinesLoop]
    split_ifs with h
    · rcases ih (hashRemove m e.2.name) with h1 | h1
      · rw [h1, hashValue_hashRemove]
        split_ifs
        · exact Or.inr rfl
        · exact Or.inl rfl
      · exact Or.inr h1
    · exact ih m

/-- After the loop of `invalidDefinesInFile` no macro of the list is the active entry of its
name. -/
theorem invalidDefinesLoop_removed (l : List (QString × Define)) (m : DefineMap)
    (e : QString × Define) (he : e ∈ l) :
    hashValue (invalidDefinesLoop l m) e.2.name ≠ some e.2 := by
  induction l generalizing m with
  | nil => cases he
  | cons a rest ih =>
    simp only [invalidDefinesLoop]
    rcases List.mem_cons.mp he with rfl | hmem
    · split_ifs with h
      · rcases invalidDefinesLoop_lookup rest (hashRemove m e.2.name) e.2.name with h1 | h1
        · rw [h1, hashValue_hashRemove]; simp
        · rw [h1]; simp
      · rcases invalidDefinesLoop_lookup rest m e.2.name with h1 | h1
        · rw [h1]; exact h
        · rw [h1]; simp
    · split_ifs
      · exact ih _ hmem
      · exact ih _ hmem

/-- The loop of `invalidDefinesInFile` keeps every active entry whose macro is not in the
list. -/
theorem invalidDefinesLoop_kept (l : List (QString × Define)) (m : DefineMap) (k : QString)
    (d : Define) (hd : hashValue m k = some d) (hl : ∀ e ∈ l, e.2 ≠ d) :
    hashValue (invalidDefinesLoop l m) k = some d := by
  induction l generalizing m with
  | nil => exact hd
  | cons a rest ih =>
    simp only [invalidDefinesLoop]
    have hrest : ∀ e ∈ rest, e.2 ≠ d := fun e he => hl e (List.mem_cons_of_mem _ he)
    split_ifs with h
    · apply ih _ _ hrest
      rw [hashValue_hashRemove]
      have hne : a.2.name ≠ k := by
        intro hk
        rw [hk, hd] at h
        exact hl a (List.mem_cons_self _ _) (Option.some.inj h).symm
      simp [hne, hd]
    · exact ih _ hd hrest

/-- C16: after `invalidDefinesInFile(f)` the file `f` has no bucket, no macro of the bucket it
had is the active entry of its name, the hard-macro table and the buckets of the other files
are unchanged, and every active entry whose macro was not in the bucket of `f` is unchanged:
so, the bucket of `f` holding soft macros of `f`, are the hard macros and the macros defined by
other files. -/
theorem invalidDefinesInFile_spec (st : CppPreprocessor) (f : QString) :
    hashValue (invalidDefinesInFile st f).mFileDefines f = none ∧
    (∀ bucket, hashValue st.mFileDefines f = some bucket →
      ∀ e ∈ bucket, getDefine (invalidDefinesInFile st f).mDefines e.2.name ≠ some e.2) ∧
    (invalidDefinesInFile st f).mHardDefines = st.mHardDefines ∧
    (∀ g, g ≠ f →
      hashValue (invalidDefinesInFile st f).mFileDefines g = hashValue st.mFileDefines g) ∧
    (∀ name d, getDefine st.mDefines name = some d →
      (∀ bucket, hashValue st.mFileDefines f = some bucket → ∀ e ∈ bucket, e.2 ≠ d) →
      getDefine (invalidDefinesInFile st f).mDefines name = some d) ∧
    (∀ name d, getDefine st.mDefines name = some d →
      (∀ bucket, hashValue st.mFileDefines f = some bucket →
        ∀ e ∈ bucket, e.2.filename = f ∧ e.2.hardCoded = false) →
      d.hardCoded = true ∨ d.filename ≠ f →
      getDefine (invalidDefinesInFile st f).mDefines name = some d) := by
  have kept : ∀ name d, getDefine st.mDefines name = some d →
      (∀ bucket, hashValue st.mFileDefines f = some bucket → ∀ e ∈ bucket, e.2 ≠ d) →
      getDefine (invalidDefinesInFile st f).mDefines name = some d := by
    intro name d hd hb
    unfold invalidDefinesInFile
    cases hf : hashValue st.mFileDefines f with
    | none => exact hd
    | some bucket => exact invalidDefinesLoop_kept bucket st.mDefines name d hd (hb bucket hf)
  refine ⟨?_, ?_, ?_, ?_, kept, ?_⟩
  · unfold invalidDefinesInFile
    cases hf : hashValue st.mFileDefines f with
    | none => exact hf
    | some bucket => simp [hashValue_hashRemove]
  · intro bucket hb e he
    unfold invalidDefinesInFile
    rw [hb]
    exact invalidDefinesLoop_removed bucket st.mDefines e he
  · unfold invalidDefinesInFile
    cases hashValue st.mFileDefines f <;> rfl
  · intro g hg
    unfold invalidDefinesInFile
    cases hf : hashValue st.mFileDefines f with
    | none => rfl
    | some bucket => simp [hashValue_hashRemove, Ne.symm hg]
  · intro name d hd hwf hother
    apply kept name d hd
    intro bucket hb e he heq
    obtain ⟨h1, h2⟩ := hwf bucket hb e he
    rw [heq] at h1 h2
    rcases hother with h | h
    · rw [h] at h2; cases h2
    · exact h h1

theorem MergeKeeps.refl (st : CppPreprocessor) : MergeKeeps st st :=
  ⟨rfl, rfl, rfl, rfl, fun _ h => h⟩

theorem MergeKeeps.trans {a b c : CppPreprocessor} (h1 : MergeKeeps a b) (h2 : MergeKeeps b c) :
    MergeKeeps a c :=
  ⟨h2.1.trans h1.1, h2.2.1.trans h1.2.1, h2.2.2.1.trans h1.2.2.1, h2.2.2.2.1.trans h1.2.2.2.1,
    fun k h => h2.2.2.2.2 k (h1.2.2.2.2 k h)⟩

theorem forEachFile_keeps (f : CppPreprocessor → QString → Run CppPreprocessor)
    (hf : ∀ s n s2, f s n = .ok s2 → MergeKeeps s s2) (names : List QString) :
    ∀ st st2, forEachFile f st names = .ok st2 → MergeKeeps st st2 := by
  induction names with
  | nil =>
    intro st st2 h
    simp only [forEachFile] at h
    cases h
    exact MergeKeeps.refl st
  | cons n rest ih =>
    intro st st2 h
    simp only [forEachFile] at h
    cases hn : f st n with
    | fault e => rw [hn] at h; cases h
    | ok s =>
      rw [hn] at h
      exact (hf st n s hn).trans (ih s st2 h)

/-- Inserting the macros of a bucket removes no key of the active table. -/
theorem foldr_insert_isSome (bucket : List (QString × Define)) (m : DefineMap) (k : QString)
    (h : (hashValue m k).isSome = true) :
    (hashValue (bucket.foldr (fun e acc => hashInsert acc e.2.name e.2) m) k).isSome = true := by
  induction bucket with
  | nil => exact h
  | cons e rest ih =>
    simp only [List.foldr_cons]
    rw [hashValue_hashInsert]
    split_ifs
    · rfl
    · exact ih

theorem addDefinesInFile_keeps (fuel : Nat) :
    ∀ st fileName st2, addDefinesInFile fuel st fileName = .ok st2 → MergeKeeps st st2 := by
  induction fuel with
  | zero =>
    intro st fileName st2 h
    simp only [addDefinesInFile] at h
    cases h
  | succ n ih =>
    intro st fileName st2 h
    simp only [addDefinesInFile] at h
    split_ifs at h with hp
    · cases h; exact MergeKeeps.refl st
    · split at h
      · cases h
      · rename_i scanned hsc
        split_ifs at h with hs
        · split at h
          · cases h
          · rename_i fileIncludes hentry
            split at h
            · cases h
            · rename_i st3 hloop
              have k1 : MergeKeeps { st with mProcessed := fileName :: st.mProcessed } st3 :=
                forEachFile_keeps _ ih _ _ _ hloop
              have k0 : MergeKeeps st { st with mProcessed := fileName :: st.mProcessed } :=
                ⟨rfl, rfl, rfl, rfl, fun _ h => h⟩
              split at h
              · cases h; exact k0.trans k1
              · cases h
                refine k0.trans (k1.trans ⟨rfl, rfl, rfl, rfl, ?_⟩)
                intro k hk
                exact foldr_insert_isSome _ _ _ hk
        · cases h
          exact ⟨rfl, rfl, rfl, rfl, fun _ h => h⟩

/-- Merging a bucket whose macros are stored under their names makes each of them the active
entry of its name. -/
theorem foldr_insert_lookup (bucket : List (QString × Define)) (m : DefineMap) (k : QString)
    (d : Define) (hwf : ∀ e ∈ bucket, e.2.name = e.1) (hd : hashValue bucket k = some d) :
    hashValue (bucket.foldr (fun e acc => hashInsert acc e.2.name e.2) m) k = some d := by
  induction bucket with
  | nil => cases hd
  | cons e rest ih =>
    simp only [List.foldr_cons]
    rw [hashValue_hashInsert]
    have he : e.2.name = e.1 := hwf e (List.mem_cons_self _ _)
    by_cases hk : e.1 = k
    · rw [if_pos (he.trans hk)]
      simp only [hashValue, List.find?_cons] at hd
      have : (e.1 == k) = true := by simpa using hk
      rw [this] at hd
      exact hd
    · rw [if_neg (by rw [he]; exact hk)]
      apply ih (fun x hx => hwf x (List.mem_cons_of_mem _ hx))
      simp only [hashValue, List.find?_cons] at hd ⊢
      have : (e.1 == k) = false := by simpa using hk
      rw [this] at hd
      exact hd

/-- The merge of a scanned, not yet processed file makes the macros of its bucket active. -/
theorem addDefinesInFile_own (fuel : Nat) (st st2 : CppPreprocessor) (A : QString)
    (bucket : List (QString × Define)) (name : QString) (d : Define)
    (hb : hashValue st.mFileDefines A = some bucket) (hwf : ∀ e ∈ bucket, e.2.name = e.1)
    (hd : hashValue bucket name = some d) (hp : A ∉ st.mProcessed)
    (hs : ∃ scanned, st.mScannedFiles = some scanned ∧ A ∈ scanned)
    (h : addDefinesInFile fuel st A = .ok st2) :
    getDefine st2.mDefines name = some d := by
  obtain ⟨scanned, hsc, hin⟩ := hs
  cases fuel with
  | zero => simp only [addDefinesInFile] at h; cases h
  | succ n =>
    simp only [addDefinesInFile, if_neg hp, hsc] at h
    simp only [hin, not_true_eq_false, if_false] at h
    split at h
    · cases h
    · split at h
      · cases h
      · rename_i st3 hloop
        have k1 := forEachFile_keeps _ (addDefinesInFile_keeps n) _ _ _ hloop
        have hb3 : hashValue st3.mFileDefines A = some bucket := by rw [k1.1]; exact hb
        rw [hb3] at h
        cases h
        exact foldr_insert_lookup bucket st3.mDefines name d hwf hd

/-- Witness of C16: in `twoFileState`, invalidating `main.c` removes its bucket and its macro
`FOO` from the active table and keeps the macro `BAR` of `b.h`. -/
theorem invalidDefinesInFile_spec_witness :
    hashValue (invalidDefinesInFile twoFileState "main.c".toList).mFileDefines "main.c".toList =
      none ∧
    getDefine (invalidDefinesInFile twoFileState "main.c".toList).mDefines "FOO".toList = none ∧
    getDefine (invalidDefinesInFile twoFileState "main.c".toList).mDefines "BAR".toList =
      some barDefine :=
  ⟨(invalidDefinesInFile_spec twoFileState "main.c".toList).1,
   by rfl,
   (invalidDefinesInFile_spec twoFileState "main.c".toList).2.2.2.2.1 "BAR".toList barDefine
     (by rfl) (fun bucket hb e he => by cases hb; revert e; decide)⟩

/-- A soft define adds a key to the active table and leaves the hard-macro table alone. -/
theorem addDefineByParts_soft_keeps (u : Indeterminate) (st st2 : CppPreprocessor)
    (name args value : QString) (h : addDefineByParts u st name args value false = .ok st2) :
    st2.mHardDefines = st.mHardDefines ∧
    ∀ k, (getDefine st.mDefines k).isSome = true → (getDefine st2.mDefines k).isSome = true := by
  unfold addDefineByParts at h
  simp only at h
  split at h
  · cases h
  · simp only [Bool.false_eq_true, if_false] at h
    cases h
    refine ⟨rfl, ?_⟩
    intro k hk
    simp only [getDefine, hashValue_hashInsert]
    split_ifs
    · rfl
    · exact hk

/-- A hard-coded define changes the hard-macro table only, under the name it is given. -/
theorem addDefineByParts_hard (u : Indeterminate) (st st2 : CppPreprocessor)
    (name args value : QString) (h : addDefineByParts u st name args value true = .ok st2) :
    st2.mDefines = st.mDefines ∧ (hashValue st2.mHardDefines name).isSome = true := by
  unfold addDefineByParts at h
  simp only at h
  split at h
  · cases h
  · simp only [if_true] at h
    cases h
    refine ⟨rfl, ?_⟩
    simp only [hashValue_hashInsert, if_true, Option.isSome_some]

/-- The hard macros stay active under the table operations. -/
theorem runTableOps_keeps_hard (fuel : Nat) (u : Indeterminate) (ops : List TableOp) :
    ∀ st st2, runTableOps fuel u st ops = .ok st2 →
      (∀ name, (hashValue st.mHardDefines name).isSome = true →
        (getDefine st.mDefines name).isSome = true) →
      ∀ name, (hashValue st2.mHardDefines name).isSome = true →
        (getDefine st2.mDefines name).isSome = true := by
  induction ops with
  | nil =>
    intro st st2 h hinv
    simp only [runTableOps] at h
    cases h
    exact hinv
  | cons op rest ih =>
    intro st st2 h hinv
    simp only [runTableOps] at h
    split at h
    · cases h
    · rename_i s hs
      apply ih s st2 h
      intro name hn
      cases op with
      | define n a v =>
        simp only at hs
        obtain ⟨h1, h2⟩ := addDefineByParts_soft_keeps u st s n a v hs
        rw [h1] at hn
        exact h2 name (hinv name hn)
      | merge f =>
        simp only at hs
        have k := addDefinesInFile_keeps fuel st f s hs
        rw [k.2.1] at hn
        exact k.2.2.2.2 name (hinv name hn)
      | reset =>
        simp only at hs
        cases hs
        rw [getDefine_reset st name]
        exact hn

/-- C14 (as amended): from the state that `reset` produces, soft defines, merges of scanned
files and further resets keep every name of the hard-macro table a key of the active table;
and a hard-coded define changes the hard-macro table only: the active table is as before, and
the macro is found in it after the next `reset`. -/
theorem hard_macros_active_after_reset (fuel : Nat) (u : Indeterminate) (st : CppPreprocessor) :
    (∀ ops st2, runTableOps fuel u (reset st) ops = .ok st2 →
      ∀ name, (hashValue st2.mHardDefines name).isSome = true →
        (getDefine st2.mDefines name).isSome = true) ∧
    (∀ name args value st2, addDefineByParts u st name args value true = .ok st2 →
      st2.mDefines = st.mDefines ∧ (getDefine (reset st2).mDefines name).isSome = true) := by
  refine ⟨?_, ?_⟩
  · intro ops st2 h
    apply runTableOps_keeps_hard fuel u ops (reset st) st2 h
    intro name hn
    rw [getDefine_reset st name]
    exact hn
  · intro name args value st2 h
    obtain ⟨h1, h2⟩ := addDefineByParts_hard u st st2 name args value h
    exact ⟨h1, by rw [getDefine_reset]; exact h2⟩

/-- Witness of C14: from `reset` of `hardScannedState`, a soft define of `X` and the merge of
the file `b.h` leave `X` a key of the active table. -/
theorem hard_macros_active_after_reset_witness :
    runTableOps 3 ⟨0, 0, ' '⟩ (reset hardScannedState)
        [.define "X".toList [] "2".toList, .merge "b.h".toList] = .ok softOverrideState ∧
    (getDefine softOverrideState.mDefines "X".toList).isSome = true :=
  ⟨by rfl,
   (hard_macros_active_after_reset 3 ⟨0, 0, ' '⟩ hardScannedState).1
     [.define "X".toList [] "2".toList, .merge "b.h".toList] softOverrideState (by rfl)
     "X".toList (by rfl)⟩

/-- Counterexample to C14 as stated: right after `clear()` and the hard-coded define of `X`,
`X` is in the hard-macro table and not in the active table; once `reset` has made it active,
`undef X` removes it from the active table while it stays in the hard-macro table; and
when a soft macro `X` overrides it, `invalidDefinesInFile` of the soft macro's file removes
`X` from the active table and does not bring the hard macro back. -/
theorem hard_define_not_active :
    addDefineByParts ⟨0, 0, ' '⟩ (clear {}) "X".toList [] "1".toList true = .ok hardOnlyState ∧
    (hashValue hardOnlyState.mHardDefines "X".toList).isSome = true ∧
    getDefine hardOnlyState.mDefines "X".toList = none ∧
    getDefine (reset hardOnlyState).mDefines "X".toList = some hardX ∧
    getDefine (handleUndefine (reset hardOnlyState) "undef X".toList).mDefines "X".toList =
      none ∧
    (hashValue (handleUndefine (reset hardOnlyState) "undef X".toList).mHardDefines
      "X".toList).isSome = true ∧
    getDefine softOverrideState.mDefines "X".toList = some softX ∧
    getDefine (invalidDefinesInFile softOverrideState []).mDefines "X".toList = none ∧
    (hashValue (invalidDefinesInFile softOverrideState []).mHardDefines "X".toList).isSome =
      true :=
  ⟨by rfl, by rfl, by rfl, by rfl, by rfl, by rfl, by rfl, by rfl, by rfl⟩

/-! ## Output assembly: theorems -/

theorem StripHead_nil : StripHead [] := by
  intro c h; cases h

theorem StripHead_append (s t : QString) (hs : StripHead s) (ht : StripHead t) :
    StripHead (s ++ t) := by
  intro c h
  cases s with
  | nil => exact ht c h
  | cons a s => exact hs c h

theorem StripHead_one (c : Char) (h : qIsSpace c = false ∧ c ≠ '#') (rest : QString) :
    StripHead (c :: rest) := by
  intro d hd
  cases hd
  exact h

/-- Whatever `removeComments` collects for a line starts with one of the characters it
copies: a quote, `R`, `(`, `/` or a backslash. -/
theorem removeCommentsLoop_head (line : QString) (n : Nat) :
    ∀ st : StripScan, StripHead st.s → StripHead (removeCommentsLoop line n st).s := by
  induction n with
  | zero => intro st h; exact h
  | succ n ih =>
    intro st h
    simp only [removeCommentsLoop]
    split
    · exact h
    · rename_i ch hch
      have h34 : StripHead [Char.ofNat 34] := StripHead_one _ (by decide) _
      have h39 : StripHead [Char.ofNat 39] := StripHead_one _ (by decide) _
      have hR : StripHead ['R'] := StripHead_one _ (by decide) _
      have hP : StripHead ['('] := StripHead_one _ (by decide) _
      repeat' split
      all_goals first
        | exact h
        | (apply ih; exact h)
        | (apply ih; subst_vars; exact StripHead_append _ _ h h34)
        | (apply ih; subst_vars; exact StripHead_append _ _ h h39)
        | (apply ih; subst_vars; exact StripHead_append _ _ h hR)
        | (apply ih; subst_vars; exact StripHead_append _ _ h hP)
        | (apply ih
           rename_i hsl _ _ _ _
           rcases hsl with hsl | hsl <;> subst hsl <;>
             exact StripHead_append _ _ h (StripHead_one _ (by decide) _))
        | (apply ih
           rename_i hsl _ _ _
           rcases hsl with hsl | hsl <;> subst hsl <;>
             exact StripHead_append _ _ h (StripHead_one _ (by decide) _))


theorem dropWhile_append_last (p : Char → Bool) (c : Char) (hc : p c = false) :
    ∀ l : QString, (l ++ [c]).dropWhile p = l.dropWhile p ++ [c] := by
  intro l
  induction l with
  | nil => simp [List.dropWhile, hc]
  | cons a l ih =>
    by_cases ha : p a = true
    · simp [List.dropWhile, ha, ih]
    · simp [List.dropWhile, ha]

theorem trimmed_head (s : QString) (h : StripHead s) : StripHead (trimmed s) := by
  cases s with
  | nil => intro c hc; simp [trimmed] at hc
  | cons a t =>
    have ha := h a rfl
    have h1 : (a :: t).dropWhile qIsSpace = a :: t := by simp [List.dropWhile, ha.1]
    have h2 : trimmed (a :: t) = a :: (t.reverse.dropWhile qIsSpace).reverse := by
      simp only [trimmed, h1, List.reverse_cons, dropWhile_append_last qIsSpace a ha.1,
        List.reverse_append, List.reverse_singleton, List.singleton_append, List.reverse_nil,
        List.nil_append]
    rw [h2]
    exact StripHead_one a ha _

/-- No line that `removeComments` returns starts with `#`. -/
theorem removeCommentsLines_head :
    ∀ (text : List QString) (ty : ContentType) (delim : QString),
      ∀ l ∈ removeCommentsLines text ty delim, l.head? ≠ some '#' := by
  intro text
  induction text with
  | nil => intro ty delim l hl; simp [removeCommentsLines] at hl
  | cons a rest ih =>
    intro ty delim l hl
    simp only [removeCommentsLines, List.mem_cons] at hl
    rcases hl with hl | hl
    · subst hl
      intro hx
      exact (trimmed_head _ (removeCommentsLoop_head a a.length _ StripHead_nil) '#' hx).2 rfl
    · exact ih _ _ l hl

/-- Function `removeComments` returns one line per line of its argument. -/
theorem removeCommentsLines_length :
    ∀ (text : List QString) (ty : ContentType) (delim : QString),
      (removeCommentsLines text ty delim).length = text.length := by
  intro text
  induction text with
  | nil => intro ty delim; rfl
  | cons a rest ih => intro ty delim; simp [removeCommentsLines, ih]

/-- On lines none of which starts with `#`, `skipToPreprocessor` goes to the end and appends
one entry per line. -/
theorem skipToPreprocessorLoop_all (maxDepth : Nat) (mDefines : DefineMap) (active : Bool) :
    ∀ (ls : List QString) (mIndex : Nat) (mResult : List QString),
      (∀ l ∈ ls, l.head? ≠ some '#') →
      (skipToPreprocessorLoop maxDepth mDefines active ls mIndex mResult).1
          = mIndex + ls.length ∧
        (skipToPreprocessorLoop maxDepth mDefines active ls mIndex mResult).2.length
          = mResult.length + ls.length ∧
        (mResult ≠ [] →
          (skipToPreprocessorLoop maxDepth mDefines active ls mIndex mResult).2.head?
            = mResult.head?) := by
  intro ls
  induction ls with
  | nil => intro mIndex mResult _; simp [skipToPreprocessorLoop]
  | cons a rest ih =>
    intro mIndex mResult h
    have ha : a.head? ≠ some '#' := h a (List.mem_cons_self _ _)
    have hr := ih (mIndex + 1)
      (mResult ++ [if active then expandMacros maxDepth mDefines a 1 else []])
      (fun l hl => h l (List.mem_cons_of_mem _ hl))
    simp only [skipToPreprocessorLoop, ha, if_false]
    refine ⟨?_, ?_, ?_⟩
    · rw [hr.1]; simp; omega
    · rw [hr.2.1]; simp; omega
    · intro hne
      rw [hr.2.2 (by simp)]
      cases mResult with
      | nil => exact absurd rfl hne
      | cons x xs => rfl

/-- When no line from the current one on starts with `#`, `getNextPreprocessor` returns the
empty text after `skipToPreprocessor`. -/
theorem getNextPreprocessor_no_directive (maxDepth : Nat) (st : CppPreprocessor)
    (h : ∀ l ∈ st.mBuffer.drop st.mIndex, l.head? ≠ some '#') :
    getNextPreprocessor maxDepth st = .ok ([], skipToPreprocessor maxDepth st) := by
  have hs := (skipToPreprocessorLoop_all maxDepth st.mDefines (getCurrentBranch st)
    (st.mBuffer.drop st.mIndex) st.mIndex st.mResult h).1
  have hge : (skipToPreprocessor maxDepth st).mIndex ≥
      (skipToPreprocessor maxDepth st).mBuffer.length := by
    simp only [skipToPreprocessor, hs, List.length_drop]
    omega
  simp only [getNextPreprocessor, hge, if_true]

theorem preprocessFile_no_directive (maxDepth : Nat) (u : Indeterminate) (step : Int)
    (host : Host) (fuel : Nat) (st : CppPreprocessor)
    (h : ∀ l ∈ st.mBuffer.drop st.mIndex, l.head? ≠ some '#') :
    preprocessFile maxDepth u step host (fuel + 1) st = .ok (skipToPreprocessor maxDepth st) := by
  simp [preprocessFile, getNextPreprocessor_no_directive maxDepth st h]

theorem preprocessBuffer_no_directive (maxDepth : Nat) (u : Indeterminate) (step : Int)
    (host : Host) (fuel : Nat) (st : CppPreprocessor) (pf : ParsedFile)
    (hi : st.mIncludes = [pf])
    (h : ∀ l ∈ st.mBuffer.drop st.mIndex, l.head? ≠ some '#') :
    preprocessBuffer maxDepth u step host (fuel + 2) st =
      .ok { skipToPreprocessor maxDepth st with mIncludes := [] } := by
  have h1 : (skipToPreprocessor maxDepth st).mIncludes = [pf] := by
    simp [skipToPreprocessor, hi]
  have h2 : closeInclude (skipToPreprocessor maxDepth st) =
      { skipToPreprocessor maxDepth st with mIncludes := [] } := by
    simp [closeInclude, h1]
  simp only [preprocessBuffer, hi, List.length_singleton, gt_iff_lt, Nat.lt_one_iff,
    Nat.zero_lt_one, if_true, preprocessFile_no_directive maxDepth u step host fuel st h, h2]
  simp

/-- The first call of `openInclude` in a pass, for a file that comes with a buffer or has not
been scanned: the file is the only one on the stack, its stripped lines are the buffer, and
the output so far is the marker of the root file. -/
theorem openInclude_root (fuel : Nat) (host : Host) (st : CppPreprocessor)
    (fileName : QString) (buffer : List QString) (list : List (QString × FileIncludes))
    (scanned : List QString) (hl : st.mIncludesList = some list)
    (hs : st.mScannedFiles = some scanned) (hfresh : buffer ≠ [] ∨ fileName ∉ scanned) :
    ∃ st1, openInclude fuel host (reset { st with mFileName := fileName }) fileName buffer
        = .ok st1 ∧
      st1.mIncludes.length = 1 ∧ st1.mIndex = 0 ∧
      st1.mBuffer = removeComments (loadedLines host st fileName buffer) ∧
      st1.mResult = ["#include ".toList ++ fileName ++ ":1".toList] := by
  simp only [openInclude, openIncludeRecord, reset, resetDefines, hl, hs, List.head?,
    List.getLast?, hfresh, if_true, loadedLines]
  split_ifs <;> simp_all

/-- C17 (counterexample): `preprocess` of `main.c` with the one-line buffer `(`, no include
directive: the output has two entries, the marker `#include main.c:1` and the line.  And on
the return from an included file `closeInclude` appends a marker: in `headerOpenState`, with
`a.h` open above `main.c`, the output gets the entry `#include main.c:1`, which stands for no
line. -/
theorem preprocess_one_line_two_entries :
    preprocess 2 20 ⟨0, 0, ' '⟩ 1 emptyHost freshState "main.c".toList ["(".toList]
      = .ok oneLineDone ∧
    oneLineDone.mResult = ["#include main.c:1".toList, "(".toList] ∧
    oneLineDone.mResult.length ≠ ["(".toList].length ∧
    headerOpenState.mResult = ["#include a.h:1".toList] ∧
    (closeInclude headerOpenState).mResult =
      ["#include a.h:1".toList, "#include main.c:1".toList] := by
  refine ⟨by rfl, rfl, by decide, by rfl, by rfl⟩

/-! ## Termination of the merge: theorems -/

theorem hashValue_mem {β : Type} (m : List (QString × β)) (k : QString) (v : β)
    (h : hashValue m k = some v) : ∃ e ∈ m, e.2 = v := by
  unfold hashValue at h
  cases hf : m.find? (fun e => e.1 == k) with
  | none => rw [hf] at h; cases h
  | some e =>
    rw [hf] at h
    simp only [Option.map_some', Option.some.injEq] at h
    exact ⟨e, List.mem_of_find?_eq_some hf, h⟩

theorem includeNames_mem (list : List (QString × FileIncludes)) (e : QString × FileIncludes)
    (he : e ∈ list) (k : QString) (hk : k ∈ e.2.includeFiles.map Prod.fst) :
    k ∈ includeNames list := by
  induction list with
  | nil => cases he
  | cons a rest ih =>
    simp only [includeNames, List.mem_append]
    rcases List.mem_cons.mp he with h | h
    · subst h; exact Or.inl hk
    · exact Or.inr (ih h)

theorem pendingFiles_mono (names p q : List QString) (h : ∀ x, x ∈ p → x ∈ q) :
    pendingFiles names q ≤ pendingFiles names p := by
  induction names with
  | nil => simp [pendingFiles]
  | cons a rest ih =>
    simp only [pendingFiles] at ih ⊢
    by_cases hq : a ∈ q
    · by_cases hp : a ∈ p
      · simp [List.filter_cons, hq, hp]; simpa using ih
      · simp [List.filter_cons, hq, hp]; have := ih; simp at this; omega
    · have hp : a ∉ p := fun hp => hq (h a hp)
      simp [List.filter_cons, hq, hp]; simpa using ih

theorem pendingFiles_lt (names p : List QString) (n : QString) (hn : n ∈ names)
    (hp : n ∉ p) : pendingFiles names (n :: p) < pendingFiles names p := by
  induction names with
  | nil => cases hn
  | cons a rest ih =>
    have hm := pendingFiles_mono rest p (n :: p) (fun x hx => List.mem_cons_of_mem _ hx)
    simp only [pendingFiles] at ih hm ⊢
    by_cases ha : a = n
    · subst ha
      simp [List.filter_cons, hp]
      simp at hm
      omega
    · have hn2 : n ∈ rest := by
        rcases List.mem_cons.mp hn with h | h
        · exact absurd h.symm ha
        · exact h
      have := ih hn2
      by_cases hap : a ∈ p
      · simp [List.filter_cons, hap]; simpa using this
      · simp [List.filter_cons, hap, ha]; simp at this; omega

theorem forEachFile_returns (f : CppPreprocessor → QString → Run CppPreprocessor)
    (list : List (QString × FileIncludes)) (scanned : List QString) (n : Nat)
    (names : List QString)
    (hf : ∀ st name, name ∈ names →
      pendingFiles names st.mProcessed < n →
      st.mIncludesList = some list → st.mScannedFiles = some scanned →
      ∃ st2, f st name = .ok st2 ∧ st2.mIncludesList = some list ∧
        st2.mScannedFiles = some scanned ∧ ∀ x, x ∈ st.mProcessed → x ∈ st2.mProcessed) :
    ∀ (keys : List QString) (st : CppPreprocessor), (∀ k ∈ keys, k ∈ names) →
      pendingFiles names st.mProcessed < n →
      st.mIncludesList = some list → st.mScannedFiles = some scanned →
      ∃ st2, forEachFile f st keys = .ok st2 ∧ st2.mIncludesList = some list ∧
        st2.mScannedFiles = some scanned ∧ ∀ x, x ∈ st.mProcessed → x ∈ st2.mProcessed := by
  intro keys
  induction keys with
  | nil => intro st _ _ hl hs; exact ⟨st, rfl, hl, hs, fun _ h => h⟩
  | cons k rest ih =>
    intro st hk hp hl hs
    obtain ⟨s1, h1, hl1, hs1, hg1⟩ := hf st k (hk k (List.mem_cons_self _ _)) hp hl hs
    have hp1 : pendingFiles names s1.mProcessed < n :=
      Nat.lt_of_le_of_lt (pendingFiles_mono _ _ _ hg1) hp
    obtain ⟨s2, h2, hl2, hs2, hg2⟩ :=
      ih s1 (fun x hx => hk x (List.mem_cons_of_mem _ hx)) hp1 hl1 hs1
    refine ⟨s2, ?_, hl2, hs2, fun x hx => hg2 x (hg1 x hx)⟩
    simp only [forEachFile, h1, h2]

/-- With the registry and the scanned set in place, `addDefinesInFile` returns for every file
of a list `names` that holds all files the records of the registry list, cyclic includes or
not, once the fuel exceeds the number of files of `names` not yet merged in this pass. -/
theorem addDefinesInFile_returns (list : List (QString × FileIncludes))
    (scanned : List QString) (names : List QString)
    (hnames : ∀ k ∈ includeNames list, k ∈ names) :
    ∀ (fuel : Nat) (st : CppPreprocessor) (name : QString), name ∈ names →
      pendingFiles names st.mProcessed < fuel →
      st.mIncludesList = some list → st.mScannedFiles = some scanned →
      ∃ st2, addDefinesInFile fuel st name = .ok st2 ∧ st2.mIncludesList = some list ∧
        st2.mScannedFiles = some scanned ∧ ∀ x, x ∈ st.mProcessed → x ∈ st2.mProcessed := by
  intro fuel
  induction fuel with
  | zero => intro st name _ hp; exact absurd hp (Nat.not_lt_zero _)
  | succ n ih =>
    intro st name hname hp hl hs
    obtain ⟨mDefines, mHardDefines, mFileDefines, mFileName, mBranchResults, mResult,
      mPreProcIndex, mIncludes, mIndex, mBuffer, mCurrentIncludes, mIncludesList, mScannedFiles,
      mProcessed, mParseSystem, mParseLocal, mIncludePaths, mProjectIncludePaths⟩ := st
    simp only at hl hs hp
    subst hl
    subst hs
    by_cases hproc : name ∈ mProcessed
    · exact ⟨_, by simp only [addDefinesInFile, hproc, if_true], rfl, rfl, fun _ h => h⟩
    · by_cases hin : name ∈ scanned
      · have hp1 : pendingFiles names (name :: mProcessed) < n := by
          have := pendingFiles_lt names mProcessed name hname hproc
          omega
        have hkeys : ∀ k ∈ (match hashValue list name with
              | some fi => fi.includeFiles.map Prod.fst
              | none => []), k ∈ names := by
          intro k hk
          cases hv : hashValue list name with
          | none => rw [hv] at hk; cases hk
          | some fi =>
            rw [hv] at hk
            obtain ⟨e, he, hfi⟩ := hashValue_mem list name fi hv
            exact hnames k (includeNames_mem list e he k (by rw [hfi]; exact hk))
        obtain ⟨s2, h2, hl2, hs2, hg2⟩ :=
          forEachFile_returns (addDefinesInFile n) list scanned n names ih _
            ⟨mDefines, mHardDefines, mFileDefines, mFileName, mBranchResults, mResult,
              mPreProcIndex, mIncludes, mIndex, mBuffer, mCurrentIncludes, some list,
              some scanned, name :: mProcessed, mParseSystem, mParseLocal, mIncludePaths,
              mProjectIncludePaths⟩ hkeys hp1 rfl rfl
        cases hb : hashValue s2.mFileDefines name with
        | none =>
          refine ⟨s2, ?_, hl2, hs2, fun x hx => hg2 x (List.mem_cons_of_mem _ hx)⟩
          simp only [addDefinesInFile, hproc, if_false, hin, not_true_eq_false,
            getFileIncludesEntry, h2, hb]
        | some defineList =>
          refine ⟨{ s2 with
            mDefines := defineList.foldr (fun e acc => hashInsert acc e.2.name e.2)
              s2.mDefines }, ?_, hl2, hs2, fun x hx => hg2 x (List.mem_cons_of_mem _ hx)⟩
          simp only [addDefinesInFile, hproc, if_false, hin, not_true_eq_false,
            getFileIncludesEntry, h2, hb]
      · exact ⟨⟨mDefines, mHardDefines, mFileDefines, mFileName, mBranchResults, mResult,
            mPreProcIndex, mIncludes, mIndex, mBuffer, mCurrentIncludes, some list,
            some scanned, name :: mProcessed, mParseSystem, mParseLocal, mIncludePaths,
            mProjectIncludePaths⟩,
          by simp only [addDefinesInFile, hproc, if_false, hin, not_false_eq_true, if_true],
          rfl, rfl, fun x hx => List.mem_cons_of_mem _ hx⟩

theorem pendingFiles_le (names p : List QString) : pendingFiles names p ≤ names.length := by
  unfold pendingFiles
  exact List.length_filter_le _ _

/-- With the registry and the scanned set in place, `addDefinesInFile` returns for every file
when the fuel is two more than the number of include entries of the registry. -/
theorem addDefinesInFile_total (list : List (QString × FileIncludes)) (scanned : List QString)
    (fuel : Nat) (st : CppPreprocessor) (name : QString)
    (hl : st.mIncludesList = some list) (hs : st.mScannedFiles = some scanned) :
    ∃ st2, addDefinesInFile (fuel + (includeNames list).length + 2) st name = .ok st2 := by
  obtain ⟨st2, h, _⟩ := addDefinesInFile_returns list scanned (name :: includeNames list)
    (fun k hk => List.mem_cons_of_mem _ hk) (fuel + (includeNames list).length + 2) st name
    (List.mem_cons_self _ _)
    (by have := pendingFiles_le (name :: includeNames list) st.mProcessed
        simp only [List.length_cons] at this
        omega) hl hs
  exact ⟨st2, h⟩

/-! ## Scope of undef: theorems -/

/-- C13 (amended): handling `undef NAME` removes `NAME` from the active table and nothing
else from it; it leaves the bucket of every file other than the current one unchanged, changes
no bucket at all when the macro's defining file is not the current file, and removes `NAME`
from the current file's bucket when it is.  So a macro defined in a file `A` other than the
current one is still in the bucket of `A`; merging `A` again makes it the active macro of its
name when `A` is scanned and not yet in the processed set of the pass (`addDefinesInFile`
returns, given fuel two more than the number of include entries of the registry); when `A` is
in the processed set the merge changes nothing, and when `A` is not scanned the merge only
enters `A` in the processed set: in both cases `NAME` stays undefined. -/
theorem handleUndefine_scoped (st : CppPreprocessor) (line : QString) :
    getDefine (handleUndefine st line).mDefines (trimmed (midFrom line 5)) = none ∧
    (∀ k, k ≠ trimmed (midFrom line 5) →
      getDefine (handleUndefine st line).mDefines k = getDefine st.mDefines k) ∧
    (∀ f, f ≠ st.mFileName →
      hashValue (handleUndefine st line).mFileDefines f = hashValue st.mFileDefines f) ∧
    ((∀ d, getDefine st.mDefines (trimmed (midFrom line 5)) = some d →
        d.filename ≠ st.mFileName) →
      (handleUndefine st line).mFileDefines = st.mFileDefines) ∧
    (∀ d, getDefine st.mDefines (trimmed (midFrom line 5)) = some d →
      d.filename = st.mFileName →
      hashValue (handleUndefine st line).mFileDefines st.mFileName =
        (hashValue st.mFileDefines st.mFileName).map fun bucket =>
          hashRemove bucket (trimmed (midFrom line 5))) ∧
    (∀ A bucket d list scanned fuel, A ≠ st.mFileName →
      hashValue st.mFileDefines A = some bucket →
      (∀ e ∈ bucket, e.2.name = e.1) → hashValue bucket (trimmed (midFrom line 5)) = some d →
      A ∉ st.mProcessed → st.mIncludesList = some list →
      st.mScannedFiles = some scanned → A ∈ scanned →
      ∃ st2, addDefinesInFile (fuel + (includeNames list).length + 2) (handleUndefine st line) A
          = .ok st2 ∧
        getDefine st2.mDefines (trimmed (midFrom line 5)) = some d) ∧
    (∀ A fuel, A ∈ st.mProcessed →
      addDefinesInFile (fuel + 1) (handleUndefine st line) A = .ok (handleUndefine st line)) ∧
    (∀ A scanned fuel, A ∉ st.mProcessed → st.mScannedFiles = some scanned → A ∉ scanned →
      addDefinesInFile (fuel + 1) (handleUndefine st line) A =
        .ok { handleUndefine st line with mProcessed := A :: st.mProcessed }) := by
  have hlist : (handleUndefine st line).mIncludesList = st.mIncludesList := by
    unfold handleUndefine; simp only; split
    · rfl
    · split_ifs <;> rfl
  have hproc : (handleUndefine st line).mProcessed = st.mProcessed := by
    unfold handleUndefine; simp only; split
    · rfl
    · split_ifs <;> rfl
  have hscan : (handleUndefine st line).mScannedFiles = st.mScannedFiles := by
    unfold handleUndefine; simp only; split
    · rfl
    · split_ifs <;> rfl
  have hother : ∀ f, f ≠ st.mFileName →
      hashValue (handleUndefine st line).mFileDefines f = hashValue st.mFileDefines f := by
    intro f hf
    unfold handleUndefine; simp only; split
    · rfl
    · split_ifs
      · simp only [hashValue_hashModify, if_neg (Ne.symm hf)]
      · rfl
  refine ⟨?_, ?_, hother, ?_, ?_, ?_, ?_, ?_⟩
  · unfold handleUndefine; simp only; split
    · assumption
    · split_ifs <;> simp [getDefine, hashValue_hashRemove]
  · intro k hk
    unfold handleUndefine; simp only; split
    · rfl
    · split_ifs <;> simp [getDefine, hashValue_hashRemove, Ne.symm hk]
  · intro hd
    unfold handleUndefine; simp only; split
    · rfl
    · rename_i define hdef
      rw [if_neg (hd define hdef)]
  · intro d hd hfile
    unfold handleUndefine; simp only
    rw [hd]
    simp only [hfile, if_true, hashValue_hashModify]
  · intro A bucket d list scanned fuel hA hb hwf hd hp hl hs hin
    obtain ⟨st2, h⟩ := addDefinesInFile_total list scanned fuel (handleUndefine st line) A
      (by rw [hlist]; exact hl) (by rw [hscan]; exact hs)
    refine ⟨st2, h, addDefinesInFile_own _ _ st2 A bucket _ d ?_ hwf hd ?_ ?_ h⟩
    · rw [hother A hA]; exact hb
    · rw [hproc]; exact hp
    · rw [hscan]; exact ⟨scanned, hs, hin⟩
  · intro A fuel hA
    simp only [addDefinesInFile, hproc, hA, if_true]
  · intro A scanned fuel hA hs hin
    simp only [addDefinesInFile, hproc, hA, if_false, hscan, hs, hin, not_false_eq_true,
      if_true]

/-- Witness of C13: in `twoFileState`, whose current file is `main.c`, `undef BAR` removes the
macro `BAR` of `b.h` from the active table, leaves the bucket of `b.h` as it is, and the merge
of `b.h` makes `BAR` active again. -/
theorem handleUndefine_scoped_witness :
    getDefine (handleUndefine twoFileState "undef BAR".toList).mDefines "BAR".toList = none ∧
    (handleUndefine twoFileState "undef BAR".toList).mFileDefines = twoFileState.mFileDefines ∧
    addDefinesInFile 2 (handleUndefine twoFileState "undef BAR".toList) "b.h".toList =
      .ok { twoFileState with
        mDefines := ("BAR".toList, barDefine) :: fooTable
        mProcessed := ["b.h".toList] } ∧
    (∃ st2, addDefinesInFile 2 (handleUndefine twoFileState "undef BAR".toList) "b.h".toList
        = .ok st2 ∧
      getDefine st2.mDefines "BAR".toList = some barDefine) :=
  ⟨(handleUndefine_scoped twoFileState "undef BAR".toList).1,
   (handleUndefine_scoped twoFileState "undef BAR".toList).2.2.2.1
     (fun d hd => by cases hd; decide),
   by rfl,
   (handleUndefine_scoped twoFileState "undef BAR".toList).2.2.2.2.2.1 "b.h".toList
     [("BAR".toList, barDefine)] barDefine [] ["b.h".toList] 0
     (by decide) (by rfl) (by decide) (by rfl) (by decide) rfl rfl (by decide)⟩

/-- Counterexample to C13 as stated: in `mergedTwoFileState` the macro `BAR` of `b.h` is
active and `b.h` has been merged in this pass; `undef BAR`, handled in `main.c`, leaves `BAR`
in the bucket of `b.h`, yet merging `b.h` again changes nothing and `BAR` stays undefined.
The same holds in `unscannedTwoFileState`, where `b.h` is not in the scanned set. -/
theorem undef_not_restored_after_merge :
    getDefine mergedTwoFileState.mDefines "BAR".toList = some barDefine ∧
    barDefine.filename = "b.h".toList ∧ mergedTwoFileState.mFileName = "main.c".toList ∧
    hashValue (handleUndefine mergedTwoFileState "undef BAR".toList).mFileDefines "b.h".toList =
      some [("BAR".toList, barDefine)] ∧
    addDefinesInFile 3 (handleUndefine mergedTwoFileState "undef BAR".toList) "b.h".toList =
      .ok (handleUndefine mergedTwoFileState "undef BAR".toList) ∧
    getDefine (handleUndefine mergedTwoFileState "undef BAR".toList).mDefines "BAR".toList =
      none ∧
    addDefinesInFile 3 (handleUndefine unscannedTwoFileState "undef BAR".toList) "b.h".toList =
      .ok { handleUndefine unscannedTwoFileState "undef BAR".toList with
        mProcessed := ["b.h".toList] } ∧
    getDefine (handleUndefine unscannedTwoFileState "undef BAR".toList).mDefines "BAR".toList =
      none :=
  ⟨by rfl, by rfl, by rfl, by rfl, by rfl, by rfl, by rfl, by rfl⟩

/-! ## Termination of macro expansion: theorems -/

/-- The loop of `expandMacros` ends with `i` at or past the end of the line when it is allowed
as many rounds as characters are left. -/
theorem expandMacrosLoop_exit (expand : QString → QString) (mDefines : DefineMap)
    (line : QString) (n : Nat) :
    ∀ (i : Nat) (word newLine : QString), line.length - i ≤ n →
      line.length ≤ (expandMacrosLoop expand mDefines line n i word newLine).1 := by
  induction n with
  | zero =>
    intro i word newLine h
    simp only [expandMacrosLoop]
    omega
  | succ n ih =>
    intro i word newLine h
    rw [expandMacrosLoop_step]
    cases hget : line.get? i with
    | none =>
      simp only
      have := List.get?_eq_none.mp hget
      omega
    | some ch =>
      simp only
      have hge := expandMacro_ge expand mDefines line newLine word i
      split_ifs
      all_goals exact ih _ _ _ (by omega)

/-- More rounds than the line has characters change nothing in the loop of `expandMacros`. -/
theorem expandMacrosLoop_extra (expand : QString → QString) (mDefines : DefineMap)
    (line : QString) (extra : Nat) :
    expandMacrosLoop expand mDefines line (line.length + extra) 0 [] [] =
      expandMacrosLoop expand mDefines line line.length 0 [] [] := by
  induction extra with
  | zero => rfl
  | succ k ih =>
    rw [← ih, ← Nat.add_assoc]
    exact expandMacrosLoop_succ expand mDefines line (line.length + k) 0 [] [] (by omega)

/-- C21: `expandMacros` returns for every macro table, line and depth.  It obeys the recursion
of the source, which returns the line unchanged when the depth is above the maximum and makes
its nested calls at `depth + 1`; and the loop over the line leaves by its own test `i <
lenLine` after at most as many rounds as the line has characters, whatever the nested calls
return.  On the table with the cycles `A`/`B` and `F()`/`G()`, with the maximum 20, the lines
`A` and `F()` expand to themselves, and with the maximum 3 the line `A` expands to `B`. -/
theorem expandMacros_terminates (maxDepth : Nat) (mDefines : DefineMap) (line : QString)
    (depth : Int) :
    (expandMacros maxDepth mDefines line depth =
      if depth > maxDepth then line
      else
        expandMacrosBody (fun l => expandMacros maxDepth mDefines l (depth + 1)) mDefines
          line) ∧
    (∀ (expand : QString → QString) (extra : Nat),
      expandMacrosLoop expand mDefines line (line.length + extra) 0 [] [] =
        expandMacrosLoop expand mDefines line line.length 0 [] [] ∧
      line.length ≤ (expandMacrosLoop expand mDefines line line.length 0 [] []).1) ∧
    expandMacros 20 mutualTable "A".toList 1 = "A".toList ∧
    expandMacros 20 mutualTable "F()".toList 1 = "F()".toList ∧
    expandMacros 3 mutualTable "A".toList 1 = "B".toList :=
  ⟨expandMacros_unfold maxDepth mDefines line depth,
   fun expand extra =>
     ⟨expandMacrosLoop_extra expand mDefines line extra,
      expandMacrosLoop_exit expand mDefines line line.length 0 [] [] (by omega)⟩,
   by rfl, by rfl, by rfl⟩

/-! ## Entering an included file: theorems -/

/-- An `include` handled while the root file is the only file on the stack never enters the
header: `handleInclude` enters the header in the record `mCurrentIncludes`, which is the
record of the root, and `openInclude` then finds it there and returns. -/
theorem handleInclude_from_root (fuel : Nat) (host : Host) (st : CppPreprocessor)
    (line : QString) (root : ParsedFile) (list : List (QString × FileIncludes))
    (record : FileIncludes) (hactive : getCurrentBranch st = true)
    (hstack : st.mIncludes = [root]) (hcur : st.mCurrentIncludes = some root.fileName)
    (hl : st.mIncludesList = some list) (hrec : hashValue list root.fileName = some record)
    (hname : host.getHeaderFileName root.fileName line st.mIncludePaths
      st.mProjectIncludePaths ≠ []) :
    handleInclude fuel host st line =
      .ok { st with
        mIncludesList := some (hashModify list root.fileName fun fi =>
          { fi with
            includeFiles := hashInsert fi.includeFiles
              (host.getHeaderFileName root.fileName line st.mIncludePaths
                st.mProjectIncludePaths) true }) } := by
  simp only [handleInclude, hactive, hstack, List.getLast?_singleton, hname, hcur, hl,
    recordModify, hrec, Option.isSome_some, if_true, if_false, Bool.true_eq_false,
    openInclude, openIncludeRecord, List.head?_cons, hashValue_hashModify,
    Option.map_some', hashValue_hashInsert]

/-- C22 (code evaluated at the failing input): in `rootOpenState`, where `main.c` is the only
file on the stack and the branch is active, `include <a.h>` resolves to `a.h`, which is not
on the stack and was not included before; afterwards the stack still holds `main.c` only,
`main.c` is still the current file, and `a.h` is entered in the include record of `main.c`.
The header is not entered. -/
theorem handleInclude_header_not_entered :
    openInclude 0 headerHost freshState "main.c".toList ["(".toList] = .ok rootOpenState ∧
    getCurrentBranch rootOpenState = true ∧
    headerHost.getHeaderFileName "main.c".toList "include <a.h>".toList [] [] = "a.h".toList ∧
    handleInclude 5 headerHost rootOpenState "include <a.h>".toList = .ok rootRecordedState ∧
    handlePreprocessor 5 ⟨0, 0, ' '⟩ 1 headerHost rootOpenState "include <a.h>".toList =
      .ok rootRecordedState ∧
    rootRecordedState.mIncludes = rootOpenState.mIncludes ∧
    rootRecordedState.mIncludes.length = 1 ∧
    rootRecordedState.mFileName = "main.c".toList :=
  ⟨by rfl, by rfl, by rfl, by rfl, by rfl, by rfl, by rfl, by rfl⟩

/-! ## The directive reader: theorems -/

/-- The loop that assembles a directive appends one output entry per line it reads. -/
theorem assembleDirective_length (mBuffer : List QString) (count : Nat) :
    ∀ (i : Nat) (result : QString) (mResult : List QString) (r : QString)
      (res : List QString),
      assembleDirective mBuffer count i result mResult = .ok (r, res) →
      res.length = mResult.length + count := by
  induction count with
  | zero =>
    intro i result mResult r res h
    simp only [assembleDirective, Run.ok.injEq, Prod.mk.injEq] at h
    rw [← h.2]; rfl
  | succ n ih =>
    intro i result mResult r res h
    simp only [assembleDirective] at h
    split at h
    · cases h
    · have := ih _ _ _ _ _ h
      rw [this]
      simp
      omega

/-- When `getNextPreprocessor` returns a directive, the slot `mPreProcIndex` that
`handleDefine` writes is an entry of the output. -/
theorem getNextPreprocessor_slot (maxDepth : Nat) (st st2 : CppPreprocessor) (s : QString)
    (h : getNextPreprocessor maxDepth st = .ok (s, st2)) (hs : s ≠ []) :
    0 ≤ st2.mPreProcIndex ∧ st2.mPreProcIndex < st2.mResult.length := by
  simp only [getNextPreprocessor] at h
  split_ifs at h with hge
  · simp only [Run.ok.injEq, Prod.mk.injEq] at h
    exact absurd h.1.symm hs
  · split at h
    · cases h
    · rename_i r res hasm
      have hlen := assembleDirective_length _ _ _ _ _ _ _ hasm
      simp only [Run.ok.injEq, Prod.mk.injEq] at h
      rw [← h.2]
      simp only [skipToEndOfPreprocessor] at hlen ⊢
      omega

/-- C23 (code evaluated at the failing input): on the buffer whose only line is the directive
`#define A \`, `skipToEndOfPreprocessor` leaves the cursor at 1, the number of lines, and the
loop `for (i=preProcFrom;i<=preProcTo;i++)` of `getNextPreprocessor` then reads `mBuffer[1]`,
which does not exist. -/
theorem getNextPreprocessor_reads_past_end (maxDepth : Nat) :
    continuationState.mBuffer.length = 1 ∧ continuationState.mIndex = 0 ∧
    (skipToPreprocessor maxDepth continuationState).mIndex = 0 ∧
    (skipToEndOfPreprocessor (skipToPreprocessor maxDepth continuationState)).mIndex = 1 ∧
    continuationState.mBuffer.get? 1 = none ∧
    getNextPreprocessor maxDepth continuationState = .fault .outOfBounds :=
  ⟨by rfl, by rfl, by rfl, by rfl, by rfl, by rfl⟩

/-! ## The branch stack: theorems -/

/-- A line that starts with `else` starts with none of the keywords tested before it. -/
theorem startsWith_else (line : QString) (h : startsWith line "else".toList = true) :
    startsWith line "define".toList = false ∧ startsWith line "undef".toList = false ∧
    startsWith line "ifdef".toList = false ∧ startsWith line "ifndef".toList = false ∧
    startsWith line "if".toList = false := by
  unfold startsWith at h
  obtain ⟨t, rfl⟩ := List.isPrefixOf_iff_prefix.mp h
  refine ⟨?_, ?_, ?_, ?_, ?_⟩ <;> rfl

/-- The current branch after a push is the value pushed. -/
theorem getCurrentBranch_setCurrentBranch (st : CppPreprocessor) (b : Bool) :
    getCurrentBranch (setCurrentBranch st b) = b := by
  simp [getCurrentBranch, setCurrentBranch]

/-- The text after the keyword of `ifdef NAME`, trimmed, is the name. -/
theorem ifdef_name (name : QString) :
    trimmed (midFrom ("ifdef ".toList ++ name) 5) = trimmed name := by
  have h : midFrom ("ifdef ".toList ++ name) 5 = ' ' :: name := by
    have hlen : ¬ ((5 : Int) > (("ifdef ".toList ++ name).length : Int)) := by
      have h6 : "ifdef ".toList.length = 6 := by rfl
      simp only [List.length_append, h6]
      push_cast
      omega
    simp only [midFrom, mid, if_neg hlen]
    rfl
  rw [h]
  simp [trimmed, List.dropWhile, qIsSpace]

/-- The text after the keyword of `ifndef NAME`, trimmed, is the name. -/
theorem ifndef_name (name : QString) :
    trimmed (midFrom ("ifndef ".toList ++ name) 6) = trimmed name := by
  have h : midFrom ("ifndef ".toList ++ name) 6 = ' ' :: name := by
    have hlen : ¬ ((6 : Int) > (("ifndef ".toList ++ name).length : Int)) := by
      have h7 : "ifndef ".toList.length = 7 := by rfl
      simp only [List.length_append, h7]
      push_cast
      omega
    simp only [midFrom, mid, if_neg hlen]
    rfl
  rw [h]
  simp [trimmed, List.dropWhile, qIsSpace]

/-- C25: when the current branch is active, handling `ifdef NAME` pushes true exactly when
`NAME` (the trimmed text after the keyword) is in the active macro table, and handling `ifndef
NAME` pushes true exactly when it is not; the value pushed is the new current branch, so with
`NAME` undefined `ifdef NAME` makes the branch inactive. -/
theorem ifdef_ifndef_active (fuel : Nat) (u : Indeterminate) (step : Int)
    (st : CppPreprocessor) (name : QString) (h : getCurrentBranch st = true) :
    handleBranch fuel u step st ("ifdef ".toList ++ name) =
      .ok (setCurrentBranch st (getDefine st.mDefines (trimmed name)).isSome) ∧
    handleBranch fuel u step st ("ifndef ".toList ++ name) =
      .ok (setCurrentBranch st (getDefine st.mDefines (trimmed name)).isNone) ∧
    getCurrentBranch (setCurrentBranch st (getDefine st.mDefines (trimmed name)).isSome) =
      (getDefine st.mDefines (trimmed name)).isSome ∧
    getCurrentBranch (setCurrentBranch st (getDefine st.mDefines (trimmed name)).isNone) =
      (getDefine st.mDefines (trimmed name)).isNone ∧
    (getDefine st.mDefines (trimmed name) = none →
      ∃ st2, handleBranch fuel u step st ("ifdef ".toList ++ name) = .ok st2 ∧
        getCurrentBranch st2 = false) := by
  have h1 : startsWith ("ifdef ".toList ++ name) "ifdef".toList = true := by rfl
  have h2 : startsWith ("ifndef ".toList ++ name) "ifdef".toList = false := by rfl
  have h3 : startsWith ("ifndef ".toList ++ name) "ifndef".toList = true := by rfl
  have hd : handleBranch fuel u step st ("ifdef ".toList ++ name) =
      .ok (setCurrentBranch st (getDefine st.mDefines (trimmed name)).isSome) := by
    simp only [handleBranch, h1, h, if_true, Bool.true_eq_false, if_false, ifdef_name]
  have hn : handleBranch fuel u step st ("ifndef ".toList ++ name) =
      .ok (setCurrentBranch st (getDefine st.mDefines (trimmed name)).isNone) := by
    simp only [handleBranch, h2, h3, h, if_true, Bool.true_eq_false, if_false,
      Bool.false_eq_true, ifndef_name]
  refine ⟨hd, hn, getCurrentBranch_setCurrentBranch _ _, getCurrentBranch_setCurrentBranch _ _,
    ?_⟩
  intro hnone
  refine ⟨_, hd, ?_⟩
  rw [getCurrentBranch_setCurrentBranch, hnone]
  rfl

/-- Witness of C25: in `firstLineState`, with `fooTable` as the active table, `ifdef FOO`
pushes true and `ifdef X` pushes false; `ifndef FOO` pushes false and `ifndef X` pushes
true. -/
theorem ifdef_ifndef_active_witness :
    getCurrentBranch { firstLineState with mDefines := fooTable } = true ∧
    handleBranch 0 ⟨0, 0, ' '⟩ 1 { firstLineState with mDefines := fooTable }
        "ifdef FOO".toList =
      .ok { firstLineState with mDefines := fooTable, mBranchResults := [true] } ∧
    handleBranch 0 ⟨0, 0, ' '⟩ 1 { firstLineState with mDefines := fooTable }
        "ifndef FOO".toList =
      .ok { firstLineState with mDefines := fooTable, mBranchResults := [false] } ∧
    (∃ st2, handleBranch 0 ⟨0, 0, ' '⟩ 1 { firstLineState with mDefines := fooTable }
        ("ifdef ".toList ++ "X".toList) = .ok st2 ∧ getCurrentBranch st2 = false) :=
  ⟨by rfl,
   (ifdef_ifndef_active 0 ⟨0, 0, ' '⟩ 1 { firstLineState with mDefines := fooTable }
      "FOO".toList (by rfl)).1,
   (ifdef_ifndef_active 0 ⟨0, 0, ' '⟩ 1 { firstLineState with mDefines := fooTable }
      "FOO".toList (by rfl)).2.1,
   (ifdef_ifndef_active 0 ⟨0, 0, ' '⟩ 1 { firstLineState with mDefines := fooTable }
      "X".toList (by rfl)).2.2.2.2 (by rfl)⟩

/-- C26: for every branch stack `s ++ [b]`, handling a line that starts with `else` leaves
the stack `s ++ [not b]`, whatever the levels `s` below the top are, and changes nothing else
in the state. -/
theorem else_negates_top (fuel : Nat) (u : Indeterminate) (step : Int) (host : Host)
    (st : CppPreprocessor) (s : List Bool) (b : Bool) (line : QString)
    (hst : st.mBranchResults = s ++ [b]) (hl : startsWith line "else".toList = true) :
    handleBranch fuel u step st line = .ok { st with mBranchResults := s ++ [!b] } ∧
    handlePreprocessor fuel u step host st line =
      .ok { st with mBranchResults := s ++ [!b] } := by
  obtain ⟨h1, h2, h3, h4, h5⟩ := startsWith_else line hl
  have hcur : getCurrentBranch st = b := by simp [getCurrentBranch, hst]
  have hb : handleBranch fuel u step st line = .ok { st with mBranchResults := s ++ [!b] } := by
    simp only [handleBranch, h3, h4, h5, hl, hcur, if_true, Bool.false_eq_true, if_false,
      setCurrentBranch, removeCurrentBranch, hst, List.dropLast_concat]
  refine ⟨hb, ?_⟩
  simp only [handlePreprocessor, h1, h2, h5, hl, hb, Bool.false_or, Bool.true_or,
    Bool.false_eq_true, if_false, if_true]

/-- Witness of C26: from the stacks `[true, false]` and `[false, true]`, `else` gives `[true,
true]` and `[false, false]`. -/
theorem else_negates_top_witness :
    handleBranch 0 ⟨0, 0, ' '⟩ 1 { firstLineState with mBranchResults := [true, false] }
        "else".toList =
      .ok { firstLineState with mBranchResults := [true, true] } ∧
    handleBranch 0 ⟨0, 0, ' '⟩ 1 { firstLineState with mBranchResults := [false, true] }
        "else".toList =
      .ok { firstLineState with mBranchResults := [false, false] } :=
  ⟨(else_negates_top 0 ⟨0, 0, ' '⟩ 1 emptyHost
      { firstLineState with mBranchResults := [true, false] } [true] false "else".toList
      (by rfl) (by rfl)).1,
   (else_negates_top 0 ⟨0, 0, ' '⟩ 1 emptyHost
      { firstLineState with mBranchResults := [false, true] } [false] true "else".toList
      (by rfl) (by rfl)).1⟩

/-- C27 (code evaluated at the failing input): from a branch stack whose top is true, a
branch of the chain being active, handling `elif 1` leaves the top false and handling `else`
after it leaves the top true: the `else` part is active although the first branch of the chain
was taken.  The same holds with `elif 0`. -/
theorem elif_else_takes_second_branch (fuel : Nat) (u : Indeterminate) (step : Int) :
    getCurrentBranch { firstLineState with mBranchResults := [true] } = true ∧
    handleBranch fuel u step { firstLineState with mBranchResults := [true] } "elif 1".toList =
      .ok { firstLineState with mBranchResults := [false] } ∧
    handleBranch fuel u step { firstLineState with mBranchResults := [false] } "else".toList =
      .ok { firstLineState with mBranchResults := [true] } ∧
    handleBranches fuel u step { firstLineState with mBranchResults := [true] }
        ["elif 1".toList, "else".toList] =
      .ok { firstLineState with mBranchResults := [true] } ∧
    handleBranches fuel u step { firstLineState with mBranchResults := [true] }
        ["elif 0".toList, "else".toList] =
      .ok { firstLineState with mBranchResults := [true] } :=
  ⟨by rfl, by rfl, by rfl, by rfl, by rfl⟩

/-! ## Priority of a file over its includes: theorems -/

/-- In a table with one entry per key, every entry is the value of its key. -/
theorem hashValue_of_mem {β : Type} (m : List (QString × β))
    (hnd : (m.map Prod.fst).Nodup) (e : QString × β) (he : e ∈ m) :
    hashValue m e.1 = some e.2 := by
  induction m with
  | nil => cases he
  | cons a rest ih =>
    simp only [List.map_cons, List.nodup_cons] at hnd
    rcases List.mem_cons.mp he with h | h
    · subst h
      simp [hashValue, List.find?_cons]
    · have hne : a.1 ≠ e.1 := by
        intro heq
        exact hnd.1 (by rw [heq]; exact List.mem_map_of_mem Prod.fst h)
      have := ih hnd.2 h
      unfold hashValue at this ⊢
      have hbeq : (a.1 == e.1) = false := by simpa using hne
      simp only [List.find?_cons, hbeq]
      exact this

/-- C28: for every scanned file `f` not yet merged in this pass, with the registry in place
and the bucket of `f` stored under the macros' names, `addDefinesInFile(f)` returns, cyclic
include records or not (fuel: the number of include entries of the registry plus 2), and
afterwards every macro of the bucket of `f` is the active definition of its name, whatever
the files recorded as included by `f` define. -/
theorem addDefinesInFile_own_priority (fuel : Nat) (st : CppPreprocessor) (f : QString)
    (bucket : List (QString × Define)) (list : List (QString × FileIncludes))
    (scanned : List QString) (hb : hashValue st.mFileDefines f = some bucket)
    (hwf : ∀ e ∈ bucket, e.2.name = e.1) (hp : f ∉ st.mProcessed)
    (hl : st.mIncludesList = some list) (hs : st.mScannedFiles = some scanned)
    (hin : f ∈ scanned) :
    ∃ st2, addDefinesInFile (fuel + (includeNames list).length + 2) st f = .ok st2 ∧
      (∀ name d, hashValue bucket name = some d → getDefine st2.mDefines name = some d) ∧
      ((bucket.map Prod.fst).Nodup →
        ∀ e ∈ bucket, getDefine st2.mDefines e.2.name = some e.2) := by
  obtain ⟨st2, h⟩ := addDefinesInFile_total list scanned fuel st f hl hs
  have hown : ∀ name d, hashValue bucket name = some d →
      getDefine st2.mDefines name = some d := fun name d hd =>
    addDefinesInFile_own _ st st2 f bucket name d hb hwf hd hp ⟨scanned, hs, hin⟩ h
  refine ⟨st2, h, hown, ?_⟩
  intro hnd e he
  rw [hwf e he]
  exact hown e.1 e.2 (hashValue_of_mem bucket hnd e he)

/-- Witness of C28: in `cyclicState` the records of `a.h` and `b.h` include each other and
both files define `X`; the merge of `a.h` returns with fuel 4 and the `X` of `a.h` is the
active one. -/
theorem addDefinesInFile_own_priority_witness :
    addDefinesInFile 4 cyclicState "a.h".toList =
      .ok { cyclicState with
        mDefines := [("X".toList, xDefine "a.h".toList "1".toList)]
        mProcessed := ["b.h".toList, "a.h".toList] } ∧
    (∃ st2, addDefinesInFile 4 cyclicState "a.h".toList = .ok st2 ∧
      getDefine st2.mDefines "X".toList = some (xDefine "a.h".toList "1".toList)) :=
  ⟨by rfl,
   match addDefinesInFile_own_priority 0 cyclicState "a.h".toList
      [("X".toList, xDefine "a.h".toList "1".toList)]
      [("a.h".toList, { baseFile := "a.h".toList, includeFiles := [("b.h".toList, true)] }),
       ("b.h".toList, { baseFile := "b.h".toList, includeFiles := [("a.h".toList, true)] })]
      ["a.h".toList, "b.h".toList] (by rfl) (by decide) (by decide) (by rfl) (by rfl)
      (by decide) with
   | ⟨st2, h, hown, _⟩ => ⟨st2, h, hown "X".toList _ (by rfl)⟩⟩

/-! ## The state of the comment stripper across lines: theorems -/

set_option maxHeartbeats 1000000 in
/-- The raw-string delimiter that the stripper carries has no influence on the text it collects
or on the content type it ends in: the only test of it is followed by a fall-through that
sets the same content type on both of its outcomes. -/
theorem removeCommentsLoop_delimiter (line : QString) (n : Nat) :
    ∀ (pos : Nat) (ty : ContentType) (d d2 s : QString),
      (removeCommentsLoop line n { pos := pos, currentType := ty, delimiter := d, s := s }).s =
        (removeCommentsLoop line n
          { pos := pos, currentType := ty, delimiter := d2, s := s }).s ∧
      (removeCommentsLoop line n
          { pos := pos, currentType := ty, delimiter := d, s := s }).currentType =
        (removeCommentsLoop line n
          { pos := pos, currentType := ty, delimiter := d2, s := s }).currentType := by
  induction n with
  | zero => intro pos ty d d2 s; exact ⟨rfl, rfl⟩
  | succ n ih =>
    intro pos ty d d2 s
    cases hg : line.get? pos with
    | none => simp only [removeCommentsLoop, hg]; exact ⟨trivial, trivial⟩
    | some ch =>
      cases hnext : line.get? (pos + 1) <;> cases ty <;>
        simp only [removeCommentsLoop, hg, hnext, reduceCtorEq, if_true, if_false, and_false,
          false_and, and_true, true_and, or_false, false_or, or_true, true_or] <;>
        (try split_ifs) <;>
        first
          | exact ih _ _ _ _ _
          | exact ⟨rfl, rfl⟩

/-- The raw-string delimiter carried into a list of lines has no influence on the content type
in which `removeComments` ends. -/
theorem removeCommentsEndType_delimiter :
    ∀ (text : List QString) (ty : ContentType) (d d2 : QString),
      removeCommentsEndType text ty d = removeCommentsEndType text ty d2 := by
  intro text
  induction text with
  | nil => intro ty d d2; rfl
  | cons a rest ih =>
    intro ty d d2
    have h := removeCommentsLoop_delimiter a a.length 0 ty d d2 []
    simp only [removeCommentsEndType, h.2]
    rw [ih _ _ (removeCommentsLoop a a.length
      { pos := 0, currentType := ty, delimiter := d2, s := [] }).delimiter]

/-- C29 (code evaluated at the failing input): `removeComments` returns one line per input
line, for every list of lines, but a comment-only line does not always come back empty: after
the line `'a'`, a complete character literal, the line `// only a comment` comes back as
`//`, because the stripper is still in the state Character.  As the first line of the input
the comment line comes back empty, and so do the lines of a block comment. -/
theorem removeComments_comment_line_kept (text : List QString) :
    (removeComments text).length = text.length ∧
    removeComments [charLiteralLine, "// only a comment".toList] =
      [[Char.ofNat 39, Char.ofNat 39], "//".toList] ∧
    removeCommentsEndType [charLiteralLine] .Other [] = .Character ∧
    removeComments ["// only a comment".toList] = [[]] ∧
    removeComments ["/* a".toList, "b".toList, "c */".toList] = [[], [], []] :=
  ⟨removeCommentsLines_length text .Other [], by rfl, by rfl, by rfl, by rfl⟩

/-- A word that is neither `__attribute__` nor a macro is appended as it is, and `i` stays. -/
theorem expandMacro_unknown (expand : QString → QString) (mDefines : DefineMap)
    (line newLine word : QString) (i : Nat) (hnone : getDefine mDefines word = none)
    (hattr : word ≠ "__attribute__".toList) :
    expandMacro expand mDefines line newLine word i = (newLine ++ word, i) := by
  simp only [expandMacro, if_neg hattr, hnone]

/-- On a text whose identifier runs are neither macros nor `__attribute__`, the loop of
`expandMacros` reaches the end of the line and copies the text. -/
theorem expandMacrosLoop_macroFree (expand : QString → QString) (mDefines : DefineMap) :
    ∀ (suf pre word newLine : QString) (n : Nat), suf.length ≤ n →
      (∀ w ∈ wordRunsFrom suf word,
        getDefine mDefines w = none ∧ w ≠ "__attribute__".toList) →
      ∃ word2 newLine2,
        expandMacrosLoop expand mDefines (pre ++ suf) n pre.length word newLine =
          ((pre ++ suf).length, word2, newLine2) ∧
        newLine2 ++ word2 = newLine ++ word ++ suf ∧
        (word2 ≠ [] → getDefine mDefines word2 = none ∧ word2 ≠ "__attribute__".toList) := by
  intro suf
  induction suf with
  | nil =>
    intro pre word newLine n _ hruns
    refine ⟨word, newLine, ?_, by simp, ?_⟩
    · cases n with
      | zero => simp [expandMacrosLoop]
      | succ n => simp [expandMacrosLoop]
    · intro hw
      exact hruns word (by simp [wordRunsFrom, hw])
  | cons c suf ih =>
    intro pre word newLine n hn hruns
    cases n with
    | zero => simp at hn
    | succ n =>
      have hget : (pre ++ c :: suf).get? pre.length = some c := by
        rw [List.get?_eq_getElem?, List.getElem?_append_right (le_refl _)]; simp
      have hline : pre ++ c :: suf = (pre ++ [c]) ++ suf := by simp
      have hlen : pre.length + 1 = (pre ++ [c]).length := by simp
      by_cases hc : isWordChar c = true
      · obtain ⟨word2, newLine2, h1, h2, h3⟩ :=
          ih (pre ++ [c]) (word ++ [c]) newLine n (by simpa using hn)
            (by simpa [wordRunsFrom, hc] using hruns)
        refine ⟨word2, newLine2, ?_, ?_, h3⟩
        · rw [expandMacrosLoop_step, hget]
          simp only [hc, if_true]
          rw [hline, hlen]
          exact h1
        · rw [h2]; simp
      · have hr : (if word ≠ [] then
              expandMacro expand mDefines (pre ++ c :: suf) newLine word pre.length
            else (newLine, pre.length)) = (newLine ++ word, pre.length) := by
          by_cases hw : word = []
          · simp [hw]
          · have hmem : word ∈ wordRunsFrom (c :: suf) word := by
              simp [wordRunsFrom, hc, hw]
            rw [if_pos hw]
            exact expandMacro_unknown _ _ _ _ _ _ (hruns word hmem).1 (hruns word hmem).2
        have hlt : pre.length < (pre ++ c :: suf).length := by simp
        obtain ⟨word2, newLine2, h1, h2, h3⟩ :=
          ih (pre ++ [c]) [] (newLine ++ word ++ [c]) n (by simpa using hn)
            (fun w hw => hruns w (by
              simp only [wordRunsFrom, hc, Bool.false_eq_true, if_false, List.mem_append]
              exact Or.inr hw))
        refine ⟨word2, newLine2, ?_, ?_, h3⟩
        · rw [expandMacrosLoop_step, hget]
          simp only [hc, Bool.false_eq_true, if_false, hr, hlt, if_true]
          rw [hline, hlen]
          exact h1
        · rw [h2]; simp

/-- C31: `expandMacros` is the identity on macro-free text: for every table, every line none of
whose identifier runs names a macro of the table or is `__attribute__`, every depth and every
depth limit, the result is the line. -/
theorem expandMacros_macroFree (maxDepth : Nat) (mDefines : DefineMap) (line : QString)
    (depth : Int) (h : MacroFree mDefines line) :
    expandMacros maxDepth mDefines line depth = line := by
  rw [expandMacros_unfold]
  split_ifs
  · rfl
  · obtain ⟨word2, newLine2, h1, h2, h3⟩ :=
      expandMacrosLoop_macroFree (fun l => expandMacros maxDepth mDefines l (depth + 1))
        mDefines line [] [] [] line.length (le_refl _) h
    simp only [List.nil_append, List.length_nil] at h1 h2
    unfold expandMacrosBody
    rw [h1]
    by_cases hw : word2 = []
    · simp only [hw, List.append_nil] at h2
      simp [hw, h2]
    · simp only [ne_eq, hw, not_false_eq_true, if_true]
      rw [expandMacro_unknown _ _ _ _ _ _ (h3 hw).1 (h3 hw).2]
      exact h2

/-- Witness of C31: with `MAX` the only macro, the line `int max1 = f(a, 2) + MAXIMUM;` has
the identifier runs `int`, `max1`, `f`, `a`, `2`, `MAXIMUM` and expands to itself. -/
theorem expandMacros_macroFree_witness :
    wordRuns "int max1 = f(a, 2) + MAXIMUM;".toList =
      ["int".toList, "max1".toList, "f".toList, "a".toList, "2".toList, "MAXIMUM".toList] ∧
    expandMacros 20 [("MAX".toList, maxDefine)] "int max1 = f(a, 2) + MAXIMUM;".toList 1 =
      "int max1 = f(a, 2) + MAXIMUM;".toList :=
  ⟨by rfl,
   expandMacros_macroFree 20 [("MAX".toList, maxDefine)]
     "int max1 = f(a, 2) + MAXIMUM;".toList 1 (by
       intro w hw
       have hruns : wordRuns "int max1 = f(a, 2) + MAXIMUM;".toList =
           ["int".toList, "max1".toList, "f".toList, "a".toList, "2".toList,
            "MAXIMUM".toList] := by rfl
       rw [hruns] at hw
       simp only [List.mem_cons, List.mem_singleton, List.not_mem_nil, or_false] at hw
       rcases hw with h | h | h | h | h | h <;> subst h <;> exact ⟨by rfl, by decide⟩)⟩

/-! ## Text around a macro invocation: theorems -/

/-- The macro `ID(x)` with body `x` as `addDefineByParts` registers it. -/
theorem addDefineByParts_ID :
    addDefineByParts ⟨0, 0, ' '⟩ {} "ID".toList "(x)".toList "x".toList false =
      .ok { mDefines := idTable, mFileDefines := [([], idTable)] } := by
  rfl

/-- C32 (code evaluated at the failing input): with the function-like macro `ID(x)`, the line
`ID(7);` expands to `7(`, while `ID(7)` expands to `7` and `;` to `;`: the `;` after the
invocation is lost and the `(` that the loop had read before the call is appended.  Likewise
`MAX(1,2);` ends in `(`, not in `;`. -/
theorem expandMacros_suffix_lost :
    expandMacros 20 idTable "ID(7);".toList 1 = "7(".toList ∧
    expandMacros 20 idTable "ID(7)".toList 1 = "7".toList ∧
    expandMacros 20 idTable ";".toList 1 = ";".toList ∧
    expandMacros 20 idTable "ID(7);".toList 1 ≠
      expandMacros 20 idTable "ID(7)".toList 1 ++ expandMacros 20 idTable ";".toList 1 ∧
    expandMacros 20 [("MAX".toList, maxDefine)] "MAX(1,2);".toList 1 =
      expandMacros 20 [("MAX".toList, maxDefine)] "MAX(1,2)".toList 1 ++ "(".toList :=
  ⟨by rfl, by rfl, by rfl, by decide, by rfl⟩

/-- C33 (code evaluated at the failing input): with no macro defined, the line
`void f() __attribute__((noreturn));` expands to `void f() (`, not to `void f() ;`: the
attribute and its argument list are skipped, and so is the `;` after them, for which the `(`
read before the skip is appended. -/
theorem expandMacros_attribute_suffix_lost :
    MacroFree [] "void f() ".toList ∧ MacroFree [] ";".toList ∧
    expandMacros 20 [] "void f() __attribute__((noreturn));".toList 1 = "void f() (".toList ∧
    expandMacros 20 [] "void f() __attribute__((noreturn));".toList 1 ≠
      "void f() ".toList ++ ";".toList ∧
    expandMacros 20 [] ("a ".toList ++ "__attribute__((x))".toList ++ " b".toList) 1 =
      "a (b".toList := by
  refine ⟨?_, ?_, by rfl, by decide, by rfl⟩
  · intro w hw
    have hruns : wordRuns "void f() ".toList = ["void".toList, "f".toList] := by rfl
    rw [hruns] at hw
    simp only [List.mem_cons, List.mem_singleton, List.not_mem_nil, or_false] at hw
    rcases hw with h | h <;> subst h <;> exact ⟨by rfl, by decide⟩
  · intro w hw
    have hruns : wordRuns ";".toList = [] := by rfl
    rw [hruns] at hw
    cases hw

/-- C34 (code evaluated at the failing input): with the function-like macro `ID(x)`, the line
`ID` expands to the empty string and `ID + 1` to two blanks and `1`: a function-like name
without `(` is dropped, and the character at which the blank skip stopped is skipped too. -/
theorem expandMacros_function_name_dropped :
    idDefine.args ≠ [] ∧ getDefine idTable "ID".toList = some idDefine ∧
    expandMacros 20 idTable "ID".toList 1 = [] ∧
    expandMacros 20 idTable "ID + 1".toList 1 = "  1".toList ∧
    expandMacros 20 [("MAX".toList, maxDefine)] "MAX".toList 1 = [] :=
  ⟨by decide, by rfl, by rfl, by rfl, by rfl⟩

/-- C35 (code evaluated at the failing input): with the macro `ID(x)` whose body is `x`, the
line `ID((1,2))` expands to `1`, not to `(1,2)`: `expandFunction` removes the parentheses of
the argument text `(1,2)` and splits the rest at its comma into the two arguments `1` and
`2`. -/
theorem expandMacros_nested_comma_split :
    expandMacros 20 idTable "ID((1,2))".toList 1 = "1".toList ∧
    expandFunction idDefine "(1,2)".toList = "1".toList ∧
    split ',' "1,2".toList = ["1".toList, "2".toList] ∧
    expandMacros 20 idTable "ID((1,2))".toList 1 ≠ "(1,2)".toList :=
  ⟨by rfl, by rfl, by rfl, by decide⟩

/-! ## Termination of the symbol phase: theorems -/

/-- With `A` defined as `A`, the loop of `expandDefines` on the line ` A` at `searchPos` 1
replaces `A` by `A` and stays where it is: every round leads to the same round. -/
theorem expandDefinesLoop_self (u : Indeterminate) (step : Int) (fuel : Nat) :
    expandDefinesLoop u step selfTable fuel " A".toList 1 = .fault .outOfFuel := by
  induction fuel with
  | zero => rfl
  | succ n ih =>
    have hstep : expandDefinesLoop u step selfTable (n + 1) " A".toList 1 =
        expandDefinesLoop u step selfTable n " A".toList 1 := by rfl
    rw [hstep, ih]

/-- C36 (code evaluated at the failing input): with the object-like macro `A` defined as `A`,
`expandDefines` on the condition ` A` returns for no step budget: the loop replaces `A` by
its value `A` and rescans from the same position, with no test for progress.  The first
rounds with `A` defined as `A+1` turn ` A` into ` A+1` and then ` A+1+1` at the same
position. -/
theorem expandDefines_self_reference_no_result (u : Indeterminate) (step : Int)
    (fuel : Nat) :
    getDefine selfTable "A".toList = some (selfDefine "A".toList) ∧
    (selfDefine "A".toList).value = "A".toList ∧
    expandDefines fuel u step selfTable " A".toList = .fault .outOfFuel ∧
    expandDefinesLoop u step growTable (fuel + 1) " A".toList 1 =
      expandDefinesLoop u step growTable fuel " A+1".toList 1 ∧
    expandDefinesLoop u step growTable (fuel + 1) " A+1".toList 1 =
      expandDefinesLoop u step growTable fuel " A+1+1".toList 1 := by
  refine ⟨by rfl, by rfl, ?_, by rfl, by rfl⟩
  cases fuel with
  | zero => rfl
  | succ n =>
    have hstep : expandDefines (n + 1) u step selfTable " A".toList =
        expandDefinesLoop u step selfTable n " A".toList 1 := by rfl
    rw [hstep]
    exact expandDefinesLoop_self u step n

/-! ## The include stack: theorems -/

/-- C38: with at least two open frames, `closeInclude` pops the top frame, restores the cursor,
the current file and the buffer saved in the parent frame, and cuts the branch stack down to
its first min(length, saved depth) levels; with an empty include stack it changes nothing. -/
theorem closeInclude_restores_parent (st : CppPreprocessor) :
    (∀ (rest : List ParsedFile) (parent top : ParsedFile),
      st.mIncludes = rest ++ [parent, top] →
      (closeInclude st).mIncludes = rest ++ [parent] ∧
      (closeInclude st).mIndex = parent.index ∧
      (closeInclude st).mFileName = parent.fileName ∧
      (closeInclude st).mBuffer = parent.buffer ∧
      (closeInclude st).mBranchResults =
        st.mBranchResults.take (min st.mBranchResults.length parent.branches) ∧
      (closeInclude st).mBranchResults.length =
        min st.mBranchResults.length parent.branches ∧
      (closeInclude st).mBranchResults <+: st.mBranchResults) ∧
    (st.mIncludes = [] → closeInclude st = st) := by
  refine ⟨?_, ?_⟩
  · intro rest parent top h
    have h1 : st.mIncludes ≠ [] := by rw [h]; simp
    have h2 : st.mIncludes.dropLast = rest ++ [parent] := by
      rw [h]
      have : rest ++ [parent, top] = (rest ++ [parent]) ++ [top] := by simp
      rw [this, List.dropLast_concat]
    have h3 : (rest ++ [parent]).getLast? = some parent := by simp
    have hc : closeInclude st =
        { st with
          mIncludes := rest ++ [parent]
          mIndex := parent.index
          mFileName := parent.fileName
          mBuffer := parent.buffer
          mBranchResults :=
            st.mBranchResults.take (min st.mBranchResults.length parent.branches)
          mCurrentIncludes := some parent.fileName
          mResult := st.mResult ++
            [arg (arg "#include %1:%2".toList parent.fileName)
              (Nat.toDigits 10 (parent.index + 1))] } := by
      simp only [closeInclude, if_neg h1, h2, h3]
    rw [hc]
    exact ⟨rfl, rfl, rfl, rfl, rfl, by simp, List.take_prefix _ _⟩
  · intro h
    simp [closeInclude, h]

/-- Witness of C38: in `headerOpenState` with the branch stack `[true, false]`, the parent frame
`main.c` having saved the depth 0, `closeInclude` leaves the frame of `main.c`, the cursor 0,
the current file `main.c` and the empty branch stack. -/
theorem closeInclude_restores_parent_witness :
    (closeInclude { headerOpenState with mBranchResults := [true, false] }).mIncludes =
      [{ index := 0, fileName := "main.c".toList, buffer := ["(".toList], branches := 0 }] ∧
    (closeInclude { headerOpenState with mBranchResults := [true, false] }).mFileName =
      "main.c".toList ∧
    (closeInclude { headerOpenState with mBranchResults := [true, false] }).mBranchResults =
      [] :=
  ⟨((closeInclude_restores_parent { headerOpenState with mBranchResults := [true, false] }).1 []
      { index := 0, fileName := "main.c".toList, buffer := ["(".toList], branches := 0 }
      { index := 0, fileName := "a.h".toList, buffer := [], branches := 0 } (by rfl)).1,
   by rfl, by rfl⟩

/-- C39 (code evaluated at the failing input): for the input `FOO 123`, `getDefineParts`
returns the name `FOO`, no args and the value `23`: `removeGCCAttributes` starts at the second
character of the value.  For `MAX(a,b) ((a)>(b)?(a):(b))` the name and the args are as stated
and the value has lost its first character. -/
theorem getDefineParts_value_loses_first_char :
    getDefineParts "FOO 123".toList = .ok ("FOO".toList, [], "23".toList) ∧
    removeGCCAttributes "123".toList = .ok "23".toList ∧
    getDefineParts "MAX(a,b) ((a)>(b)?(a):(b))".toList =
      .ok ("MAX".toList, "(a,b)".toList, "(a)>(b)?(a):(b))".toList) ∧
    getDefineParts "FOO x".toList = .ok ("FOO".toList, [], []) :=
  ⟨by rfl, by rfl, by rfl, by rfl⟩

/-! ## The invariant of the macro tables: theorems -/

/-- The value found under a key is stored in the table under that key. -/
theorem hashValue_mem_key {β : Type} (m : List (QString × β)) (k : QString) (v : β)
    (h : hashValue m k = some v) : (k, v) ∈ m := by
  unfold hashValue at h
  cases hf : m.find? (fun e => e.1 == k) with
  | none => rw [hf] at h; cases h
  | some e =>
    rw [hf] at h
    simp only [Option.map_some', Option.some.injEq] at h
    have hk : e.1 = k := by simpa using List.find?_some hf
    have he := List.mem_of_find?_eq_some hf
    rw [← hk, ← h]
    exact he

/-- The entries of a table after `hashInsert` are the new one and old ones. -/
theorem mem_hashInsert {β : Type} (m : List (QString × β)) (k : QString) (v : β)
    (e : QString × β) (he : e ∈ hashInsert m k v) : e = (k, v) ∨ e ∈ m := by
  unfold hashInsert at he
  rcases List.mem_cons.mp he with h | h
  · exact Or.inl h
  · exact Or.inr (List.mem_of_mem_filter h)

/-- The entries of a table after `hashRemove` are old ones. -/
theorem mem_hashRemove {β : Type} (m : List (QString × β)) (k : QString)
    (e : QString × β) (he : e ∈ hashRemove m k) : e ∈ m :=
  List.mem_of_mem_filter he

/-- Function `parseArgs` changes neither the name nor the file nor the hard-coded flag. -/
theorem parseArgs_keeps (u : Indeterminate) (define d2 : Define)
    (h : parseArgs u define = .ok d2) :
    d2.name = define.name ∧ d2.filename = define.filename ∧
      d2.hardCoded = define.hardCoded := by
  unfold parseArgs at h
  simp only at h
  split_ifs at h
  · cases h; exact ⟨rfl, rfl, rfl⟩
  · split at h
    · cases h
    · cases h; exact ⟨rfl, rfl, rfl⟩

/-- Looking up a key after the macros of a bucket are inserted under their names. -/
theorem foldr_insert_cases (bucket : List (QString × Define)) (m : DefineMap) (k : QString)
    (hwf : ∀ e ∈ bucket, e.2.name = e.1) :
    hashValue (bucket.foldr (fun e acc => hashInsert acc e.2.name e.2) m) k =
      match hashValue bucket k with
      | some d => some d
      | none => hashValue m k := by
  induction bucket with
  | nil => rfl
  | cons e rest ih =>
    simp only [List.foldr_cons]
    rw [hashValue_hashInsert, ih (fun x hx => hwf x (List.mem_cons_of_mem _ hx))]
    have he : e.2.name = e.1 := hwf e (List.mem_cons_self _ _)
    rw [he]
    by_cases hk : e.1 = k
    · simp [hashValue, List.find?_cons, hk]
    · have hb : (e.1 == k) = false := by simpa using hk
      simp only [if_neg hk, hashValue, List.find?_cons, hb]

/-- The tables after `clear()` satisfy the invariant. -/
theorem TablesInv_clear (st : CppPreprocessor) : TablesInv (clear st) := by
  refine ⟨?_, ?_, ?_⟩
  · intro name d h; cases h
  · intro f bucket h; cases h
  · intro k d h; cases h

/-- Function `addDefineByParts` keeps the invariant. -/
theorem TablesInv_addDefineByParts (u : Indeterminate) (st st2 : CppPreprocessor)
    (name args value : QString) (hardCoded : Bool) (hinv : TablesInv st)
    (h : addDefineByParts u st name args value hardCoded = .ok st2) : TablesInv st2 := by
  obtain ⟨hA, hB, hC⟩ := hinv
  unfold addDefineByParts at h
  simp only at h
  split at h
  · cases h
  · rename_i define hdef
    have hkeep : define.name = name ∧ define.filename = st.mFileName ∧
        define.hardCoded = hardCoded := by
      split_ifs at hdef
      · exact parseArgs_keeps u _ define hdef
      · cases hdef; exact ⟨rfl, rfl, rfl⟩
    obtain ⟨hn, hf, hh⟩ := hkeep
    cases hardCoded with
    | true =>
      simp only [if_true] at h
      cases h
      refine ⟨hA, hB, ?_⟩
      intro k d hk
      simp only [hashValue_hashInsert] at hk
      split_ifs at hk with hkk
      · cases hk; exact ⟨hkk ▸ hn, hh⟩
      · exact hC k d hk
    | false =>
      simp only [Bool.false_eq_true, if_false] at h
      cases h
      refine ⟨?_, ?_, hC⟩
      · intro k d hk
        simp only [getDefine, hashValue_hashInsert] at hk
        split_ifs at hk with hkk
        · cases hk
          refine ⟨hkk ▸ hn, fun _ => ?_⟩
          refine ⟨hashInsert ((hashValue st.mFileDefines st.mFileName).getD []) define.name
            define, ?_, ?_⟩
          · simp only [hashValue_hashInsert, hf, if_true]
          · simp only [hashValue_hashInsert, if_true]
        · obtain ⟨hdn, hback⟩ := hA k d hk
          refine ⟨hdn, fun hsoft => ?_⟩
          obtain ⟨bucket, hb1, hb2⟩ := hback hsoft
          by_cases hfile : st.mFileName = d.filename
          · refine ⟨hashInsert ((hashValue st.mFileDefines st.mFileName).getD []) define.name
              define, ?_, ?_⟩
            · simp only [hashValue_hashInsert, hfile, if_true]
            · rw [← hfile] at hb1
              simp only [hb1, Option.getD_some, hashValue_hashInsert]
              rw [if_neg (by rw [hn, hdn]; exact hkk)]
              exact hb2
          · refine ⟨bucket, ?_, hb2⟩
            simp only [hashValue_hashInsert, if_neg hfile]
            exact hb1
      · intro f bucket hb e he
        simp only [hashValue_hashInsert] at hb
        split_ifs at hb with hff
        · cases hb
          rcases mem_hashInsert _ _ _ _ he with he1 | he1
          · subst he1
            exact ⟨rfl, hff ▸ hf, hh⟩
          · cases hold : hashValue st.mFileDefines st.mFileName with
            | none => rw [hold] at he1; cases he1
            | some old =>
              rw [hold] at he1
              exact hff ▸ hB st.mFileName old hold e he1
        · exact hB f bucket hb e he

/-- Function `handleUndefine` keeps the invariant. -/
theorem TablesInv_handleUndefine (st : CppPreprocessor) (line : QString)
    (hinv : TablesInv st) : TablesInv (handleUndefine st line) := by
  obtain ⟨hA, hB, hC⟩ := hinv
  unfold handleUndefine
  simp only
  split
  · exact ⟨hA, hB, hC⟩
  · rename_i define hdef
    split_ifs with hfile
    · refine ⟨?_, ?_, hC⟩
      · intro k d hk
        simp only [getDefine, hashValue_hashRemove] at hk
        split_ifs at hk with hkk
        obtain ⟨hdn, hback⟩ := hA k d hk
        refine ⟨hdn, fun hsoft => ?_⟩
        obtain ⟨bucket, hb1, hb2⟩ := hback hsoft
        simp only [hashValue_hashModify]
        by_cases hf2 : st.mFileName = d.filename
        · refine ⟨hashRemove bucket (trimmed (midFrom line 5)),
            by rw [if_pos hf2, hb1]; rfl, ?_⟩
          rw [hashValue_hashRemove, if_neg (by rw [hdn]; exact hkk)]
          exact hb2
        · exact ⟨bucket, by rw [if_neg hf2]; exact hb1, hb2⟩
      · intro f bucket hb e he
        simp only [hashValue_hashModify] at hb
        split_ifs at hb with hff
        · cases hold : hashValue st.mFileDefines f with
          | none => rw [hold] at hb; cases hb
          | some old =>
            rw [hold] at hb
            simp only [Option.map_some', Option.some.injEq] at hb
            subst hb
            exact hB f old hold e (mem_hashRemove _ _ _ he)
        · exact hB f bucket hb e he
    · refine ⟨?_, hB, hC⟩
      intro k d hk
      simp only [getDefine, hashValue_hashRemove] at hk
      split_ifs at hk with hkk
      exact hA k d hk

/-- Function `invalidDefinesInFile` keeps the invariant. -/
theorem TablesInv_invalidDefinesInFile (st : CppPreprocessor) (f : QString)
    (hinv : TablesInv st) : TablesInv (invalidDefinesInFile st f) := by
  obtain ⟨hA, hB, hC⟩ := hinv
  unfold invalidDefinesInFile
  cases hf : hashValue st.mFileDefines f with
  | none => exact ⟨hA, hB, hC⟩
  | some defineMap =>
    simp only
    refine ⟨?_, ?_, hC⟩
    · intro k d hk
      simp only [getDefine] at hk
      have hold : getDefine st.mDefines k = some d := by
        rcases invalidDefinesLoop_lookup defineMap st.mDefines k with h1 | h1
        · rw [h1] at hk; exact hk
        · rw [h1] at hk; cases hk
      obtain ⟨hdn, hback⟩ := hA k d hold
      refine ⟨hdn, fun hsoft => ?_⟩
      obtain ⟨bucket, hb1, hb2⟩ := hback hsoft
      have hne : f ≠ d.filename := by
        intro heq
        rw [← heq, hf] at hb1
        cases hb1
        have hmem := hashValue_mem_key _ _ _ hb2
        have := invalidDefinesLoop_removed defineMap st.mDefines (d.name, d) hmem
        simp only at this
        rw [hdn] at this
        exact this hk
      exact ⟨bucket, by rw [hashValue_hashRemove, if_neg hne]; exact hb1, hb2⟩
    · intro g bucket hb e he
      rw [hashValue_hashRemove] at hb
      split_ifs at hb
      exact hB g bucket hb e he

/-- Function `resetDefines` keeps the invariant. -/
theorem TablesInv_resetDefines (st : CppPreprocessor) (hinv : TablesInv st) :
    TablesInv (resetDefines st) := by
  obtain ⟨_, hB, hC⟩ := hinv
  refine ⟨?_, hB, hC⟩
  intro k d hk
  simp only [resetDefines, getDefine, hashValue_hashInsertAll] at hk
  cases hh : hashValue st.mHardDefines k with
  | none => rw [hh] at hk; cases hk
  | some v =>
    rw [hh] at hk
    cases hk
    obtain ⟨h1, h2⟩ := hC k d hh
    exact ⟨h1, fun hsoft => by rw [h2] at hsoft; cases hsoft⟩

theorem MergeFrom_refl (st : CppPreprocessor) : MergeFrom st st :=
  ⟨rfl, rfl, fun _ _ h => Or.inl h⟩

theorem MergeFrom_trans {a b c : CppPreprocessor} (h1 : MergeFrom a b) (h2 : MergeFrom b c) :
    MergeFrom a c := by
  refine ⟨h2.1.trans h1.1, h2.2.1.trans h1.2.1, ?_⟩
  intro k d hk
  rcases h2.2.2 k d hk with h | ⟨g, bucket, hg, hb⟩
  · exact h1.2.2 k d h
  · exact Or.inr ⟨g, bucket, by rw [← h1.1]; exact hg, hb⟩

theorem forEachFile_mergeFrom (f : CppPreprocessor → QString → Run CppPreprocessor)
    (hf : ∀ s n s2, BucketsOwn s.mFileDefines → f s n = .ok s2 → MergeFrom s s2)
    (names : List QString) :
    ∀ st st2, BucketsOwn st.mFileDefines → forEachFile f st names = .ok st2 →
      MergeFrom st st2 := by
  induction names with
  | nil =>
    intro st st2 _ h
    simp only [forEachFile] at h
    cases h
    exact MergeFrom_refl st
  | cons n rest ih =>
    intro st st2 hB h
    simp only [forEachFile] at h
    cases hn : f st n with
    | fault e => rw [hn] at h; cases h
    | ok s =>
      rw [hn] at h
      have h1 := hf st n s hB hn
      exact MergeFrom_trans h1 (ih s st2 (by rw [h1.1]; exact hB) h)

/-- Every entry that `addDefinesInFile` leaves in the active table was there before or is the
entry of its key in a bucket; the buckets and the hard macros stay. -/
theorem addDefinesInFile_mergeFrom (fuel : Nat) :
    ∀ st fileName st2, BucketsOwn st.mFileDefines →
      addDefinesInFile fuel st fileName = .ok st2 → MergeFrom st st2 := by
  induction fuel with
  | zero =>
    intro st fileName st2 _ h
    simp only [addDefinesInFile] at h
    cases h
  | succ n ih =>
    intro st fileName st2 hB h
    simp only [addDefinesInFile] at h
    split_ifs at h with hp
    · cases h; exact MergeFrom_refl st
    · split at h
      · cases h
      · rename_i scanned hsc
        split_ifs at h with hs
        · split at h
          · cases h
          · rename_i fileIncludes hentry
            split at h
            · cases h
            · rename_i st3 hloop
              have k1 : MergeFrom { st with mProcessed := fileName :: st.mProcessed } st3 :=
                forEachFile_mergeFrom _ ih _ _ _ hB hloop
              have k0 : MergeFrom st { st with mProcessed := fileName :: st.mProcessed } :=
                ⟨rfl, rfl, fun _ _ h => Or.inl h⟩
              split at h
              · cases h; exact MergeFrom_trans k0 k1
              · rename_i defineList hlist
                cases h
                refine MergeFrom_trans k0 (MergeFrom_trans k1 ⟨rfl, rfl, ?_⟩)
                intro k d hk
                have hB3 : BucketsOwn st3.mFileDefines := by
                  rw [k1.1]; exact hB
                simp only [getDefine] at hk
                rw [foldr_insert_cases defineList st3.mDefines k
                  (fun e he => (hB3 fileName defineList hlist e he).1)] at hk
                cases hb : hashValue defineList k with
                | none => rw [hb] at hk; exact Or.inl hk
                | some v =>
                  rw [hb] at hk
                  cases hk
                  exact Or.inr ⟨fileName, defineList, hlist, hb⟩
        · cases h
          exact ⟨rfl, rfl, fun _ _ h => Or.inl h⟩

/-- Function `addDefinesInFile` keeps the invariant. -/
theorem TablesInv_addDefinesInFile (fuel : Nat) (st st2 : CppPreprocessor) (f : QString)
    (hinv : TablesInv st) (h : addDefinesInFile fuel st f = .ok st2) : TablesInv st2 := by
  obtain ⟨hA, hB, hC⟩ := hinv
  obtain ⟨h1, h2, h3⟩ := addDefinesInFile_mergeFrom fuel st f st2 hB h
  refine ⟨?_, by rw [h1]; exact hB, by rw [h2]; exact hC⟩
  intro k d hk
  rw [h1]
  rcases h3 k d hk with hold | ⟨g, bucket, hg, hb⟩
  · exact hA k d hold
  · obtain ⟨e1, e2, _⟩ := hB g bucket hg (k, d) (hashValue_mem_key bucket k d hb)
    simp only at e1 e2
    refine ⟨e1, fun _ => ⟨bucket, by rw [e2]; exact hg, by rw [e1]; exact hb⟩⟩

/-- Every operation on the macro tables keeps the invariant. -/
theorem TablesInv_runMacroOp (fuel : Nat) (u : Indeterminate) (st st2 : CppPreprocessor)
    (op : MacroOp) (hinv : TablesInv st) (h : runMacroOp fuel u st op = .ok st2) :
    TablesInv st2 := by
  cases op with
  | define name args value hardCoded =>
    exact TablesInv_addDefineByParts u st st2 name args value hardCoded hinv h
  | undefine line =>
    simp only [runMacroOp, Run.ok.injEq] at h
    rw [← h]; exact TablesInv_handleUndefine st line hinv
  | invalidate fileName =>
    simp only [runMacroOp, Run.ok.injEq] at h
    rw [← h]; exact TablesInv_invalidDefinesInFile st fileName hinv
  | merge fileName => exact TablesInv_addDefinesInFile fuel st st2 fileName hinv h
  | resetDefines =>
    simp only [runMacroOp, Run.ok.injEq] at h
    rw [← h]; exact TablesInv_resetDefines st hinv
  | setFile fileName =>
    simp only [runMacroOp, Run.ok.injEq] at h
    rw [← h]; exact hinv
  | setScannedFileList list =>
    simp only [runMacroOp, Run.ok.injEq] at h
    rw [← h]; exact hinv
  | setIncludesList list =>
    simp only [runMacroOp, Run.ok.injEq] at h
    rw [← h]; exact hinv

/-- Every sequence of operations on the macro tables keeps the invariant. -/
theorem TablesInv_runMacroOps (fuel : Nat) (u : Indeterminate) (ops : List MacroOp) :
    ∀ st st2, TablesInv st → runMacroOps fuel u st ops = .ok st2 → TablesInv st2 := by
  induction ops with
  | nil =>
    intro st st2 hinv h
    simp only [runMacroOps, Run.ok.injEq] at h
    rw [← h]; exact hinv
  | cons op rest ih =>
    intro st st2 hinv h
    simp only [runMacroOps] at h
    cases hop : runMacroOp fuel u st op with
    | fault e => rw [hop] at h; cases h
    | ok s =>
      rw [hop] at h
      exact ih s st2 (TablesInv_runMacroOp fuel u st s op hinv hop) h

/-- C40: in every state reached from `clear()` by `addDefineByParts`, `handleUndefine`,
`invalidDefinesInFile`, `addDefinesInFile` and `resetDefines` (and by changes of the current
file and of the host's sets), every macro of the active table that is not hard-coded is the
entry stored under its name in the bucket of its file; so after `invalidDefinesInFile(f)` no
macro of `f` that is not hard-coded is active. -/
theorem soft_macros_backed (fuel : Nat) (u : Indeterminate) (st0 st : CppPreprocessor)
    (ops : List MacroOp) (h : runMacroOps fuel u (clear st0) ops = .ok st) :
    (∀ name d, getDefine st.mDefines name = some d → d.hardCoded = false →
      d.name = name ∧
      ∃ bucket, hashValue st.mFileDefines d.filename = some bucket ∧
        hashValue bucket d.name = some d) ∧
    (∀ f name d, getDefine (invalidDefinesInFile st f).mDefines name = some d →
      d.hardCoded = false → d.filename ≠ f) := by
  have hinv := TablesInv_runMacroOps fuel u ops (clear st0) st (TablesInv_clear st0) h
  refine ⟨fun name d hd hsoft => ⟨(hinv.1 name d hd).1, (hinv.1 name d hd).2 hsoft⟩, ?_⟩
  intro f name d hd hsoft hfile
  obtain ⟨bucket, hb, _⟩ := ((TablesInv_invalidDefinesInFile st f hinv).1 name d hd).2 hsoft
  rw [hfile] at hb
  unfold invalidDefinesInFile at hb
  cases hf : hashValue st.mFileDefines f with
  | none =>
    rw [hf] at hb
    simp only at hb
    rw [hf] at hb
    cases hb
  | some defineMap =>
    rw [hf] at hb
    simp only [hashValue_hashRemove, if_true] at hb
    cases hb

/-- Witness of C40: after `tableOps` the active `X` is the entry of `X` in the bucket of
`a.h`, and after `invalidDefinesInFile` of `a.h` it is not active. -/
theorem soft_macros_backed_witness :
    runMacroOps 3 ⟨0, 0, ' '⟩ (clear {}) tableOps = .ok tableOpsState ∧
    getDefine tableOpsState.mDefines "X".toList = some (xDefine "a.h".toList "1".toList) ∧
    (∃ bucket, hashValue tableOpsState.mFileDefines "a.h".toList = some bucket ∧
      hashValue bucket "X".toList = some (xDefine "a.h".toList "1".toList)) ∧
    getDefine (invalidDefinesInFile tableOpsState "a.h".toList).mDefines "X".toList = none :=
  ⟨by rfl, by rfl,
   ((soft_macros_backed 3 ⟨0, 0, ' '⟩ {} tableOpsState tableOps (by rfl)).1 "X".toList
      (xDefine "a.h".toList "1".toList) (by rfl) (by rfl)).2,
   by rfl⟩

/-! ## What the directives leave alone: theorems -/

theorem KeepsFrames_same (st : CppPreprocessor) : KeepsFrames st st := ⟨rfl, rfl, rfl⟩

theorem KeepsFrames_step {a b c : CppPreprocessor} (h1 : KeepsFrames a b)
    (h2 : KeepsFrames b c) : KeepsFrames a c :=
  ⟨h2.1.trans h1.1, h2.2.1.trans h1.2.1, h2.2.2.trans h1.2.2⟩

theorem forEachFile_frames (f : CppPreprocessor → QString → Run CppPreprocessor)
    (hf : ∀ s n s2, f s n = .ok s2 → KeepsFrames s s2) (names : List QString) :
    ∀ st st2, forEachFile f st names = .ok st2 → KeepsFrames st st2 := by
  induction names with
  | nil =>
    intro st st2 h
    simp only [forEachFile] at h
    cases h
    exact KeepsFrames_same st
  | cons n rest ih =>
    intro st st2 h
    simp only [forEachFile] at h
    cases hn : f st n with
    | fault e => rw [hn] at h; cases h
    | ok s =>
      rw [hn] at h
      exact KeepsFrames_step (hf st n s hn) (ih s st2 h)

/-- Function `addDefinesInFile` changes neither the include stack nor the registry nor the
output. -/
theorem addDefinesInFile_frames (fuel : Nat) :
    ∀ st fileName st2, addDefinesInFile fuel st fileName = .ok st2 → KeepsFrames st st2 := by
  induction fuel with
  | zero =>
    intro st fileName st2 h
    simp only [addDefinesInFile] at h
    cases h
  | succ n ih =>
    intro st fileName st2 h
    simp only [addDefinesInFile] at h
    split_ifs at h with hp
    · cases h; exact KeepsFrames_same st
    · split at h
      · cases h
      · rename_i scanned hsc
        split_ifs at h with hs
        · split at h
          · cases h
          · rename_i fileIncludes hentry
            split at h
            · cases h
            · rename_i st3 hloop
              have k1 : KeepsFrames { st with mProcessed := fileName :: st.mProcessed } st3 :=
                forEachFile_frames _ ih _ _ _ hloop
              have k0 : KeepsFrames st { st with mProcessed := fileName :: st.mProcessed } :=
                ⟨rfl, rfl, rfl⟩
              split at h
              · cases h; exact KeepsFrames_step k0 k1
              · cases h
                exact KeepsFrames_step k0 (KeepsFrames_step k1 ⟨rfl, rfl, rfl⟩)
        · cases h
          exact ⟨rfl, rfl, rfl⟩

theorem addDefineByParts_frames (u : Indeterminate) (st st2 : CppPreprocessor)
    (name args value : QString) (hardCoded : Bool)
    (h : addDefineByParts u st name args value hardCoded = .ok st2) : KeepsFrames st st2 := by
  simp only [addDefineByParts] at h
  split at h
  · cases h
  · split_ifs at h <;> cases h <;> exact ⟨rfl, rfl, rfl⟩

theorem handleDefine_frames (u : Indeterminate) (st st2 : CppPreprocessor) (line : QString)
    (h : handleDefine u st line = .ok st2) : KeepsFrames st st2 := by
  simp only [handleDefine] at h
  split_ifs at h with hb
  · split at h
    · cases h
    · rename_i st1 h1
      have k1 : KeepsFrames st st1 := by
        simp only [addDefineByLine] at h1
        split at h1
        · cases h1
        · exact addDefineByParts_frames _ _ _ _ _ _ _ h1
      split_ifs at h
      cases h
      exact ⟨k1.1, k1.2.1, by simp [k1.2.2]⟩
  · cases h; exact KeepsFrames_same st

theorem handleUndefine_frames (st : CppPreprocessor) (line : QString) :
    KeepsFrames st (handleUndefine st line) := by
  simp only [handleUndefine]
  split
  · exact KeepsFrames_same st
  · split_ifs <;> exact ⟨rfl, rfl, rfl⟩

theorem handleBranch_frames (fuel : Nat) (u : Indeterminate) (step : Int)
    (st st2 : CppPreprocessor) (line : QString)
    (h : handleBranch fuel u step st line = .ok st2) : KeepsFrames st st2 := by
  simp only [handleBranch] at h
  repeat' split at h
  all_goals first
    | (cases h; exact ⟨rfl, rfl, rfl⟩)
    | cases h

/-- The loop of `skipToPreprocessor` appends one output entry per line the cursor passes. -/
theorem skipToPreprocessorLoop_count (maxDepth : Nat) (mDefines : DefineMap) (active : Bool) :
    ∀ (ls : List QString) (mIndex : Nat) (mResult : List QString),
      mIndex ≤ (skipToPreprocessorLoop maxDepth mDefines active ls mIndex mResult).1 ∧
      (skipToPreprocessorLoop maxDepth mDefines active ls mIndex mResult).2.length + mIndex
        = mResult.length +
          (skipToPreprocessorLoop maxDepth mDefines active ls mIndex mResult).1 := by
  intro ls
  induction ls with
  | nil => intro mIndex mResult; simp [skipToPreprocessorLoop]
  | cons a rest ih =>
    intro mIndex mResult
    by_cases ha : a.head? = some '#'
    · simp [skipToPreprocessorLoop, ha]
    · have hr := ih (mIndex + 1)
        (mResult ++ [if active then expandMacros maxDepth mDefines a 1 else []])
      simp only [List.length_append, List.length_singleton] at hr
      simp only [skipToPreprocessorLoop, ha, if_false]
      omega

/-- Function `getNextPreprocessor` adds one output entry per line the cursor passes, and
leaves the include stack and the registry alone. -/
theorem getNextPreprocessor_count (maxDepth : Nat) (st st2 : CppPreprocessor) (s : QString)
    (h : getNextPreprocessor maxDepth st = .ok (s, st2)) :
    KeepsFrames st { st2 with mResult := st.mResult } ∧ st.mIndex ≤ st2.mIndex ∧
    st2.mResult.length = st.mResult.length + (st2.mIndex - st.mIndex) := by
  have hc := skipToPreprocessorLoop_count maxDepth st.mDefines (getCurrentBranch st)
    (st.mBuffer.drop st.mIndex) st.mIndex st.mResult
  simp only [getNextPreprocessor] at h
  split_ifs at h with hge
  · simp only [Run.ok.injEq, Prod.mk.injEq] at h
    rw [← h.2]
    simp only [skipToPreprocessor] at hc ⊢
    exact ⟨⟨rfl, rfl, rfl⟩, hc.1, by omega⟩
  · split at h
    · cases h
    · rename_i r res hasm
      have hlen := assembleDirective_length _ _ _ _ _ _ _ hasm
      simp only [Run.ok.injEq, Prod.mk.injEq] at h
      rw [← h.2]
      simp only [skipToEndOfPreprocessor, skipToPreprocessor] at hlen hc ⊢
      exact ⟨⟨rfl, rfl, rfl⟩, by omega, by omega⟩

/-! ## The registry of include records: theorems -/

theorem RecordsGrow_same (list : List (QString × FileIncludes)) : RecordsGrow list list :=
  fun _ r h => ⟨r, h, fun _ hx => hx⟩

theorem RecordsGrow_step {a b c : List (QString × FileIncludes)} (h1 : RecordsGrow a b)
    (h2 : RecordsGrow b c) : RecordsGrow a c := by
  intro k r h
  obtain ⟨r2, hb, g2⟩ := h1 k r h
  obtain ⟨r3, hc, g3⟩ := h2 k r2 hb
  exact ⟨r3, hc, fun x hx => g3 x (g2 x hx)⟩

/-- A change of one record that drops no entry lets the registry grow. -/
theorem recordModify_grows (list list2 : List (QString × FileIncludes)) (file : QString)
    (f : FileIncludes → FileIncludes)
    (hf : ∀ fi x, (hashValue fi.includeFiles x).isSome = true →
      (hashValue (f fi).includeFiles x).isSome = true)
    (h : recordModify list file f = .ok list2) : RecordsGrow list list2 := by
  simp only [recordModify] at h
  split_ifs at h
  cases h
  intro k r hk
  rw [hashValue_hashModify]
  split_ifs with hkk
  · exact ⟨f r, by rw [hk]; rfl, hf r⟩
  · exact ⟨r, hk, fun _ hx => hx⟩

theorem recordModify_value (list list2 : List (QString × FileIncludes)) (file : QString)
    (f : FileIncludes → FileIncludes) (h : recordModify list file f = .ok list2) :
    ∃ r, hashValue list file = some r ∧ hashValue list2 file = some (f r) := by
  simp only [recordModify] at h
  split_ifs at h with hs
  cases h
  obtain ⟨r, hr⟩ := Option.isSome_iff_exists.mp hs
  refine ⟨r, hr, ?_⟩
  rw [hashValue_hashModify, if_pos rfl, hr]
  rfl

theorem recordModifyEach_grows (f : FileIncludes → FileIncludes)
    (hf : ∀ fi x, (hashValue fi.includeFiles x).isSome = true →
      (hashValue (f fi).includeFiles x).isSome = true) :
    ∀ (stack : List ParsedFile) (list list2 : List (QString × FileIncludes)),
      recordModifyEach f stack list = .ok list2 → RecordsGrow list list2 := by
  intro stack
  induction stack with
  | nil =>
    intro list list2 h
    simp only [recordModifyEach] at h
    cases h
    exact RecordsGrow_same list
  | cons p rest ih =>
    intro list list2 h
    simp only [recordModifyEach] at h
    split at h
    · cases h
    · rename_i l1 h1
      exact RecordsGrow_step (recordModify_grows _ _ _ f hf h1) (ih _ _ h)

theorem hashInsert_lists {β : Type} (m : List (QString × β)) (k x : QString) (v : β)
    (h : (hashValue m x).isSome = true) : (hashValue (hashInsert m k v) x).isSome = true := by
  rw [hashValue_hashInsert]
  split_ifs
  · rfl
  · exact h

theorem hashInsertAll_lists {β : Type} (m other : List (QString × β)) (x : QString)
    (h : (hashValue m x).isSome = true) : (hashValue (hashInsertAll m other) x).isSome = true := by
  rw [hashValue_hashInsertAll]
  split
  · rfl
  · exact h

theorem modifyLast_names (g : ParsedFile → ParsedFile) (hg : ∀ p, (g p).fileName = p.fileName) :
    ∀ l : List ParsedFile,
      (modifyLast g l).map (fun p => p.fileName) = l.map (fun p => p.fileName) := by
  intro l
  induction l with
  | nil => rfl
  | cons a rest ih =>
    cases rest with
    | nil => simp [modifyLast, hg]
    | cons b rest2 =>
      simp only [modifyLast, List.map_cons] at ih ⊢
      rw [ih]

/-- What the first part of `openInclude` does to the registry and the stack when it lets the
file in: the records grow, the frames keep their names, and the record of the outermost file
lists the new file. -/
theorem openIncludeRecord_grows (st : CppPreprocessor) (list list1 : List (QString × FileIncludes))
    (fileName : QString) (inc1 : List ParsedFile)
    (h : openIncludeRecord st list fileName = .ok (some (list1, inc1))) :
    RecordsGrow list list1 ∧
    inc1.map (fun p => p.fileName) = st.mIncludes.map (fun p => p.fileName) ∧
    (∀ top, st.mIncludes.head? = some top →
      ∃ r, hashValue list1 top.fileName = some r ∧
        (hashValue r.includeFiles fileName).isSome = true) := by
  have hins : ∀ b (fi : FileIncludes) x, (hashValue fi.includeFiles x).isSome = true →
      (hashValue ({ fi with includeFiles := hashInsert fi.includeFiles fileName b } :
        FileIncludes).includeFiles x).isSome = true :=
    fun b fi x hx => hashInsert_lists fi.includeFiles fileName x b hx
  simp only [openIncludeRecord] at h
  split at h
  · rename_i topFile inner htop hlast
    split at h
    · cases h
    · rename_i topRec hrec
      split_ifs at h with hguard
      · cases h
      split at h
      · cases h
      · rename_i l1 hl1
        split at h
        · cases h
        · rename_i l2 hl2
          simp only [Run.ok.injEq, Option.some.injEq, Prod.mk.injEq] at h
          obtain ⟨e1, e2⟩ := h
          subst e1 e2
          have g2 := recordModify_grows _ _ _ _ (hins true) hl2
          have g1 := recordModifyEach_grows _ (hins false) _ _ _ hl1
          refine ⟨RecordsGrow_step g1 g2,
            modifyLast_names
              (fun p => { p with index := st.mIndex, branches := st.mBranchResults.length })
              (fun _ => rfl) st.mIncludes, ?_⟩
          intro top ht
          rw [htop] at ht
          cases ht
          obtain ⟨rest, hst⟩ : ∃ rest, st.mIncludes = topFile :: rest := by
            cases hm : st.mIncludes with
            | nil => rw [hm] at htop; cases htop
            | cons a rest => rw [hm] at htop; cases htop; exact ⟨rest, rfl⟩
          rw [hst] at hl1
          simp only [recordModifyEach] at hl1
          split at hl1
          · cases hl1
          · rename_i l0 hl0
            obtain ⟨r0, _, hr0⟩ := recordModify_value _ _ _ _ hl0
            have g0 := recordModifyEach_grows _ (hins false) _ _ _ hl1
            obtain ⟨r, hr, gr⟩ := RecordsGrow_step g0 g2 _ _ hr0
            refine ⟨r, hr, gr fileName ?_⟩
            show (hashValue (hashInsert r0.includeFiles fileName false) fileName).isSome = true
            rw [hashValue_hashInsert, if_pos rfl]
            rfl
  · rename_i hno
    simp only [Run.ok.injEq, Option.some.injEq, Prod.mk.injEq] at h
    obtain ⟨e1, e2⟩ := h
    subst e1 e2
    refine ⟨RecordsGrow_same _, rfl, ?_⟩
    intro top ht
    exfalso
    cases hm : st.mIncludes with
    | nil => rw [hm] at ht; cases ht
    | cons a rest =>
      exact hno top ((a :: rest).getLast (by simp)) ht
        (by rw [hm]; exact List.getLast?_eq_getLast _ (by simp))

theorem RecordsGrow_isSome {a b : List (QString × FileIncludes)} (h : RecordsGrow a b)
    (k : QString) (hk : (hashValue a k).isSome = true) : (hashValue b k).isSome = true := by
  obtain ⟨r, hr⟩ := Option.isSome_iff_exists.mp hk
  obtain ⟨r2, h2, _⟩ := h k r hr
  rw [h2]; rfl

/-- The record that `openInclude` makes for a file without one. -/
theorem RecordsGrow_newRecord (list : List (QString × FileIncludes)) (fileName : QString) :
    RecordsGrow list
      (if (hashValue list fileName).isSome = true then list
       else hashInsert list fileName { baseFile := fileName, includeFiles := [] }) ∧
    (hashValue
      (if (hashValue list fileName).isSome = true then list
       else hashInsert list fileName { baseFile := fileName, includeFiles := [] })
      fileName).isSome = true := by
  split_ifs with hs
  · exact ⟨RecordsGrow_same list, hs⟩
  · refine ⟨?_, by rw [hashValue_hashInsert, if_pos rfl]; rfl⟩
    intro k r hk
    rw [hashValue_hashInsert]
    split_ifs with hkk
    · subst hkk
      rw [hk] at hs
      exact absurd rfl hs
    · exact ⟨r, hk, fun _ hx => hx⟩

/-- What `openInclude` does when it returns: nothing at all, or the records grow, the file
has a record, a frame for it is on top of the frames that were open, the record of the
outermost file lists it, and the output has one entry more for the outermost file and as
many as before for an included file. -/
theorem openInclude_push (fuel : Nat) (host : Host) (st st2 : CppPreprocessor)
    (fileName : QString) (bufferedText : List QString)
    (h : openInclude fuel host st fileName bufferedText = .ok st2) :
    (st2 = st ∧ st.mIncludes ≠ []) ∨
    ∃ list list2, st.mIncludesList = some list ∧ st2.mIncludesList = some list2 ∧
      RecordsGrow list list2 ∧ (hashValue list2 fileName).isSome = true ∧
      st2.mIncludes.map (fun p => p.fileName) =
        st.mIncludes.map (fun p => p.fileName) ++ [fileName] ∧
      (∀ top, st.mIncludes.head? = some top →
        ∃ r, hashValue list2 top.fileName = some r ∧
          (hashValue r.includeFiles fileName).isSome = true) ∧
      st2.mResult.length = st.mResult.length + (if st.mIncludes = [] then 1 else 0) ∧
      st2.mIndex = 0 ∧
      ∀ scanned, st.mScannedFiles = some scanned →
        st2.mBuffer = removeComments
          (if bufferedText ≠ [] ∨ fileName ∉ scanned then
            loadedLines host st fileName bufferedText else []) := by
  simp only [openInclude] at h
  split at h
  · cases h
  · rename_i list hlist
    split at h
    · cases h
    · rename_i hnone
      cases h
      refine Or.inl ⟨rfl, ?_⟩
      intro he
      simp [openIncludeRecord, he] at hnone
    · rename_i l1 inc1 hrec
      obtain ⟨g1, hnames, htop⟩ := openIncludeRecord_grows st list l1 fileName inc1 hrec
      obtain ⟨gnew, hnew⟩ := RecordsGrow_newRecord l1 fileName
      right
      split at h
      · cases h
      · rename_i scanned hscan
        split at h
        · cases h
        · rename_i st3 buffer hloaded
          have key : st3.mIncludes.map (fun p => p.fileName) =
                st.mIncludes.map (fun p => p.fileName) ∧
              st3.mResult.length = st.mResult.length ∧
              buffer = (if bufferedText ≠ [] ∨ fileName ∉ scanned then
                loadedLines host st fileName bufferedText else []) ∧
              ∃ l3, st3.mIncludesList = some l3 ∧ RecordsGrow l1 l3 ∧
                (hashValue l3 fileName).isSome = true := by
            generalize (if (hashValue l1 fileName).isSome = true then l1
              else hashInsert l1 fileName { baseFile := fileName, includeFiles := [] }) = l1n
              at hloaded gnew hnew
            generalize (if fileName ∈ scanned then scanned else fileName :: scanned) = sc
              at hloaded
            split_ifs at hloaded with hfresh hparse hbuf
            · cases hloaded
              exact ⟨hnames, rfl, by simp only [loadedLines, if_pos hfresh, if_pos hparse,
                if_pos hbuf], _, rfl, gnew, hnew⟩
            · cases hloaded
              exact ⟨hnames, rfl, by simp only [loadedLines, if_pos hfresh, if_pos hparse,
                if_neg hbuf], _, rfl, gnew, hnew⟩
            · cases hloaded
              exact ⟨hnames, rfl, by simp only [loadedLines, if_pos hfresh, if_neg hparse],
                _, rfl, gnew, hnew⟩
            · split at hloaded
              · cases hloaded
              · rename_i st4 hmerge
                have k4 := addDefinesInFile_frames fuel _ _ _ hmerge
                split at hloaded
                · cases hloaded
                · rename_i l4 hl4
                  split at hloaded
                  · cases hloaded
                  · rename_i fi hfi
                    split at hloaded
                    · cases hloaded
                    · rename_i l5 hl5
                      cases hloaded
                      have e4 : some l4 = some _ := hl4.symm.trans k4.2.1
                      cases e4
                      have g5 := recordModifyEach_grows _
                        (fun f x hx => hashInsertAll_lists f.includeFiles fi.includeFiles x hx)
                        _ _ _ hl5
                      refine ⟨?_, k4.2.2, by simp only [if_neg hfresh], l5, rfl,
                        RecordsGrow_step gnew g5, RecordsGrow_isSome g5 _ hnew⟩
                      show st4.mIncludes.map (fun p => p.fileName) = _
                      rw [k4.1]
                      exact hnames
          obtain ⟨hn3, hr3, hb3, l3, hl3, g3, hs3⟩ := key
          have hbuf : ∀ sc, st.mScannedFiles = some sc →
              removeComments buffer = removeComments
                (if bufferedText ≠ [] ∨ fileName ∉ sc then
                  loadedLines host st fileName bufferedText else []) := by
            intro sc hsc
            rw [hscan] at hsc
            cases hsc
            rw [hb3]
          have hlen : st3.mIncludes.length = st.mIncludes.length := by
            have := congrArg List.length hn3
            simpa using this
          have htop3 : ∀ top, st.mIncludes.head? = some top →
              ∃ r, hashValue l3 top.fileName = some r ∧
                (hashValue r.includeFiles fileName).isSome = true := by
            intro top ht
            obtain ⟨r, hr, hin⟩ := htop top ht
            obtain ⟨r2, hr2, gr⟩ := g3 _ _ hr
            exact ⟨r2, hr2, gr _ hin⟩
          split_ifs at h with hgt hslot
          · cases h
            refine ⟨list, l3, hlist, hl3, RecordsGrow_step g1 g3, hs3, ?_, htop3, ?_, rfl,
              hbuf⟩
            · simp [hn3]
            · have hne : st.mIncludes ≠ [] := by
                intro he
                rw [he] at hlen
                simp [List.length_eq_zero.mp hlen] at hgt
              simp [hne, hr3]
          · cases h
            refine ⟨list, l3, hlist, hl3, RecordsGrow_step g1 g3, hs3, ?_, htop3, ?_, rfl,
              hbuf⟩
            · simp [hn3]
            · have he : st.mIncludes = [] := by
                simp only [List.length_append, List.length_singleton, gt_iff_lt] at hgt
                exact List.length_eq_zero.mp (by omega)
              simp [he, hr3]

/-! ## The frames of the include stack: theorems -/

/-- Function `closeInclude` takes the innermost frame off the stack, leaves the registry
alone and appends one entry to the output when a frame is left. -/
theorem closeInclude_stack (st : CppPreprocessor) :
    (closeInclude st).mIncludes = st.mIncludes.dropLast ∧
    (closeInclude st).mIncludesList = st.mIncludesList ∧
    (closeInclude st).mResult.length =
      st.mResult.length + (if (closeInclude st).mIncludes ≠ [] then 1 else 0) := by
  by_cases he : st.mIncludes = []
  · simp [closeInclude, he]
  · cases hl : st.mIncludes.dropLast.getLast? with
    | none =>
      have hd : st.mIncludes.dropLast = [] := List.getLast?_eq_none_iff.mp hl
      simp [closeInclude, he, hl, hd]
    | some pf =>
      have hd : st.mIncludes.dropLast ≠ [] := by
        intro h
        rw [h] at hl
        cases hl
      simp [closeInclude, he, hl, hd]

/-- The invariant goes over to a state with the same frames and a grown registry. -/
theorem FramesListed_grow (st st2 : CppPreprocessor) (list list2 : List (QString × FileIncludes))
    (hinv : FramesListed st) (hn : st2.mIncludes.map (fun p => p.fileName) =
      st.mIncludes.map (fun p => p.fileName))
    (hl : st.mIncludesList = some list) (hl2 : st2.mIncludesList = some list2)
    (g : RecordsGrow list list2) : FramesListed st2 := by
  intro top rest hs
  rw [hn] at hs
  obtain ⟨l, r, hl0, hr, hall⟩ := hinv top rest hs
  rw [hl] at hl0
  cases hl0
  obtain ⟨r2, hr2, gr⟩ := g _ _ hr
  exact ⟨list2, r2, hl2, hr2, fun x hx => gr x (hall x hx)⟩

theorem FramesListed_keeps (st st2 : CppPreprocessor) (hinv : FramesListed st)
    (k : KeepsFrames st st2) : FramesListed st2 := by
  intro top rest hs
  rw [k.1] at hs
  obtain ⟨l, r, hl0, hr, hall⟩ := hinv top rest hs
  exact ⟨l, r, k.2.1.trans hl0, hr, hall⟩

/-- Function `openInclude` keeps the invariant: the file it enters is listed in the record of
the outermost file. -/
theorem openInclude_listed (fuel : Nat) (host : Host) (st st2 : CppPreprocessor)
    (fileName : QString) (bufferedText : List QString) (hinv : FramesListed st)
    (h : openInclude fuel host st fileName bufferedText = .ok st2) : FramesListed st2 := by
  rcases openInclude_push fuel host st st2 fileName bufferedText h with
    ⟨rfl, _⟩ | ⟨list, list2, hl, hl2, g, hs, hn, htop, _⟩
  · exact hinv
  · intro top rest hstack
    rw [hn] at hstack
    cases hm : st.mIncludes with
    | nil =>
      rw [hm] at hstack
      simp only [List.map_nil, List.nil_append, List.cons.injEq] at hstack
      obtain ⟨e1, e2⟩ := hstack
      subst e1 e2
      obtain ⟨r, hr⟩ := Option.isSome_iff_exists.mp hs
      exact ⟨list2, r, hl2, hr, fun x hx => by cases hx⟩
    | cons a others =>
      rw [hm] at hstack
      simp only [List.map_cons, List.cons_append, List.cons.injEq] at hstack
      obtain ⟨e1, e2⟩ := hstack
      subst e1 e2
      obtain ⟨l, r, hl0, hr, hall⟩ := hinv a.fileName (others.map fun p => p.fileName)
        (by rw [hm]; rfl)
      rw [hl] at hl0
      cases hl0
      obtain ⟨r2, hr2, gr⟩ := g _ _ hr
      obtain ⟨r3, hr3, hin⟩ := htop a (by rw [hm]; rfl)
      rw [hr2] at hr3
      cases hr3
      refine ⟨list2, r2, hl2, hr2, ?_⟩
      intro x hx
      rcases List.mem_append.mp hx with hx | hx
      · exact gr x (hall x hx)
      · simp only [List.mem_singleton] at hx
        subst hx
        exact hin

/-- Function `handleInclude` keeps the invariant and the number of output entries, and takes
no frame off the include stack. -/
theorem handleInclude_listed (fuel : Nat) (host : Host) (st st2 : CppPreprocessor)
    (line : QString) (h : handleInclude fuel host st line = .ok st2) :
    (FramesListed st → FramesListed st2) ∧ st2.mResult.length = st.mResult.length ∧
    st.mIncludes.length ≤ st2.mIncludes.length := by
  simp only [handleInclude] at h
  split_ifs at h with hb
  · cases h; exact ⟨id, rfl, Nat.le_refl _⟩
  · split at h
    · cases h
    · rename_i file hfile
      split_ifs at h with hname
      · cases h; exact ⟨id, rfl, Nat.le_refl _⟩
      · split at h
        · rename_i current list hcur hlist
          split at h
          · cases h
          · rename_i list1 hmod
            have g := recordModify_grows _ _ _ _
              (fun fi x hx => hashInsert_lists fi.includeFiles _ x true hx) hmod
            have hne : st.mIncludes ≠ [] := by
              intro he
              rw [he] at hfile
              cases hfile
            rcases openInclude_push fuel host _ st2 _ _ h with
              ⟨e, _⟩ | ⟨l, list2, hl, hl2, g2, hs, hn, htop, hlen, _⟩
            · subst e
              exact ⟨fun hinv => FramesListed_grow st { st with mIncludesList := some list1 }
                list list1 hinv rfl hlist rfl g, rfl, Nat.le_refl _⟩
            · refine ⟨fun hinv => ?_, ?_, ?_⟩
              · exact openInclude_listed fuel host _ st2 _ _
                  (FramesListed_grow st { st with mIncludesList := some list1 } list list1
                    hinv rfl hlist rfl g) h
              · simpa [hne] using hlen
              · have := congrArg List.length hn
                simp only [List.length_map, List.length_append, List.length_singleton] at this
                omega
        · cases h

/-- Function `handlePreprocessor` keeps the invariant and the number of output entries, and
takes no frame off the include stack. -/
theorem handlePreprocessor_listed (fuel : Nat) (u : Indeterminate) (step : Int) (host : Host)
    (st st2 : CppPreprocessor) (value : QString)
    (h : handlePreprocessor fuel u step host st value = .ok st2) :
    (FramesListed st → FramesListed st2) ∧ st2.mResult.length = st.mResult.length ∧
    st.mIncludes.length ≤ st2.mIncludes.length := by
  simp only [handlePreprocessor] at h
  split_ifs at h
  · have k := handleDefine_frames u st st2 value h
    exact ⟨fun hinv => FramesListed_keeps st st2 hinv k, k.2.2, by rw [k.1]⟩
  · cases h
    have k := handleUndefine_frames st value
    exact ⟨fun hinv => FramesListed_keeps st _ hinv k, k.2.2, by rw [k.1]⟩
  · have k := handleBranch_frames fuel u step st st2 value h
    exact ⟨fun hinv => FramesListed_keeps st st2 hinv k, k.2.2, by rw [k.1]⟩
  · exact handleInclude_listed fuel host st st2 value h
  · cases h; exact ⟨id, rfl, Nat.le_refl _⟩

/-- The loop of `preprocessFile` with the counters returns the state that `preprocessFile`
returns; the output grows by the lines counted and the include stack by the frames counted. -/
theorem preprocessFile_tally (maxDepth : Nat) (u : Indeterminate) (step : Int) (host : Host) :
    ∀ (fuel : Nat) (st st2 : CppPreprocessor) (t : Tally),
      preprocessFile maxDepth u step host fuel st = .ok st2 →
      ∃ n e, preprocessFileTally maxDepth u step host fuel st t =
          .ok (st2, { lines := t.lines + n, entered := t.entered + e, returns := t.returns }) ∧
        st2.mResult.length = st.mResult.length + n ∧
        st2.mIncludes.length = st.mIncludes.length + e := by
  intro fuel
  induction fuel with
  | zero =>
    intro st st2 t h
    simp only [preprocessFile] at h
    cases h
  | succ k ih =>
    intro st st2 t h
    simp only [preprocessFile] at h
    simp only [preprocessFileTally]
    split at h
    · cases h
    · rename_i s st1 hnext
      obtain ⟨hk, hle, hlen⟩ := getNextPreprocessor_count maxDepth st st1 s hnext
      have hstack : st1.mIncludes = st.mIncludes := hk.1
      split_ifs at h ⊢ with h1 h2 h3
      · split at h
        · cases h
        · rename_i st3 hdir
          obtain ⟨_, hl3, hd3⟩ := handlePreprocessor_listed k u step host st1 st3 _ hdir
          obtain ⟨n, e, hn, hres, hdep⟩ := ih st3 st2
            { lines := t.lines + (st1.mIndex - st.mIndex),
              entered := t.entered + (st3.mIncludes.length - st1.mIncludes.length),
              returns := t.returns } h
          refine ⟨(st1.mIndex - st.mIndex) + n,
            (st3.mIncludes.length - st1.mIncludes.length) + e, ?_, by omega, ?_⟩
          · rw [hn]
            simp only [Nat.add_assoc]
          · rw [hstack] at hd3 ⊢
            omega
      · cases h
        exact ⟨_, 0, rfl, hlen, by rw [hstack]; rfl⟩
      · obtain ⟨n, e, hn, hres, hdep⟩ := ih st1 st2
          { lines := t.lines + (st1.mIndex - st.mIndex), entered := t.entered,
            returns := t.returns } h
        refine ⟨(st1.mIndex - st.mIndex) + n, e, ?_, by omega, by rw [hdep, hstack]⟩
        rw [hn]
        simp only [Nat.add_assoc]
      · cases h
        exact ⟨_, 0, rfl, hlen, by rw [hstack]; rfl⟩

/-- The loop of `preprocessBuffer` with the counters returns the state that `preprocessBuffer`
returns; the output grows by the lines and the returns counted, and from a state with open
files there is one return for every open file but the outermost and for every file entered. -/
theorem preprocessBuffer_tally (maxDepth : Nat) (u : Indeterminate) (step : Int)
    (host : Host) :
    ∀ (fuel : Nat) (st st2 : CppPreprocessor) (t : Tally),
      preprocessBuffer maxDepth u step host fuel st = .ok st2 →
      ∃ n e r, preprocessBufferTally maxDepth u step host fuel st t =
          .ok (st2, { lines := t.lines + n, entered := t.entered + e,
                      returns := t.returns + r }) ∧
        st2.mResult.length = st.mResult.length + n + r ∧
        (st.mIncludes ≠ [] → r + 1 = st.mIncludes.length + e) ∧
        (st.mIncludes = [] → n = 0 ∧ e = 0 ∧ r = 0) := by
  intro fuel
  induction fuel with
  | zero =>
    intro st st2 t h
    simp only [preprocessBuffer] at h
    cases h
  | succ k ih =>
    intro st st2 t h
    simp only [preprocessBuffer] at h
    simp only [preprocessBufferTally]
    split_ifs at h ⊢ with hstack
    · have hne : st.mIncludes ≠ [] := by
        intro he
        rw [he] at hstack
        exact absurd hstack (by decide)
      split at h
      · cases h
      · rename_i st1 hfile
        obtain ⟨n, e, hn, hres, hdep⟩ :=
          preprocessFile_tally maxDepth u step host k st st1 t hfile
        rw [hn]
        simp only
        obtain ⟨hcs, _, hclose⟩ := closeInclude_stack st1
        have hclen : (closeInclude st1).mIncludes.length = st1.mIncludes.length - 1 := by
          rw [hcs, List.length_dropLast]
        by_cases hleft : (closeInclude st1).mIncludes ≠ []
        · obtain ⟨n2, e2, r2, hn2, hres2, hd2, _⟩ := ih (closeInclude st1) st2
            { lines := t.lines + n, entered := t.entered + e, returns := t.returns + 1 } h
          have := hd2 hleft
          refine ⟨n + n2, e + e2, 1 + r2, ?_, ?_, fun _ => by omega,
            fun he => absurd he hne⟩
          · rw [if_pos hleft, hn2]
            simp only [Nat.add_assoc]
          · rw [if_pos hleft] at hclose
            omega
        · obtain ⟨n2, e2, r2, hn2, hres2, _, hd2⟩ := ih (closeInclude st1) st2
            { lines := t.lines + n, entered := t.entered + e, returns := t.returns } h
          have hzero := hd2 (not_not.mp hleft)
          have hl0 : (closeInclude st1).mIncludes.length = 0 := by
            rw [not_not.mp hleft]; rfl
          refine ⟨n + n2, e + e2, r2, ?_, ?_, fun _ => by omega, fun he => absurd he hne⟩
          · rw [if_neg hleft, hn2]
            simp only [Nat.add_assoc]
          · rw [if_neg hleft] at hclose
            omega
    · cases h
      exact ⟨0, 0, 0, rfl, rfl, fun hne => absurd (List.length_pos.mpr hne) hstack,
        fun _ => ⟨rfl, rfl, rfl⟩⟩

theorem includeNames_filter (p : QString × FileIncludes → Bool) :
    ∀ (list : List (QString × FileIncludes)) (k : QString),
      k ∈ includeNames (list.filter p) → k ∈ includeNames list := by
  intro list
  induction list with
  | nil => intro k hk; exact hk
  | cons a rest ih =>
    intro k hk
    simp only [List.filter_cons] at hk
    simp only [includeNames, List.mem_append]
    split_ifs at hk
    · simp only [includeNames, List.mem_append] at hk
      rcases hk with hk | hk
      · exact Or.inl hk
      · exact Or.inr (ih k hk)
    · exact Or.inr (ih k hk)

theorem addDefinesInFile_no_fault (list : List (QString × FileIncludes))
    (scanned : List QString) (names : List QString)
    (hnames : ∀ k ∈ includeNames list, k ∈ names) (fuel : Nat) (st : CppPreprocessor)
    (name : QString) (e : Fault) (hmem : name ∈ names) (hfuel : names.length < fuel)
    (hl : st.mIncludesList = some list) (hs : st.mScannedFiles = some scanned)
    (h : addDefinesInFile fuel st name = .fault e) : False := by
  obtain ⟨st2, h2, _⟩ := addDefinesInFile_returns list scanned names hnames fuel st name hmem
    (Nat.lt_of_le_of_lt (pendingFiles_le names st.mProcessed) hfuel) hl hs
  rw [h2] at h
  cases h

/-- With the registry and the scanned set in place, the first
`openInclude` of a pass returns, for a file new to the pass or not, when the fuel is two more
than the number of include entries of the registry. -/
theorem openInclude_root_returns (fuel : Nat) (host : Host) (st : CppPreprocessor)
    (fileName : QString) (bufferedText : List QString) (list : List (QString × FileIncludes))
    (scanned : List QString) (hstack : st.mIncludes = []) (hl : st.mIncludesList = some list)
    (hs : st.mScannedFiles = some scanned) :
    ∃ st1, openInclude (fuel + (includeNames list).length + 2) host st fileName bufferedText
      = .ok st1 := by
  cases hopen : openInclude (fuel + (includeNames list).length + 2) host st fileName
      bufferedText with
  | ok st1 => exact ⟨st1, rfl⟩
  | fault e =>
    exfalso
    have hnames : ∀ k ∈ includeNames
        (if (hashValue list fileName).isSome = true then list
         else hashInsert list fileName { baseFile := fileName, includeFiles := [] }),
        k ∈ fileName :: includeNames list := by
      intro k hk
      split_ifs at hk
      · exact List.mem_cons_of_mem _ hk
      · simp only [hashInsert, includeNames, List.map_nil, List.nil_append] at hk
        exact List.mem_cons_of_mem _ (includeNames_filter _ _ _ hk)
    obtain ⟨_, hnew⟩ := RecordsGrow_newRecord list fileName
    simp only [openInclude, hl, openIncludeRecord, hstack, List.head?, List.getLast?, hs]
      at hopen
    generalize (if (hashValue list fileName).isSome = true then list
      else hashInsert list fileName { baseFile := fileName, includeFiles := [] }) = l1n
      at hopen hnames hnew
    generalize (if fileName ∈ scanned then scanned else fileName :: scanned) = sc at hopen
    split at hopen
    · rename_i e2 hloaded
      split_ifs at hloaded
      split at hloaded
      · rename_i e3 hmerge
        exact addDefinesInFile_no_fault l1n scanned (fileName :: includeNames list) hnames _ _
          fileName e3 (List.mem_cons_self _ _) (by simp only [List.length_cons]; omega) rfl
          rfl hmerge
      · rename_i st4 hmerge
        have k4 := addDefinesInFile_frames _ _ _ _ hmerge
        have hl4 : st4.mIncludesList = some l1n := k4.2.1
        have hi4 : st4.mIncludes = [] := k4.1
        simp only [hl4, hi4, recordModifyEach] at hloaded
        split at hloaded
        · rename_i hnone
          rw [hnone] at hnew
          cases hnew
        · cases hloaded
    · rename_i st3 buffer hloaded
      have hi3 : st3.mIncludes = [] := by
        split_ifs at hloaded
        · cases hloaded; rfl
        · cases hloaded; rfl
        · cases hloaded; rfl
        · split at hloaded
          · cases hloaded
          · rename_i st4 hmerge
            have k4 := addDefinesInFile_frames _ _ _ _ hmerge
            have hl4 : st4.mIncludesList = some l1n := k4.2.1
            have hi4 : st4.mIncludes = [] := k4.1
            simp only [hl4, hi4, recordModifyEach] at hloaded
            split at hloaded
            · cases hloaded
            · cases hloaded; rfl
      simp [hi3] at hopen

theorem preprocessBufferTally_no_directive (maxDepth : Nat) (u : Indeterminate) (step : Int)
    (host : Host) (fuel : Nat) (st : CppPreprocessor) (pf : ParsedFile) (t : Tally)
    (hi : st.mIncludes = [pf])
    (h : ∀ l ∈ st.mBuffer.drop st.mIndex, l.head? ≠ some '#') :
    preprocessBufferTally maxDepth u step host (fuel + 2) st t =
      .ok ({ skipToPreprocessor maxDepth st with mIncludes := [] },
        { lines := t.lines + ((skipToPreprocessor maxDepth st).mIndex - st.mIndex),
          entered := t.entered, returns := t.returns }) := by
  have h1 : (skipToPreprocessor maxDepth st).mIncludes = [pf] := by
    simp [skipToPreprocessor, hi]
  have h2 : closeInclude (skipToPreprocessor maxDepth st) =
      { skipToPreprocessor maxDepth st with mIncludes := [] } := by
    simp [closeInclude, h1]
  have hfile : preprocessFileTally maxDepth u step host (fuel + 1) st t =
      .ok (skipToPreprocessor maxDepth st,
        { lines := t.lines + ((skipToPreprocessor maxDepth st).mIndex - st.mIndex),
          entered := t.entered, returns := t.returns }) := by
    simp [preprocessFileTally, getNextPreprocessor_no_directive maxDepth st h]
  simp only [preprocessBufferTally, hi, List.length_singleton, gt_iff_lt, Nat.lt_one_iff,
    Nat.zero_lt_one, if_true, hfile, h2]
  simp

/-- C17 (amended): the output has one entry per line visited across the inclusion tree, and
one more per marker.  From any state, when `preprocessBuffer` returns, the run with the
counters returns the same state, the output has grown by the lines visited and the returns
to an including file, and with open files the returns are one for each open file but the
outermost and one for each file entered.  After `preprocess`, the number of entries is the
number of lines visited plus the number of included files entered and left plus one, for the
marker of the root.  For a root file whose stripped lines hold no directive, with the
registry and the scanned set in place, `preprocess` returns, no file is entered, and the
output length is the number of lines loaded for the file plus one. -/
theorem preprocess_output_tally (fuel maxDepth : Nat) (u : Indeterminate) (step : Int)
    (host : Host) (st : CppPreprocessor) (fileName : QString) (buffer : List QString) :
    (∀ st2, preprocessBuffer maxDepth u step host fuel st = .ok st2 →
      ∃ t, preprocessBufferTally maxDepth u step host fuel st
          { lines := 0, entered := 0, returns := 0 } = .ok (st2, t) ∧
        st2.mResult.length = st.mResult.length + t.lines + t.returns ∧
        (st.mIncludes ≠ [] → t.returns + 1 = st.mIncludes.length + t.entered)) ∧
    (∀ st2, preprocess fuel maxDepth u step host st fileName buffer = .ok st2 →
      ∃ t, preprocessTally fuel maxDepth u step host st fileName buffer = .ok (st2, t) ∧
        st2.mResult.length = t.lines + t.returns + 1 ∧ t.returns = t.entered) ∧
    (∀ list scanned, st.mIncludesList = some list → st.mScannedFiles = some scanned →
      (∀ l ∈ removeComments (if buffer ≠ [] ∨ fileName ∉ scanned then
          loadedLines host st fileName buffer else []), l.head? ≠ some '#') →
      ∃ st2,
        preprocess (fuel + (includeNames list).length + 2) maxDepth u step host st fileName
          buffer = .ok st2 ∧
        preprocessTally (fuel + (includeNames list).length + 2) maxDepth u step host st
          fileName buffer =
          .ok (st2,
            { lines := (if buffer ≠ [] ∨ fileName ∉ scanned then
                loadedLines host st fileName buffer else []).length,
              entered := 0, returns := 0 }) ∧
        st2.mResult.length = (if buffer ≠ [] ∨ fileName ∉ scanned then
          loadedLines host st fileName buffer else []).length + 1) := by
  refine ⟨?_, ?_, ?_⟩
  · intro st2 h
    obtain ⟨n, e, r, ht, hlen, hd, _⟩ := preprocessBuffer_tally maxDepth u step host fuel st st2
      { lines := 0, entered := 0, returns := 0 } h
    refine ⟨_, ht, ?_, ?_⟩
    · simp only [Nat.zero_add]; exact hlen
    · simp only [Nat.zero_add]; exact hd
  · intro st2 h
    simp only [preprocess] at h
    simp only [preprocessTally]
    split at h
    · cases h
    · rename_i st1 hopen
      rcases openInclude_push fuel host _ st1 fileName buffer hopen with
        ⟨_, hne⟩ | ⟨_, _, _, _, _, _, hn, _, hlen1, _⟩
      · exact absurd rfl hne
      · have hdepth : st1.mIncludes.length = 1 := by
          have := congrArg List.length hn
          simpa [reset, resetDefines] using this
        have hne1 : st1.mIncludes ≠ [] := by
          intro he
          rw [he] at hdepth
          cases hdepth
        have hl1 : st1.mResult.length = 1 := by
          simpa [reset, resetDefines] using hlen1
        obtain ⟨n, e, r, ht, hlen, hd, _⟩ :=
          preprocessBuffer_tally maxDepth u step host fuel st1 st2
            { lines := 0, entered := 0, returns := 0 } h
        have := hd hne1
        refine ⟨_, ht, ?_, ?_⟩
        · simp only [Nat.zero_add]; omega
        · simp only [Nat.zero_add]; omega
  · intro list scanned hl hs hno
    obtain ⟨st1, hopen⟩ := openInclude_root_returns fuel host
      (reset { st with mFileName := fileName }) fileName buffer list scanned rfl hl hs
    rcases openInclude_push _ host _ st1 fileName buffer hopen with
      ⟨_, hne⟩ | ⟨_, _, _, _, _, _, hn, _, hlen1, hidx, hbuf⟩
    · exact absurd rfl hne
    · have hdepth : st1.mIncludes.length = 1 := by
        have := congrArg List.length hn
        simpa [reset, resetDefines] using this
      obtain ⟨pf, hpf⟩ : ∃ pf, st1.mIncludes = [pf] := by
        match hm : st1.mIncludes, hdepth with
        | [pf], _ => exact ⟨pf, rfl⟩
      have hl1 : st1.mResult.length = 1 := by
        simpa [reset, resetDefines] using hlen1
      have hb1 : st1.mBuffer = removeComments (if buffer ≠ [] ∨ fileName ∉ scanned then
          loadedLines host st fileName buffer else []) := hbuf scanned hs
      have hno1 : ∀ l ∈ st1.mBuffer.drop st1.mIndex, l.head? ≠ some '#' := by
        rw [hidx, List.drop_zero, hb1]
        exact hno
      have hskip := skipToPreprocessorLoop_all maxDepth st1.mDefines (getCurrentBranch st1)
        (st1.mBuffer.drop st1.mIndex) st1.mIndex st1.mResult hno1
      have hcount : (st1.mBuffer.drop st1.mIndex).length =
          (if buffer ≠ [] ∨ fileName ∉ scanned then
            loadedLines host st fileName buffer else []).length := by
        rw [hidx, List.drop_zero, hb1]
        exact removeCommentsLines_length _ _ _
      refine ⟨{ skipToPreprocessor maxDepth st1 with mIncludes := [] }, ?_, ?_, ?_⟩
      · simp only [preprocess, hopen]
        exact preprocessBuffer_no_directive maxDepth u step host _ st1 pf hpf hno1
      · simp only [preprocessTally, hopen]
        rw [preprocessBufferTally_no_directive maxDepth u step host _ st1 pf _ hpf hno1]
        have hi : (skipToPreprocessor maxDepth st1).mIndex - st1.mIndex =
            (if buffer ≠ [] ∨ fileName ∉ scanned then
              loadedLines host st fileName buffer else []).length := by
          simp only [skipToPreprocessor]
          rw [hskip.1, hcount]
          omega
        rw [hi]
        simp only [Nat.zero_add]
      · simp only [skipToPreprocessor]
        rw [hskip.2.1, hcount, hl1]
        omega

/-- Witness of C17 (amended): from `headerLineState`, where `a.h` is open above `main.c` and
holds the line `#include <b.h>`, `preprocessBuffer` visits two lines, enters one file and
returns twice, and the output grows from one entry to five; `preprocess` of `main.c` with the
one-line buffer `(` gives two entries, and with the two-line buffer `int x;`, `f(1);` it
returns with three entries. -/
theorem preprocess_output_tally_witness :
    headerLineState.mResult.length = 1 ∧ nestedDoneState.mResult.length = 5 ∧
    (∃ t, preprocessBufferTally 20 ⟨0, 0, ' '⟩ 1 nestedHost 6 headerLineState
        { lines := 0, entered := 0, returns := 0 } = .ok (nestedDoneState, t) ∧
      nestedDoneState.mResult.length = headerLineState.mResult.length + t.lines + t.returns ∧
      (headerLineState.mIncludes ≠ [] →
        t.returns + 1 = headerLineState.mIncludes.length + t.entered)) ∧
    preprocessBufferTally 20 ⟨0, 0, ' '⟩ 1 nestedHost 6 headerLineState
        { lines := 0, entered := 0, returns := 0 } =
      .ok (nestedDoneState, { lines := 2, entered := 1, returns := 2 }) ∧
    (∃ t, preprocessTally 2 20 ⟨0, 0, ' '⟩ 1 emptyHost freshState "main.c".toList
        ["(".toList] = .ok (oneLineDone, t) ∧
      oneLineDone.mResult.length = t.lines + t.returns + 1 ∧ t.returns = t.entered) ∧
    (∃ st2,
      preprocess 2 20 ⟨0, 0, ' '⟩ 1 emptyHost freshState "main.c".toList
        ["int x;".toList, "f(1);".toList] = .ok st2 ∧
      preprocessTally 2 20 ⟨0, 0, ' '⟩ 1 emptyHost freshState "main.c".toList
        ["int x;".toList, "f(1);".toList] =
          .ok (st2, { lines := 2, entered := 0, returns := 0 }) ∧
      st2.mResult.length = 3) :=
  ⟨by rfl, by rfl,
   (preprocess_output_tally 6 20 ⟨0, 0, ' '⟩ 1 nestedHost headerLineState [] []).1
     nestedDoneState (by rfl),
   by rfl,
   (preprocess_output_tally 2 20 ⟨0, 0, ' '⟩ 1 emptyHost freshState "main.c".toList
     ["(".toList]).2.1 oneLineDone (by rfl),
   (preprocess_output_tally 0 20 ⟨0, 0, ' '⟩ 1 emptyHost freshState "main.c".toList
     ["int x;".toList, "f(1);".toList]).2.2 [] [] (by rfl) (by rfl) (by decide)⟩

end RedPanda
